import Mathlib

/-!
Verification development for the `model` Go package: an object-graph
persistence engine over Google App Engine datastore/memcache.

The development has three parts, each a shallow embedding of one layer of
the source:

* the property codec of `structures.go` (`toPropertyList`,
  `fromPropertyList`, `encodeStruct`, `decodeStruct`, `decodeField`),
  embedded over a deep grammar of record shapes;
* the reference-graph indexer of `model.go` (`index`, `isZero`,
  `isRegistered`), embedded over an instance tree with explicit addresses
  standing for Go pointer identity;
* the persistence operations of `extension.go`, `query.go`, `read.go`,
  `delete.go` and the memcache mirror (`saveInMemcache`,
  `loadFromMemcache`, `deleteFromMemcache`), embedded as state-passing
  functions over a datastore/memcache state that also record an event
  trace (puts, gets, deletes, cache writes, transactions).

Machine integers are modelled as `Int` with explicit width bounds where
the code checks overflow; Go float64 wire values are modelled as `Rat`
(the overflow predicate of `reflect.Value.OverflowFloat` is exact on the
represented value); dot-joined property names are modelled as their list
of path segments, which is faithful because Go struct field names cannot
contain the separator.
-/

deriving instance DecidableEq for Except

namespace GoModel

/-! ## Part 1: the property codec (structures.go)

Property names.  The source joins nested field names with the separator
`valSeparator = "."` and splits them with `baseName` / `pureName` /
`childName` (structures.go:512-543).  Segments are Go struct field names
and therefore never contain a dot, so the string functions correspond
exactly to the list operations below. -/

/-- A dot-joined property name, as its list of path segments. -/
abbrev FieldPath := List String

/-- Embeds `baseName` (structures.go:520): everything before the last
separator, or the whole name when there is none. -/
def baseName : FieldPath → FieldPath
  | [] => []
  | [n] => [n]
  | n :: n2 :: rest => (n :: n2 :: rest).dropLast

/-- Embeds `pureName` (structures.go:529): everything after the last
separator, or the whole name when there is none. -/
def pureName : FieldPath → String
  | [] => ""
  | [n] => n
  | _ :: rest => pureName rest

/-- Embeds `childName` (structures.go:537): everything after the first
separator, or the whole name when there is none. -/
def childName : FieldPath → FieldPath
  | [] => []
  | [n] => [n]
  | _ :: rest => rest

/-- Width of a Go signed integer field (`int`, `int8`, `int16`, `int32`,
`int64`; `int` is 64-bit on App Engine). -/
inductive IntW where
  | w8 | w16 | w32 | w64
deriving DecidableEq, Repr

/-- Bit size of an integer width. -/
def IntW.bits : IntW → Nat
  | .w8 => 8
  | .w16 => 16
  | .w32 => 32
  | .w64 => 64

/-- Embeds `reflect.Value.OverflowInt` (negated): a wire `int64` value
fits in a field of width `w` iff it lies in the two's-complement range. -/
def intFits (w : IntW) (x : Int) : Bool :=
  decide (-(2 ^ (w.bits - 1)) ≤ x) && decide (x < 2 ^ (w.bits - 1))

/-- Exact value of `math.MaxFloat32`, the bound used by
`reflect.Value.OverflowFloat` for float32 fields. -/
def maxFloat32 : ℚ := 2 ^ 128 - 2 ^ 104

/-- Primitive field type of a record shape. -/
inductive PrimTy where
  | int (w : IntW)
  | str
  | bool
  | float (is32 : Bool)
deriving DecidableEq, Repr

/-- Primitive field value. -/
inductive PrimVal where
  | int (x : Int)
  | str (s : String)
  | bool (b : Bool)
  | float (q : ℚ)
deriving DecidableEq, Repr

/-- Wire value of a `datastore.Property` (the `Value interface` field):
int64, string, bool, float64, `*datastore.Key` (possibly a typed nil
pointer, modelled as `key none`), byte slice, or untyped nil. -/
inductive PValue where
  | int (x : Int)
  | str (s : String)
  | bool (b : Bool)
  | float (q : ℚ)
  | key (k : Option Nat)
  | bytes (bs : List Nat)
  | null
deriving DecidableEq, Repr

/-- Embeds `datastore.Property`. -/
structure Property where
  name : FieldPath
  value : PValue
  multiple : Bool
  noIndex : Bool
deriving DecidableEq, Repr

/-- Shape of one field of a record, the slice of `encodedStruct` the codec
consults.  `ref` is a nested-record (modelable) field, of which the codec
reads and writes only the storage key; `plain` is a nested non-reference
struct with primitive fields (the source rejects deeper plain nesting:
`encodeStruct` looks the dot-joined name up in a map keyed by simple
names, structures.go:268-278); `slice` is a slice of non-byte primitives;
`bytes` is a byte slice. -/
inductive FieldSh where
  | prim (t : PrimTy)
  | ref
  | plain (sub : List (String × PrimTy))
  | slice (t : PrimTy)
  | bytes
deriving DecidableEq, Repr

/-- A record shape: the ordered, named field table. -/
abbrev Shape := List (String × FieldSh)

/-- Value of one field of a record instance.  For a `ref` field only the
storage key of the registered reference participates in the codec
(`toPropertyList` emits `rm.Key`, `fromPropertyList` assigns it back,
structures.go:579-584 and 735-747). -/
inductive FieldVal where
  | prim (v : PrimVal)
  | ref (key : Option Nat)
  | plain (vs : List PrimVal)
  | slice (vs : List PrimVal)
  | bytes (bs : List Nat)
deriving DecidableEq, Repr

/-- A record instance at the codec level: one value per shape field. -/
abbrev RecordV := List FieldVal

/-- Zero value of a primitive type. -/
def PrimTy.zeroVal : PrimTy → PrimVal
  | .int _ => .int 0
  | .str => .str ""
  | .bool => .bool false
  | .float _ => .float 0

/-- Zero value of a field. -/
def FieldSh.zeroVal : FieldSh → FieldVal
  | .prim t => .prim t.zeroVal
  | .ref => .ref none
  | .plain sub => .plain (sub.map fun p => p.2.zeroVal)
  | .slice _ => .slice []
  | .bytes => .bytes []

/-- Freshly allocated record of a shape (all fields zero), the state of a
new destination instance before `fromPropertyList` runs. -/
def zeroRecord (sh : Shape) : RecordV := sh.map fun f => f.2.zeroVal

/-- A primitive value inhabits a primitive type; integer values respect
the field width and float32 values respect the float32 range (so that the
value survives the overflow checks of `decodeField`). -/
def primWT : PrimTy → PrimVal → Bool
  | .int w, .int x => intFits w x
  | .str, .str _ => true
  | .bool, .bool _ => true
  | .float is32, .float q => !is32 || decide (|q| ≤ maxFloat32)
  | _, _ => false

/-- A field value inhabits a field shape. -/
def fieldWT : FieldSh → FieldVal → Bool
  | .prim t, .prim v => primWT t v
  | .ref, .ref _ => true
  | .plain sub, .plain vs =>
      sub.length == vs.length && (List.zip sub vs).all fun pv => primWT pv.1.2 pv.2
  | .slice t, .slice vs => vs.all (primWT t)
  | .bytes, .bytes _ => true
  | _, _ => false

/-- A record instance inhabits a shape. -/
def recordWT (sh : Shape) (r : RecordV) : Bool :=
  sh.length == r.length && (List.zip sh r).all fun p => fieldWT p.1.2 p.2

/-! ### Encoding (`toPropertyList`, structures.go:545-719) -/

/-- Wire value of a primitive: integers widen to int64 (`v.Int()`),
floats to float64 (`v.Float()`), both exactly. -/
def encodePrim : PrimVal → PValue
  | .int x => .int x
  | .str s => .str s
  | .bool b => .bool b
  | .float q => .float q

/-- Embeds `encodeStruct` (structures.go:202-284) for a flat nested
struct reached from `toPropertyList` with `multiple = false`: each
primitive subfield becomes one property whose name is the nested struct
field name followed by the subfield name. -/
def encodeStructProps (outer : String) (sub : List (String × PrimTy))
    (vs : List PrimVal) : List Property :=
  (List.zip sub vs).map fun pv =>
    { name := [outer, pv.1.1], value := encodePrim pv.2,
      multiple := false, noIndex := false }

/-- Encodes one field of a record, following the corresponding branch of
`toPropertyList`: a reference emits a single key-valued property
(structures.go:579-584); a primitive emits one property; a flat nested
struct encodes through `encodeStruct`; a non-byte slice emits one
property per element, all sharing the field name, with `Multiple` and
`NoIndex` set (structures.go:658-690); a byte slice emits one
`Multiple`/`NoIndex` property holding the bytes (structures.go:695-698). -/
def encodeFieldProps : String → FieldSh → FieldVal → Except String (List Property)
  | n, .ref, .ref k =>
      .ok [{ name := [n], value := .key k, multiple := false, noIndex := false }]
  | n, .prim _, .prim v =>
      .ok [{ name := [n], value := encodePrim v, multiple := false, noIndex := false }]
  | n, .plain sub, .plain vs => .ok (encodeStructProps n sub vs)
  | n, .slice _, .slice vs =>
      .ok (vs.map fun v =>
        { name := [n], value := encodePrim v, multiple := true, noIndex := true })
  | n, .bytes, .bytes bs =>
      .ok [{ name := [n], value := .bytes bs, multiple := true, noIndex := true }]
  | _, _, _ => .error "field value does not match mapped field shape"

/-- Embeds `toPropertyList` (structures.go:545-719): walks the fields in
struct order and concatenates the properties each one emits. -/
def toPropertyList : Shape → RecordV → Except String (List Property)
  | [], _ => .ok []
  | _, [] => .ok []
  | f :: sh, v :: r => do
      let ps ← encodeFieldProps f.1 f.2 v
      let rest ← toPropertyList sh r
      .ok (ps ++ rest)

/-! ### Decoding (`fromPropertyList`, `decodeStruct`, `decodeField`,
structures.go:326-543 and 721-791) -/

/-- Embeds the repeated-group insertion counters of `propertyLoader`
(structures.go:326-328): a map from full property name to the number of
elements of that repeated group decoded so far.  Insertion prepends, and
lookup takes the first hit. -/
abbrev Mem := List (FieldPath × Nat)

/-- Counter lookup, defaulting to zero like a Go map read. -/
def memGet (m : Mem) (n : FieldPath) : Nat :=
  match m with
  | [] => 0
  | p :: rest => if p.1 = n then p.2 else memGet rest n

/-- Counter update. -/
def memSet (m : Mem) (n : FieldPath) (v : Nat) : Mem := (n, v) :: m

/-- Decodes one property into a primitive field, embedding `decodeField`
(structures.go:457-510).  `old` is the current field value, which an
untyped-nil string property leaves unchanged (the source sets nothing in
that case); integer and float wire values are range-checked against the
field width before being stored. -/
def decodeField (t : PrimTy) (old : PrimVal) (p : Property) : Except String PrimVal :=
  match t with
  | .int w =>
      match p.value with
      | .int x =>
          if intFits w x then .ok (.int x)
          else .error "value overflows struct field"
      | .null => .ok (.int 0)
      | _ => .error "error 1"
  | .bool =>
      match p.value with
      | .bool b => .ok (.bool b)
      | .null => .ok (.bool false)
      | _ => .error "error 2"
  | .str =>
      match p.value with
      | .str s => .ok (.str s)
      | .bytes bs => .ok (.str (String.mk (bs.map Char.ofNat)))
      | .null => .ok old
      | _ => .error "error 3"
  | .float is32 =>
      match p.value with
      | .float q =>
          if is32 && decide (maxFloat32 < |q|) then
            .error "value overflows struct field"
          else .ok (.float q)
      | .null => .ok (.float 0)
      | _ => .error "error 4"

/-- Position of the first list element satisfying a test. -/
def firstIdx {α : Type} (p : α → Bool) : List α → Option Nat
  | [] => none
  | a :: rest => if p a then some 0 else (firstIdx p rest).map (· + 1)

/-- Looks a dot-joined name up in a map keyed by simple field names: only
a single-segment path can match, because stored keys are Go field names
and contain no separator. -/
def lookupSub (sub : List (String × PrimTy)) : FieldPath → Option Nat
  | [n] => firstIdx (fun p => p.1 == n) sub
  | _ => none

/-- Decodes one property into one subfield of a flat nested struct, when
the given (single-segment) name matches a subfield; otherwise leaves the
values untouched, like the silent fallthrough of `decodeStruct`. -/
def decodePlainAt (sub : List (String × PrimTy)) (vs : List PrimVal)
    (n : FieldPath) (p : Property) : Except String (List PrimVal) :=
  match lookupSub sub n with
  | some i =>
      match sub.get? i, vs.get? i with
      | some st, some old => do
          let v ← decodeField st.2 old p
          .ok (vs.set i v)
      | _, _ => .ok vs
  | none => .ok vs

/-- Grows a list to the given length with zero elements, embedding the
`for field.Len() <= index` append loop of the slice case of
`decodeStruct` (structures.go:417-420). -/
def growTo (t : PrimTy) (vs : List PrimVal) (len : Nat) : List PrimVal :=
  if vs.length < len then growTo t (vs ++ [t.zeroVal]) len else vs
termination_by len - vs.length
decreasing_by
  simp only [List.length_append, List.length_cons, List.length_nil]
  omega

/-- Embeds `decodeStruct` (structures.go:331-454) for one target field of
the destination record, returning the updated field value and counters.

For a flat nested struct the source first tries the full property name
and then the name with its first segment dropped against the subfield
table (structures.go:377-393).  For a non-byte slice it rejects a
non-nil, non-byte value of a non-`Multiple` property, then appends or
overwrites at the position given by the per-name insertion counter.  For
a byte slice it stores the bytes (a nil or non-byte `Multiple` value
stores the nil byte slice).  A primitive field goes through
`decodeField`. -/
def decodeStructF (fsh : FieldSh) (fval : FieldVal) (p : Property) (mem : Mem) :
    Except String (FieldVal × Mem) :=
  match fsh, fval with
  | .prim t, .prim v => do
      let v2 ← decodeField t v p
      .ok (.prim v2, mem)
  | .plain sub, .plain vs => do
      let vs1 ← decodePlainAt sub vs p.name p
      let vs2 ← decodePlainAt sub vs1 (childName p.name) p
      .ok (.plain vs2, mem)
  | .slice t, .slice vs =>
      match p.value with
      | .bytes _ => decodeSliceElem t vs p mem
      | .null => decodeSliceElem t vs p mem
      | _ =>
          if p.multiple then decodeSliceElem t vs p mem
          else .error "invalid slice. Can only support byte slices"
  | .bytes, .bytes _ =>
      match p.value with
      | .bytes bs => .ok (.bytes bs, mem)
      | .null => .ok (.bytes [], mem)
      | _ =>
          if p.multiple then .ok (.bytes [], mem)
          else .error "invalid slice. Can only support byte slices"
  | _, _ => .error "unsupported load type"
where
  /-- The repeated-group body: read and bump the counter for the full
  property name, grow the slice to cover the index, decode the element. -/
  decodeSliceElem (t : PrimTy) (vs : List PrimVal) (p : Property) (mem : Mem) :
      Except String (FieldVal × Mem) :=
    let i := memGet mem p.name
    let mem2 := memSet mem p.name (i + 1)
    let vs2 := growTo t vs (i + 1)
    match vs2.get? i with
    | some old => do
        let v ← decodeField t old p
        .ok (.slice (vs2.set i v), mem2)
    | none => .error "slice index out of range"

/-- First field of a shape carrying the given simple name, embedding both
`sType.FieldByName` and the `fieldNames` map lookup of the source (field
names are unique in a Go struct). -/
def findFieldIdx (sh : Shape) (n : String) : Option Nat :=
  firstIdx (fun f => f.1 == n) sh

/-- Map-style lookup of a dot-joined name among the simple field names of
a shape: only a single-segment path can match. -/
def findFieldIdxPath (sh : Shape) : FieldPath → Option Nat
  | [n] => findFieldIdx sh n
  | _ => none

/-- Index of the field named by a simple name when that field is a
reference field, embedding the guard `sType.FieldByName(pure)` followed
by `model.referenceAtIndex(field.Index[0]) != nil`
(structures.go:736-737). -/
def refIdxAt (sh : Shape) (s : String) : Option Nat :=
  match findFieldIdx sh s with
  | some i =>
      match sh.get? i with
      | some (_, .ref) => some i
      | _ => none
  | none => none

/-- Decodes a single property into the record, embedding one iteration of
the property loop of `fromPropertyList` (structures.go:729-774):

* if the last name segment names a reference field of the shape, the
  property must carry a key (or a nil one), which is assigned to the
  reference slot; any other value is an error;
* otherwise the name up to its last segment is looked up in the field
  table and, on a hit, routed through `decodeStruct`; a miss drops the
  property silently. -/
def decodeProp (sh : Shape) (acc : RecordV × Mem) (p : Property) :
    Except String (RecordV × Mem) :=
  match refIdxAt sh (pureName p.name) with
  | some i =>
      (match p.value with
        | .key k => .ok (acc.1.set i (.ref k), acc.2)
        | .null => .ok (acc.1.set i (.ref none), acc.2)
        | _ => .error ("no struct of type key found for reference "
            ++ pureName p.name))
  | none =>
      match findFieldIdxPath sh (baseName p.name) with
      | some j =>
          match sh.get? j, acc.1.get? j with
          | some fs, some fv => do
              let out ← decodeStructF fs.2 fv p acc.2
              .ok (acc.1.set j out.1, out.2)
          | _, _ => .ok acc
      | none => .ok acc

/-- Embeds `fromPropertyList` (structures.go:721-791): folds `decodeProp`
over the property list, starting from the destination record and empty
counters.  (The extension and PropertyLoadSaver branches of the source
fall outside the embedded shape grammar, which has no polymorphic
fields.) -/
def fromPropertyList (sh : Shape) (dst : RecordV) (props : List Property) :
    Except String RecordV := do
  let out ← props.foldlM (decodeProp sh) (dst, ([] : Mem))
  .ok out.1

/-- Round trip at the codec level: encode a record, then decode the
property list into a freshly allocated record of the same shape. -/
def roundTrip (sh : Shape) (r : RecordV) : Except String RecordV :=
  (toPropertyList sh r).bind fun props => fromPropertyList sh (zeroRecord sh) props

/-! ### Shape well-formedness

Conditions that hold for every shape arising from a Go struct (field
names within one struct are distinct), plus the collision condition that
the round-trip claim turns out to require. -/

/-- Membership test on a name list. -/
def nameIn (n : String) : List String → Bool
  | [] => false
  | m :: rest => (m == n) || nameIn n rest

/-- Pairwise-distinct names. -/
def distinctB : List String → Bool
  | [] => true
  | n :: rest => !(nameIn n rest) && distinctB rest

/-- Subfield names of a flat nested struct are distinct (trivially true
for every other field kind). -/
def subsDistinct : FieldSh → Bool
  | .plain sub => distinctB (sub.map Prod.fst)
  | _ => true

/-- No subfield of a flat nested struct shares its name with a reference
field of the enclosing shape (trivially true for other field kinds). -/
def subsNoRef (sh : Shape) : FieldSh → Bool
  | .plain sub => sub.all fun s => (refIdxAt sh s.1).isNone
  | _ => true

/-- Field names of the shape and of each flat nested struct are distinct,
as Go guarantees for any struct type. -/
def shapeWF (sh : Shape) : Bool :=
  distinctB (sh.map Prod.fst) && sh.all fun f => subsDistinct f.2

/-- No subfield of a flat nested struct shares its name with a reference
field of the enclosing shape.  When this fails, the decoder routes the
nested property to the reference slot and rejects its non-key value. -/
def noRefCollision (sh : Shape) : Bool :=
  sh.all fun f => subsNoRef sh f.2

/-- One repeated-group property per slice element, as the encoder emits. -/
def sliceProp (n : String) (v : PrimVal) : Property :=
  { name := [n], value := encodePrim v, multiple := true, noIndex := true }

/-- One property per flat-nested-struct subfield, as the encoder emits. -/
def plainProp (n sn : String) (v : PrimVal) : Property :=
  { name := [n, sn], value := encodePrim v, multiple := false, noIndex := false }

/-! ### Concrete codec instances used by the claim theorems -/

/-- Shape with a reference field and a flat nested struct whose subfield
reuses the reference field name, as Go permits
(`type P struct with Model; C Child; Nomo NoModel` where `NoModel` has a
field `C string`). -/
def colShape : Shape := [("C", .ref), ("Nomo", .plain [("C", .str)])]

/-- A record of `colShape` with a persisted reference and a non-empty
nested string. -/
def colRecord : RecordV := [.ref (some 5), .plain [.str "x"]]

/-- A representative well-formed shape exercising every embedded field
kind: primitives, a reference, a flat nested struct, a primitive slice
and a byte slice. -/
def wfShape : Shape :=
  [("Num", .prim (.int .w64)), ("Name", .prim .str), ("Frac", .prim (.float false)),
   ("Child", .ref), ("Nomo", .plain [("NName", .str), ("NNum", .int .w8)]),
   ("Tags", .slice (.int .w64)), ("Blob", .bytes)]

/-- A concrete record of `wfShape`. -/
def wfRecord : RecordV :=
  [.prim (.int 7), .prim (.str "x"), .prim (.float 2), .ref (some 3),
   .plain [.str "nn", .int 5], .slice [.int 1, .int 2, .int 3], .bytes [1, 2]]

/-! ## Part 2: records and the reference-graph indexer (model.go)

A record instance (a `modelable` with its embedded `Model`) is a tree.
`addr` models the Go address of the instance: the embedded struct field
of a parent has a fixed address, and `index` compares interface identity
(`orig == newRef`, model.go:308), which is address equality.  `key`
models the `*datastore.Key` of the `Model`, identified by a numeric key
id (two keys are the same Go pointer iff the ids are equal).
`readonly`, `skipIfZero` and `searchable` are the flags of the record's
`encodedStruct` as set from the parent's field tags.  `fields` lists the
struct fields in declaration order (the embedded `Model` excluded, as
every walk of the source skips it): a primitive field carries only its
zero-ness, a non-record nested struct carries its `isZero` value, and a
reference field carries the embedded child record with its `ancestor`
tag.  `refs` models `Model.references`: `none` is the nil slice of an
unindexed model; an entry holds the parent field index, the registered
child instance, the reference key and the ancestor flag.  The registered
child aliases the embedded field when their addresses agree; mutation of
key and registration state is tracked on the `refs` copy, which is the
one every persistence operation walks. -/

mutual

inductive MRec : Type where
  | mk (addr : Nat) (key : Option Nat) (registered : Bool)
       (readonly : Bool) (skipIfZero : Bool) (searchable : Bool)
       (fields : List MField) (refs : Option (List MRef))

inductive MField : Type where
  | prim (z : Bool)
  | strct (z : Bool)
  | refFld (child : MRec) (ancestor : Bool)

inductive MRef : Type where
  | mk (idx : Nat) (child : MRec) (key : Option Nat) (ancestor : Bool)

end

/-- Address of the instance. -/
def MRec.addr : MRec → Nat
  | .mk a _ _ _ _ _ _ _ => a

/-- Storage key (`Model.Key`), as a key id. -/
def MRec.key : MRec → Option Nat
  | .mk _ k _ _ _ _ _ _ => k

/-- The `Model.registered` flag. -/
def MRec.registeredB : MRec → Bool
  | .mk _ _ r _ _ _ _ _ => r

/-- The `readonly` flag of the record's `encodedStruct`. -/
def MRec.readonly : MRec → Bool
  | .mk _ _ _ ro _ _ _ _ => ro

/-- The `skipIfZero` flag of the record's `encodedStruct`. -/
def MRec.skipIfZero : MRec → Bool
  | .mk _ _ _ _ sz _ _ _ => sz

/-- The `searchable` flag of the record's `encodedStruct`. -/
def MRec.searchable : MRec → Bool
  | .mk _ _ _ _ _ se _ _ => se

/-- The struct fields. -/
def MRec.fields : MRec → List MField
  | .mk _ _ _ _ _ _ fs _ => fs

/-- The `Model.references` slice (`none` when nil). -/
def MRec.refs : MRec → Option (List MRef)
  | .mk _ _ _ _ _ _ _ rs => rs

/-- Replaces the storage key. -/
def MRec.withKey (m : MRec) (k : Option Nat) : MRec :=
  match m with
  | .mk a _ r ro sz se fs rs => .mk a k r ro sz se fs rs

/-- Parent field index of a reference. -/
def MRef.idx : MRef → Nat
  | .mk i _ _ _ => i

/-- Registered child instance of a reference. -/
def MRef.child : MRef → MRec
  | .mk _ c _ _ => c

/-- The key slot of a reference (`reference.Key`). -/
def MRef.key : MRef → Option Nat
  | .mk _ _ k _ => k

/-- The ancestor flag of a reference. -/
def MRef.ancestor : MRef → Bool
  | .mk _ _ _ a => a

/-- Reference fields of a struct with their field indices and ancestor
tags, embedding the walk over `encodedStruct.referencesIdx`
(model.go:262). -/
def refFieldsFrom : Nat → List MField → List (Nat × MRec × Bool)
  | _, [] => []
  | i, .prim _ :: rest => refFieldsFrom (i + 1) rest
  | i, .strct _ :: rest => refFieldsFrom (i + 1) rest
  | i, .refFld c anc :: rest => (i, c, anc) :: refFieldsFrom (i + 1) rest

/-- The embedded child record at a struct field index
(`obj.Field(num).Addr().Interface().(modelable)`, model.go:278,306). -/
def fieldChildAt (fields : List MField) (i : Nat) : Option MRec :=
  match fields.get? i with
  | some (.refFld c _) => some c
  | _ => none

mutual

/-- Embeds `Model.isRegistered` (model.go:94-107): the record and,
recursively, every registered reference must carry the flag. -/
def MRec.isRegistered : MRec → Bool
  | .mk _ _ reg _ _ _ _ none => reg
  | .mk _ _ reg _ _ _ _ (some rl) => reg && refsRegistered rl

def refsRegistered : List MRef → Bool
  | [] => true
  | r :: rs => refRegistered r && refsRegistered rs

def refRegistered : MRef → Bool
  | .mk _ c _ _ => c.isRegistered

end

mutual

/-- Embeds `isZero` (structures.go:286-324): primitive fields are
checked in declaration order until the first struct-kind field, whose
own zero-ness is returned immediately (the source returns
`isZero(field.Interface())` from inside the loop); the embedded `Model`
field is excluded from `fields` as the source skips it. -/
def isZeroRec : MRec → Bool
  | .mk _ _ _ _ _ _ fields _ => isZeroFlds fields

def isZeroFlds : List MField → Bool
  | [] => true
  | .prim z :: rest => if z then isZeroFlds rest else false
  | .strct z :: _ => z
  | .refFld c _ :: _ => isZeroRec c

end

/-- Carries the accumulated graph metadata of a replaced (stale)
reference onto the new field instance, embedding model.go:312-319: the
new instance adopts the old reference list and the old structure (hence
its flags), keeping its own address, key, fields and registration
state. -/
def carryForward (cNew cOld : MRec) : MRec :=
  .mk cNew.addr cNew.key cNew.registeredB cOld.readonly cOld.skipIfZero cOld.searchable
    cNew.fields cOld.refs

/-- One step of reference building for a freshly indexed record
(model.go:256-289): walks the reference fields in order, raising the
fatal duplicate-ancestor error when a second ancestor tag is seen, and
recursively indexing each child before registering it with an unset
reference key.  `rec` is the recursive indexing call at the next fuel
level. -/
def buildRefsS (rec : MRec → Except String MRec) :
    Bool → List (Nat × MRec × Bool) → Except String (List MRef)
  | _, [] => .ok []
  | hasAnc, (i, c, anc) :: rest =>
      if anc && hasAnc then .error "multiple ancestors set for model"
      else
        match rec c with
        | .error e => .error e
        | .ok c2 =>
            match buildRefsS rec (hasAnc || anc) rest with
            | .error e => .error e
            | .ok rl => .ok (.mk i c2 none anc :: rl)

/-- One step of re-indexing for an already indexed record
(model.go:292-326): a reference whose registered child is not fully
registered is re-indexed in place; an unchanged reference (same address
as the embedded field) is skipped; a swapped reference has the old
metadata carried onto the new instance, which is then re-indexed. -/
def reindexRefsS (rec : MRec → Except String MRec) (fields : List MField) :
    List MRef → Except String (List MRef)
  | [] => .ok []
  | .mk i c k anc :: rest =>
      if c.isRegistered = false then
        match rec c with
        | .error e => .error e
        | .ok c2 =>
            match reindexRefsS rec fields rest with
            | .error e => .error e
            | .ok rl => .ok (.mk i c2 k anc :: rl)
      else
        match fieldChildAt fields i with
        | none => .error "invalid reference field index"
        | some cNew =>
            if c.addr == cNew.addr then
              match reindexRefsS rec fields rest with
              | .error e => .error e
              | .ok rl => .ok (.mk i c k anc :: rl)
            else
              match rec (carryForward cNew c) with
              | .error e => .error e
              | .ok c4 =>
                  match reindexRefsS rec fields rest with
                  | .error e => .error e
                  | .ok rl => .ok (.mk i c4 k anc :: rl)

/-- One fuel level of `index` (model.go:211-329): attaches the structure
and the registered flag, preserves the key, then either builds the
reference list (nil slice) or re-indexes the existing one. -/
def indexS (rec : MRec → Except String MRec) : MRec → Except String MRec
  | .mk addr key _ ro sz se fields refsOpt =>
      match refsOpt with
      | none =>
          match buildRefsS rec false (refFieldsFrom 0 fields) with
          | .error e => .error e
          | .ok rl => .ok (.mk addr key true ro sz se fields (some rl))
      | some rl =>
          match reindexRefsS rec fields rl with
          | .error e => .error e
          | .ok rl2 => .ok (.mk addr key true ro sz se fields (some rl2))

/-- Embeds `index` with termination fuel (the source recurses along the
embedded reference structure, which is finite for any Go value; fuel at
least the tree height suffices).  The duplicate-ancestor panic of the
source is modelled as an error result. -/
def indexF : Nat → MRec → Except String MRec
  | 0, _ => .error "index: fuel exhausted"
  | n + 1, m => indexS (indexF n) m

/-- Alignment invariant of the Go aliasing: every registered reference
occupies the address of the embedded field it was taken from
(`obj.Field(num).Addr()`, model.go:278).  This holds for every record
the library itself produces; a raw structural copy of a record breaks it
(and is exactly what the swap branch of `index` repairs). -/
def alignedEntry (fields : List MField) (r : MRef) : Bool :=
  match fieldChildAt fields r.idx with
  | some c => r.child.addr == c.addr
  | none => false

/-- A record is aligned when every registered reference is (see
`alignedEntry`); a record with a nil reference slice is trivially so. -/
def topAligned (m : MRec) : Bool :=
  match m.refs with
  | none => true
  | some rl => rl.all (alignedEntry m.fields)

/-! ### Concrete record instances used by the indexer claim theorems -/

/-- A grandchild record (no reference fields), not yet indexed. -/
def exGrand : MRec := .mk 2 none false false false false [.prim true] none

/-- A child record embedding the grandchild, not yet indexed. -/
def exChild : MRec :=
  .mk 1 none false false false false [.prim true, .refFld exGrand false] none

/-- A root record with one primitive field, one reference field and one
plain nested struct, not yet indexed. -/
def exRoot : MRec :=
  .mk 0 none false false false false
    [.prim false, .refFld exChild false, .strct true] none

/-- The grandchild after indexing. -/
def exGrandI : MRec := .mk 2 none true false false false [.prim true] (some [])

/-- The child after indexing. -/
def exChildI : MRec :=
  .mk 1 none true false false false [.prim true, .refFld exGrand false]
    (some [.mk 1 exGrandI none false])

/-- The root after indexing: the reference list holds the recursively
indexed child at field index 1. -/
def exRootI : MRec :=
  .mk 0 none true false false false
    [.prim false, .refFld exChild false, .strct true]
    (some [.mk 1 exChildI none false])

/-! ## Part 3: persistence operations, datastore and memcache state

The datastore and memcache are modelled as association lists keyed by
key id.  A stored entity keeps the projection of `toPropertyList` the
graph operations observe: the reference-valued properties (field index
to child key), since `read` restores exactly those onto the reference
slots via `fromPropertyList` (structures.go:735-746) while primitive
payload bytes never feed back into the graph logic of the claims.

Every operation threads a state and also returns the trace of externally
visible events: datastore puts/gets/deletes, cache reads/writes and
transactions (a `tx` event wraps the trace produced inside
`datastore.RunInTransaction` together with its `Attempts` option).
Addresses in events identify the record instance written, so that
frame claims ("no write for this reference") are statements about the
trace. -/

/-- Stored entity: the reference-valued properties of the record
(`p.Value = rm.Key` for each reference field, structures.go:579-584). -/
structure Entity where
  refKeys : List (Nat × Option Nat)
deriving Repr

/-- Memcache entry, embedding `cacheModel` (unnamed/part_002:14-17): the
record payload plus the map from reference field index to the encoded
key of that reference's child. -/
structure CEntry where
  keyMap : List (Nat × Nat)
  payload : MRec

/-- Externally visible events of one operation. -/
inductive Ev where
  | dsPut (addr : Nat) (key : Nat)
  | dsGet (key : Nat)
  | dsDel (key : Nat)
  | cacheSet (addr : Nat) (ckey : Nat)
  | cacheGet (ckey : Nat)
  | cacheDel (ckey : Nat)
  | searchUpd (key : Nat)
  | tx (attempts : Nat) (inner : List Ev)

/-- Datastore plus memcache state; `nextKey` feeds key allocation on
insert (`datastore.Put` with an incomplete key). -/
structure St where
  ds : List (Nat × Entity)
  cache : List (Nat × CEntry)
  nextKey : Nat

/-- Association-list lookup (first hit). -/
def aget {β : Type} : List (Nat × β) → Nat → Option β
  | [], _ => none
  | p :: rest, k => if p.1 = k then some p.2 else aget rest k

/-- Association-list insert-or-overwrite. -/
def aput {β : Type} (l : List (Nat × β)) (k : Nat) (v : β) : List (Nat × β) :=
  (k, v) :: l

/-- Association-list removal. -/
def adel {β : Type} (l : List (Nat × β)) (k : Nat) : List (Nat × β) :=
  l.filter fun p => decide (p.1 ≠ k)

/-- Replaces the reference slice. -/
def MRec.withRefs (m : MRec) (rs : Option (List MRef)) : MRec :=
  match m with
  | .mk a k r ro sz se fs _ => .mk a k r ro sz se fs rs

/-- The entity stored for a record: one key-valued property per
reference, holding the registered child's current key. -/
def storeEntity (m : MRec) : Entity :=
  ⟨(m.refs.getD []).map fun r => (r.idx, r.child.key)⟩

/-- Assigns a loaded key property to the reference slot whose field
index matches, embedding the reference branch of `fromPropertyList`
(structures.go:735-746): the child model receives the stored key. -/
def setRefChildKey : List MRef → Nat → Option Nat → List MRef
  | [], _, _ => []
  | .mk i c ck anc :: rest, j, k =>
      if i = j then .mk i (c.withKey k) ck anc :: rest
      else .mk i c ck anc :: setRefChildKey rest j k

/-- Applies a fetched entity to the record: every stored reference
property overwrites the corresponding child key. -/
def applyEntity (m : MRec) (e : Entity) : MRec :=
  m.withRefs (m.refs.map fun rl =>
    e.refKeys.foldl (fun acc p => setRefChildKey acc p.1 p.2) rl)

/-- Embeds `CreateOptions` (extension.go:31-35). -/
structure CreateOptions where
  stringId : String
  intId : Int
  attempts : Nat

/-- Embeds `NewCreateOptions` / `new(CreateOptions)`: zero ids and zero
transaction attempts. -/
def NewCreateOptions : CreateOptions := ⟨"", 0, 0⟩

/-- Result of an operation returning a record. -/
abbrev RecRes := (Except String MRec) × St × List Ev

/-- Result of an operation returning a reference. -/
abbrev RefRes := (Except String MRef) × St × List Ev

/-- Result of an operation returning nothing. -/
abbrev URes := (Except String Unit) × St × List Ev

/-- Embeds `createReference` (extension.go:142-154): creates the child
with default options, then copies the assigned key onto the reference
slot. -/
def createRefS (createWO : CreateOptions → St → MRec → RecRes)
    (st : St) (ref : MRef) : RefRes :=
  match createWO NewCreateOptions st ref.child with
  | (.error e, st2, tr) => (.error e, st2, tr)
  | (.ok c2, st2, tr) => (.ok (.mk ref.idx c2 c2.key ref.ancestor), st2, tr)

/-- One iteration of the reference loop of `updateReference`
(query.go:391-422): a reference key from the parent wins, else a key on
the child is used, else a zero skip-if-zero child is kept empty, else
the child is created. -/
def updateRefLoop (updateRef : St → MRef → Nat → RefRes)
    (createRef : St → MRef → RefRes) :
    St → List MRef → (Except String (List MRef)) × St × List Ev
  | st, [] => (.ok [], st, [])
  | st, r :: rest =>
      let step : RefRes :=
        match r.key with
        | some k => updateRef st r k
        | none =>
            match r.child.key with
            | some ck => updateRef st r ck
            | none =>
                if r.child.skipIfZero && isZeroRec r.child then (.ok r, st, [])
                else createRef st r
      match step with
      | (.error e, st2, tr) => (.error e, st2, tr)
      | (.ok r2, st2, tr) =>
          match updateRefLoop updateRef createRef st2 rest with
          | (.error e, st3, tr2) => (.error e, st3, tr ++ tr2)
          | (.ok rl, st3, tr2) => (.ok (r2 :: rl), st3, tr ++ tr2)

/-- Embeds `updateReference` (query.go:379-435): aligns the child key
and the reference key with the parent-provided key, returns immediately
for a readonly child (no write is issued), otherwise resolves all child
references and overwrites the child's entity at the given key. -/
def updateRefS (updateRef : St → MRef → Nat → RefRes)
    (createRef : St → MRef → RefRes)
    (st : St) (ref : MRef) (k : Nat) : RefRes :=
  let c1 := ref.child.withKey (some k)
  if c1.readonly then (.ok (.mk ref.idx c1 (some k) ref.ancestor), st, [])
  else
    match updateRefLoop updateRef createRef st (c1.refs.getD []) with
    | (.error e, st2, tr) => (.error e, st2, tr)
    | (.ok rl2, st2, tr) =>
        let c2 := if c1.refs.isSome then c1.withRefs (some rl2) else c1
        let st3 : St := { st2 with ds := aput st2.ds k (storeEntity c2) }
        let tr2 := tr ++ [.dsPut c2.addr k]
          ++ (if c2.searchable then [.searchUpd k] else [])
        (.ok (.mk ref.idx c2 (some k) ref.ancestor), st3, tr2)

/-- One iteration of the reference loop of `createWithOptions`
(extension.go:95-123): a reference with a pre-set key is a fatal
precondition error; a child with its own key is updated (adopted); a
zero skip-if-zero child is left untouched, skipping the ancestor check;
otherwise the child is created.  The ancestor key accumulator picks up
the key of the ancestor-flagged reference. -/
def createLoop (updateRef : St → MRef → Nat → RefRes)
    (createRef : St → MRef → RefRes) :
    St → Option Nat → List MRef →
      (Except String (List MRef × Option Nat)) × St × List Ev
  | st, ancKey, [] => (.ok ([], ancKey), st, [])
  | st, ancKey, r :: rest =>
      if r.key.isSome then
        (.error "create called with a non-nil reference map", st, [])
      else if r.child.key.isNone && (r.child.skipIfZero && isZeroRec r.child) then
        match createLoop updateRef createRef st ancKey rest with
        | (.error e, st2, tr) => (.error e, st2, tr)
        | (.ok (rl, ancOut), st2, tr) => (.ok (r :: rl, ancOut), st2, tr)
      else
        match
          (match r.child.key with
            | some ck => updateRef st r ck
            | none => createRef st r) with
        | (.error e, st2, tr) => (.error e, st2, tr)
        | (.ok r2, st2, tr) =>
            let ancKey2 := if r2.ancestor then r2.key else ancKey
            match createLoop updateRef createRef st2 ancKey2 rest with
            | (.error e, st3, tr2) => (.error e, st3, tr ++ tr2)
            | (.ok (rl, ancOut), st3, tr2) => (.ok (r2 :: rl, ancOut), st3, tr ++ tr2)

/-- Embeds `createWithOptions` (extension.go:84-138): an existing key is
the fatal "already created" error raised before any datastore access;
otherwise the references are resolved, a key is allocated (string and
integer ids and ancestor scoping are not tracked beyond allocation) and
the encoded record is inserted as one unit; a searchable record then
refreshes its search projection. -/
def createWOS (updateRef : St → MRef → Nat → RefRes)
    (createRef : St → MRef → RefRes)
    (opts : CreateOptions) (st : St) (m : MRec) : RecRes :=
  if m.key.isSome then (.error "data has already been created", st, [])
  else
    match createLoop updateRef createRef st none (m.refs.getD []) with
    | (.error e, st2, tr) => (.error e, st2, tr)
    | (.ok (rl2, _ancKey), st2, tr) =>
        let m2 := if m.refs.isSome then m.withRefs (some rl2) else m
        let newKey := st2.nextKey
        let m3 := m2.withKey (some newKey)
        let st3 : St :=
          { st2 with ds := aput st2.ds newKey (storeEntity m2), nextKey := st2.nextKey + 1 }
        let tr2 := tr ++ [.dsPut m2.addr newKey]
          ++ (if m2.searchable then [.searchUpd newKey] else [])
        (.ok m3, st3, tr2)

/-- Ties the mutually recursive knot of `createWithOptions`,
`updateReference` and `createReference` with structural fuel: level
`n + 1` steps into the bodies with the level-`n` entry points. -/
def opsF : Nat →
    ((CreateOptions → St → MRec → RecRes)
      × (St → MRef → Nat → RefRes) × (St → MRef → RefRes))
  | 0 =>
      (fun _ st _ => (.error "create: fuel exhausted", st, []),
       fun st _ _ => (.error "updateReference: fuel exhausted", st, []),
       fun st _ => (.error "createReference: fuel exhausted", st, []))
  | n + 1 =>
      let prev := opsF n
      (createWOS prev.2.1 prev.2.2,
       updateRefS prev.2.1 prev.2.2,
       createRefS prev.1)

/-- The fuelled `createWithOptions`. -/
def createWithOptionsF (n : Nat) : CreateOptions → St → MRec → RecRes := (opsF n).1

/-- The fuelled `updateReference`. -/
def updateReferenceF (n : Nat) : St → MRef → Nat → RefRes := (opsF n).2.1

/-- The fuelled `createReference`. -/
def createReferenceF (n : Nat) : St → MRef → RefRes := (opsF n).2.2
/-- One iteration of the reference loop of `update` (query.go:447-473):
a keyed child wins (it was loaded or adopted), else a pre-set reference
key is used, else a zero skip-if-zero child is kept empty, else the
child is created fresh. -/
def updateRecLoop (updateRef : St → MRef → Nat → RefRes)
    (createRef : St → MRef → RefRes) :
    St → List MRef → (Except String (List MRef)) × St × List Ev
  | st, [] => (.ok [], st, [])
  | st, r :: rest =>
      let step : RefRes :=
        match r.child.key with
        | some ck => updateRef st r ck
        | none =>
            match r.key with
            | some k => updateRef st r k
            | none =>
                if r.child.skipIfZero && isZeroRec r.child then (.ok r, st, [])
                else createRef st r
      match step with
      | (.error e, st2, tr) => (.error e, st2, tr)
      | (.ok r2, st2, tr) =>
          match updateRecLoop updateRef createRef st2 rest with
          | (.error e, st3, tr2) => (.error e, st3, tr ++ tr2)
          | (.ok rl, st3, tr2) => (.ok (r2 :: rl), st3, tr ++ tr2)

/-- Embeds `update` (query.go:440-488): a missing key is a fatal
precondition error; otherwise references are resolved as in create
(adopted children updated in place), and the parent is re-encoded and
overwritten at its existing key; searchable records refresh their
projection. -/
def updateF (n : Nat) (st : St) (m : MRec) : RecRes :=
  match m.key with
  | none => (.error "cannot update modelable: missing key", st, [])
  | some key =>
      match updateRecLoop (updateReferenceF n) (createReferenceF n) st
          (m.refs.getD []) with
      | (.error e, st2, tr) => (.error e, st2, tr)
      | (.ok rl2, st2, tr) =>
          let m2 := if m.refs.isSome then m.withRefs (some rl2) else m
          let st3 : St := { st2 with ds := aput st2.ds key (storeEntity m2) }
          let tr2 := tr ++ [.dsPut m2.addr key]
            ++ (if m2.searchable then [.searchUpd key] else [])
          (.ok m2, st3, tr2)

/-- One fuel level of `read` (read.go:55-79): a keyless record is a
no-op; otherwise the entity is fetched, its reference keys are applied
to the children, and every reference is read recursively, its resolved
key propagated back onto the reference slot. -/
def readS (rec : St → MRec → RecRes) (st : St) (m : MRec) : RecRes :=
  match m.key with
  | none => (.ok m, st, [])
  | some k =>
      match aget st.ds k with
      | none => (.error "datastore: no such entity", st, [.dsGet k])
      | some ent =>
          let m1 := applyEntity m ent
          match readRefsLoop rec st (m1.refs.getD []) with
          | (.error e, st2, tr) => (.error e, st2, .dsGet k :: tr)
          | (.ok rl2, st2, tr) =>
              let m2 := if m1.refs.isSome then m1.withRefs (some rl2) else m1
              (.ok m2, st2, .dsGet k :: tr)
where
  /-- The reference loop of `read` (read.go:68-76). -/
  readRefsLoop (rec : St → MRec → RecRes) :
      St → List MRef → (Except String (List MRef)) × St × List Ev
    | st, [] => (.ok [], st, [])
    | st, r :: rest =>
        match rec st r.child with
        | (.error e, st2, tr) => (.error e, st2, tr)
        | (.ok c2, st2, tr) =>
            match readRefsLoop rec st2 rest with
            | (.error e, st3, tr2) => (.error e, st3, tr ++ tr2)
            | (.ok rl, st3, tr2) =>
                (.ok (.mk r.idx c2 c2.key r.ancestor :: rl), st3, tr ++ tr2)

/-- The fuelled `read`. -/
def readF : Nat → St → MRec → RecRes
  | 0, st, _ => (.error "read: fuel exhausted", st, [])
  | n + 1, st, m => readS (readF n) st m

/-- One fuel level of `clear` (delete.go:31-54): a keyless record is a
no-op; otherwise every non-readonly reference is cleared recursively and
the record's own entity is deleted. -/
def clearS (rec : St → MRec → URes) (st : St) (m : MRec) : URes :=
  match m.key with
  | none => (.ok (), st, [])
  | some k =>
      match clearRefsLoop rec st (m.refs.getD []) with
      | (.error e, st2, tr) => (.error e, st2, tr)
      | (.ok _, st2, tr) =>
          ((.ok (), { st2 with ds := adel st2.ds k }, tr ++ [.dsDel k]))
where
  /-- The reference loop of `clear` (delete.go:38-49). -/
  clearRefsLoop (rec : St → MRec → URes) :
      St → List MRef → URes
    | st, [] => (.ok (), st, [])
    | st, r :: rest =>
        if r.child.readonly then clearRefsLoop rec st rest
        else
          match rec st r.child with
          | (.error e, st2, tr) => (.error e, st2, tr)
          | (.ok _, st2, tr) =>
              match clearRefsLoop rec st2 rest with
              | (.error e, st3, tr2) => (.error e, st3, tr ++ tr2)
              | (.ok _, st3, tr2) => (.ok (), st3, tr ++ tr2)

/-- The fuelled `clear`. -/
def clearF : Nat → St → MRec → URes
  | 0, st, _ => (.error "clear: fuel exhausted", st, [])
  | n + 1, st, m => clearS (clearF n) st m

/-! ### The memcache mirror (unnamed/part_002) -/

/-- Encoded key of a storage key: key ids stand for their encodings
(distinct keys encode distinctly). -/
def encKey (k : Nat) : Nat := k

/-- Embeds `validCacheKey` (unnamed/part_002:21-25): the encoded key,
rendered in decimal, must not exceed 250 bytes, i.e. 250 digits. -/
def validCacheKey (k : Nat) : Bool := decide (k < 10 ^ 250)

/-- One iteration of the reference loop of `saveInMemcache`
(unnamed/part_002:52-78): readonly references and keyless children are
skipped; a child whose own key is not the identical key object recorded
on the reference slot is a fatal error; otherwise the child is saved
recursively and its encoded key recorded in the key map. -/
def saveRefsLoop (save : St → MRec → URes) :
    St → List MRef → (Except String (List (Nat × Nat))) × St × List Ev
  | st, [] => (.ok [], st, [])
  | st, r :: rest =>
      if r.child.readonly then saveRefsLoop save st rest
      else
        match r.child.key with
        | none => saveRefsLoop save st rest
        | some ck =>
            if r.key = some ck then
              match save st r.child with
              | (.error e, st2, tr) => (.error e, st2, tr)
              | (.ok _, st2, tr) =>
                  match saveRefsLoop save st2 rest with
                  | (.error e, st3, tr2) => (.error e, st3, tr ++ tr2)
                  | (.ok km, st3, tr2) =>
                      (.ok ((r.idx, encKey ck) :: km), st3, tr ++ tr2)
            else
              (.error "cannot save to memcache: reference key mismatch", st, [])

/-- One fuel level of `saveInMemcache` (unnamed/part_002:29-87): an
unregistered record is an error, a keyless one a silent no-op; the key
must satisfy the cache bound; the references are walked building the
key map, and only then is the record's own entry written. -/
def saveInMemcacheS (save : St → MRec → URes) (st : St) (m : MRec) : URes :=
  if m.isRegistered = false then (.error "modelable is not registered", st, [])
  else
    match m.key with
    | none => (.ok (), st, [])
    | some k =>
        if validCacheKey (encKey k) = false then
          (.error "cacheModel box key is too long", st, [])
        else
          match saveRefsLoop save st (m.refs.getD []) with
          | (.error e, st2, tr) => (.error e, st2, tr)
          | (.ok km, st2, tr) =>
              (.ok (), { st2 with cache := aput st2.cache (encKey k) ⟨km, m⟩ },
                tr ++ [.cacheSet m.addr (encKey k)])

/-- The fuelled `saveInMemcache`. -/
def saveInMemcacheF : Nat → St → MRec → URes
  | 0, st, _ => (.error "memcache save: fuel exhausted", st, [])
  | n + 1, st, m => saveInMemcacheS (saveInMemcacheF n) st m

/-- One iteration of the reference loop of `loadFromMemcache`
(unnamed/part_002:111-137): a reference absent from the stored key map
aborts the whole load with the cache-miss error; a present one has its
key decoded onto the child, which is then loaded recursively.  (The
source assigns the decoded key to a loop-local copy of the reference
slot, so the slot's own key field is left unchanged.) -/
def loadRefsLoop (load : St → MRec → RecRes) (keyMap : List (Nat × Nat)) :
    St → List MRef → (Except String (List MRef)) × St × List Ev
  | st, [] => (.ok [], st, [])
  | st, r :: rest =>
      match aget keyMap r.idx with
      | none => (.error "memcache: cache miss", st, [])
      | some ek =>
          match load st (r.child.withKey (some ek)) with
          | (.error e, st2, tr) => (.error e, st2, tr)
          | (.ok c2, st2, tr) =>
              match loadRefsLoop load keyMap st2 rest with
              | (.error e, st3, tr2) => (.error e, st3, tr ++ tr2)
              | (.ok rl, st3, tr2) =>
                  (.ok (.mk r.idx c2 r.key r.ancestor :: rl), st3, tr ++ tr2)

/-- One fuel level of `loadFromMemcache` (unnamed/part_002:89-159): a
keyless record is a silent no-op; a missing entry is a cache miss; all
references expected by the descriptor must be present in the stored key
map, and only on full success does the deferred copy replace the
record's value with the boxed payload (keeping the current model key and
registration). -/
def loadFromMemcacheS (load : St → MRec → RecRes) (st : St) (m : MRec) : RecRes :=
  match m.key with
  | none => (.ok m, st, [])
  | some k =>
      if validCacheKey (encKey k) = false then
        (.error "cacheModel box key is too long", st, [])
      else
        match aget st.cache (encKey k) with
        | none => (.error "memcache: cache miss", st, [.cacheGet (encKey k)])
        | some box =>
            match loadRefsLoop load box.keyMap st (m.refs.getD []) with
            | (.error e, st2, tr) => (.error e, st2, .cacheGet (encKey k) :: tr)
            | (.ok rl2, st2, tr) =>
                let out :=
                  match box.payload with
                  | .mk _ _ _ ro sz se fields _ =>
                      MRec.mk m.addr m.key m.registeredB ro sz se fields (some rl2)
                (.ok out, st2, .cacheGet (encKey k) :: tr)

/-- The fuelled `loadFromMemcache`. -/
def loadFromMemcacheF : Nat → St → MRec → RecRes
  | 0, st, _ => (.error "memcache load: fuel exhausted", st, [])
  | n + 1, st, m => loadFromMemcacheS (loadFromMemcacheF n) st m

/-- One fuel level of `deleteFromMemcache` (unnamed/part_002:161-194):
non-readonly references are cleared recursively, then the record's own
entry is removed; the in-memory key is cleared only when the removal
succeeded (an absent entry is the cache-miss error). -/
def deleteFromMemcacheS (del : St → MRec → RecRes) (st : St) (m : MRec) : RecRes :=
  match m.key with
  | none => (.ok m, st, [])
  | some k =>
      match deleteRefsLoop del st (m.refs.getD []) with
      | (.error e, st2, tr) => (.error e, st2, tr)
      | (.ok rl2, st2, tr) =>
          if validCacheKey (encKey k) = false then
            (.error "cacheModel box key is too long", st2, tr)
          else
            match aget st2.cache (encKey k) with
            | none => (.error "memcache: cache miss", st2, tr ++ [.cacheDel (encKey k)])
            | some _ =>
                (.ok ((m.withRefs (if m.refs.isSome then some rl2 else none)).withKey none),
                  { st2 with cache := adel st2.cache (encKey k) },
                  tr ++ [.cacheDel (encKey k)])
where
  /-- The reference loop of `deleteFromMemcache`
  (unnamed/part_002:169-180). -/
  deleteRefsLoop (del : St → MRec → RecRes) :
      St → List MRef → (Except String (List MRef)) × St × List Ev
    | st, [] => (.ok [], st, [])
    | st, r :: rest =>
        if r.child.readonly then
          match deleteRefsLoop del st rest with
          | (.error e, st2, tr) => (.error e, st2, tr)
          | (.ok rl, st2, tr) => (.ok (r :: rl), st2, tr)
        else
          match del st r.child with
          | (.error e, st2, tr) => (.error e, st2, tr)
          | (.ok c2, st2, tr) =>
              match deleteRefsLoop del st2 rest with
              | (.error e, st3, tr2) => (.error e, st3, tr ++ tr2)
              | (.ok rl, st3, tr2) =>
                  (.ok (.mk r.idx c2 r.key r.ancestor :: rl), st3, tr ++ tr2)

/-- The fuelled `deleteFromMemcache`. -/
def deleteFromMemcacheF : Nat → St → MRec → RecRes
  | 0, st, _ => (.error "memcache delete: fuel exhausted", st, [])
  | n + 1, st, m => deleteFromMemcacheS (deleteFromMemcacheF n) st m

/-! ### Top-level operations -/

/-- Embeds `datastore.RunInTransaction` with the given `Attempts`
option: the body's events are wrapped in a transaction event; on error
the datastore changes are rolled back. -/
def runTx {α : Type} (attempts : Nat) (st : St)
    (f : St → (Except String α) × St × List Ev) :
    (Except String α) × St × List Ev :=
  match f st with
  | (.error e, st2, tr) => (.error e, { st2 with ds := st.ds }, [.tx attempts tr])
  | (.ok a, st2, tr) => (.ok a, st2, [.tx attempts tr])

/-- Embeds `CreateWithOptions` (extension.go:55-76): the record is
indexed, then created — inside a transaction only when the caller
requested a positive attempt count — and on success mirrored to the
cache (a cache write failure is returned to the caller). -/
def CreateWithOptionsF (n : Nat) (copts : CreateOptions) (st : St) (m : MRec) : RecRes :=
  match indexF n m with
  | .error e => (.error e, st, [])
  | .ok m1 =>
      match
        (if copts.attempts > 0 then
          runTx copts.attempts st (fun st0 => createWithOptionsF n copts st0 m1)
        else createWithOptionsF n copts st m1) with
      | (.error e, st2, tr) => (.error e, st2, tr)
      | (.ok m2, st2, tr) =>
          match saveInMemcacheF n st2 m2 with
          | (.error e, st3, tr2) => (.error e, st3, tr ++ tr2)
          | (.ok _, st3, tr2) => (.ok m2, st3, tr ++ tr2)

/-- Embeds `Create` (extension.go:80-82): `CreateWithOptions` with
`new(CreateOptions)` — zero ids, zero attempts. -/
def CreateF (n : Nat) (st : St) (m : MRec) : RecRes :=
  CreateWithOptionsF n NewCreateOptions st m

/-- Embeds `Update` (query.go:365-377): index, update directly (no
transaction), then mirror to the cache. -/
def UpdateF (n : Nat) (st : St) (m : MRec) : RecRes :=
  match indexF n m with
  | .error e => (.error e, st, [])
  | .ok m1 =>
      match updateF n st m1 with
      | (.error e, st2, tr) => (.error e, st2, tr)
      | (.ok m2, st2, tr) =>
          match saveInMemcacheF n st2 m2 with
          | (.error e, st3, tr2) => (.error e, st3, tr ++ tr2)
          | (.ok _, st3, tr2) => (.ok m2, st3, tr ++ tr2)

/-- Embeds `UpdateInTransaction` (query.go:346-363): like `Update` but
the update runs inside a cross-group transaction with exactly one
attempt. -/
def UpdateInTransactionF (n : Nat) (st : St) (m : MRec) : RecRes :=
  match indexF n m with
  | .error e => (.error e, st, [])
  | .ok m1 =>
      match runTx 1 st (fun st0 => updateF n st0 m1) with
      | (.error e, st2, tr) => (.error e, st2, tr)
      | (.ok m2, st2, tr) =>
          match saveInMemcacheF n st2 m2 with
          | (.error e, st3, tr2) => (.error e, st3, tr ++ tr2)
          | (.ok _, st3, tr2) => (.ok m2, st3, tr ++ tr2)

/-- Embeds `Read` (read.go:9-24): index, consult the cache first and
return on a hit; on any cache error fall through to the datastore read
and mirror the result back to the cache, where a cache write failure is
only logged, never surfaced. -/
def ReadF (n : Nat) (st : St) (m : MRec) : RecRes :=
  match indexF n m with
  | .error e => (.error e, st, [])
  | .ok m1 =>
      match loadFromMemcacheF n st m1 with
      | (.ok m2, st2, tr) => (.ok m2, st2, tr)
      | (.error _, st2, tr) =>
          match readF n st2 m1 with
          | (.error e, st3, tr2) => (.error e, st3, tr ++ tr2)
          | (.ok m2, st3, tr2) =>
              match saveInMemcacheF n st3 m2 with
              | (_, st4, tr3) => (.ok m2, st4, tr ++ tr2 ++ tr3)

/-- Embeds `Clear` (delete.go:12-29): the recursive delete always runs
inside a cross-group transaction with exactly one attempt; on success
the cache entries are removed (the record result of the cache delete is
not observed by the caller). -/
def ClearF (n : Nat) (st : St) (m : MRec) : URes :=
  match runTx 1 st (fun st0 => clearF n st0 m) with
  | (.error e, st2, tr) => (.error e, st2, tr)
  | (.ok _, st2, tr) =>
      match deleteFromMemcacheF n st2 m with
      | (.error e, st3, tr2) => (.error e, st3, tr ++ tr2)
      | (.ok _, st3, tr2) => (.ok (), st3, tr ++ tr2)

/-! ### Trace predicates and concrete instances for the operation claims -/

/-- A datastore write event at the top level (outside any transaction). -/
def Ev.isBareDsWrite : Ev → Bool
  | .dsPut _ _ => true
  | .dsDel _ => true
  | _ => false

/-- A transaction event. -/
def Ev.isTx : Ev → Bool
  | .tx _ _ => true
  | _ => false

/-- A cache event. -/
def Ev.isCacheEv : Ev → Bool
  | .cacheSet _ _ => true
  | .cacheGet _ => true
  | .cacheDel _ => true
  | _ => false

/-- The trace contains a datastore write outside any transaction. -/
def hasBareDsWrite (tr : List Ev) : Bool := tr.any Ev.isBareDsWrite

/-- The trace opens no transaction. -/
def noTx (tr : List Ev) : Bool := tr.all fun e => !e.isTx

/-- The trace consists of cache events only. -/
def cacheOnly (tr : List Ev) : Bool := tr.all fun e => e.isCacheEv

/-- Every transaction event in the trace uses the given attempt count. -/
def txAttemptsOk (a : Nat) (tr : List Ev) : Bool :=
  tr.all fun e =>
    match e with
    | .tx a2 _ => a2 == a
    | _ => true

/-- Membership in a list of addresses. -/
def addrIn (a : Nat) : List Nat → Bool
  | [] => false
  | b :: rest => (b == a) || addrIn a rest

mutual

/-- Addresses of a record and of all records reachable through its
registered references (the instances the persistence operations can
touch). -/
def recAddrs : MRec → List Nat
  | .mk a _ _ _ _ _ _ none => [a]
  | .mk a _ _ _ _ _ _ (some rl) => a :: refsAddrs rl

/-- Addresses reachable from a reference list. -/
def refsAddrs : List MRef → List Nat
  | [] => []
  | r :: rest => refAddrsOf r ++ refsAddrs rest

/-- Addresses reachable from one reference. -/
def refAddrsOf : MRef → List Nat
  | .mk _ c _ _ => recAddrs c

end

/-- Every datastore put in the trace targets an allowed address, and the
trace opens no transaction. -/
def putsWithin (allowed : List Nat) (tr : List Ev) : Bool :=
  tr.all fun e =>
    match e with
    | .dsPut a _ => addrIn a allowed
    | .tx _ _ => false
    | _ => true

/-- The trace contains a datastore put for the given record address
(top level; together with `noTx` this covers the whole trace). -/
def hasPutFor (a : Nat) (tr : List Ev) : Bool :=
  tr.any fun e =>
    match e with
    | .dsPut a2 _ => a2 == a
    | _ => false

/-- The trace writes no cache entry for the given record address. -/
def noCacheSetFor (a : Nat) (tr : List Ev) : Bool :=
  tr.all fun e =>
    match e with
    | .cacheSet a2 _ => !(a2 == a)
    | _ => true

/-- Every cache write in the trace targets an allowed address. -/
def cacheSetsWithin (allowed : List Nat) (tr : List Ev) : Bool :=
  tr.all fun e =>
    match e with
    | .cacheSet a _ => addrIn a allowed
    | _ => true

/-- Empty initial state. -/
def st0 : St := ⟨[], [], 100⟩

/-- The grandchild of the operation examples (mirrors `Grandchild` of
the tests), zero-valued and keyless. -/
def exGc2 : MRec := .mk 12 none false false false false [.prim true] none

/-- The child (mirrors `Child`): one non-zero primitive and the
grandchild reference. -/
def exCh2 : MRec := .mk 11 none false false false false [.prim false, .refFld exGc2 false] none

/-- The skip-if-empty child (mirrors `EmptyChild`), zero-valued. -/
def exEmpty : MRec := .mk 13 none false false true false [.prim true] none

/-- The readonly child (mirrors `ReadonlyChild`), keyless and
non-zero. -/
def exRO : MRec := .mk 14 none false true false false [.prim false] none

/-- The parent entity of the operation examples (mirrors `Entity`). -/
def exEnt : MRec := .mk 10 none false false false false
  [.prim false, .prim false, .refFld exCh2 false, .refFld exEmpty false,
   .refFld exRO false, .strct true] none

/-- The parent after indexing (what `index` produces for `exEnt`). -/
def exEntI : MRec :=
  match indexF 10 exEnt with
  | .ok m => m
  | .error _ => exEnt

/-- A keyed parent holding only a keyless readonly reference, after
indexing: the C4 counterexample input. -/
def exPRO : MRec := .mk 20 (some 55) true false false false [.refFld exRO false]
  (some [.mk 0 (.mk 14 none true true false false [.prim false] (some [])) none false])

/-- A keyed readonly child, as after loading it from the datastore. -/
def exROk : MRec := .mk 14 (some 77) true true false false [.prim false] (some [])

/-- A keyed parent holding the keyed readonly reference, aligned as
update leaves it. -/
def exPROk : MRec := .mk 20 (some 55) true false false false [.refFld exROk false]
  (some [.mk 0 exROk (some 77) false])

/-- A keyed, registered child record used by the memcache examples. -/
def exMCChild : MRec := .mk 31 (some 9) true false false false [.prim false] (some [])

/-- A registered parent whose reference slot records key 5 while the
child itself holds key 9: the identity mismatch of the C10 scenario. -/
def exMCPar : MRec := .mk 30 (some 8) true false false false [.refFld exMCChild false]
  (some [.mk 0 exMCChild (some 5) false])

/-- A cache state holding an entry for the parent whose key map is
empty, so the reference expected by the descriptor is absent. -/
def stC5 : St := ⟨[], [(8, ⟨[], exMCPar⟩)], 100⟩

/-- Events a create/update operation can emit: datastore puts and
search-projection refreshes. -/
def opEv : Ev → Bool
  | .dsPut _ _ => true
  | .searchUpd _ => true
  | _ => false

/-- The skip-if-empty reference entry of the indexed parent (field
index 3, the registered `EmptyChild` instance). -/
def exSkipRef : MRef :=
  .mk 3 (.mk 13 none true false true false [.prim true] (some [])) none false

/-- The parent as returned by a successful `Create` of `exEntI`. -/
def exEntC : MRec :=
  match (CreateF 10 st0 exEntI).1 with
  | .ok m => m
  | .error _ => exEntI

/-! ## Codec theorems: supporting lemmas -/

/-! ### List and routing lemmas for the codec proofs -/

theorem set_of_get_eq {α : Type} (l : List α) (i : Nat) (a : α)
    (h : l.get? i = some a) : l.set i a = l := by
  rw [List.get?_eq_getElem?] at h
  induction l generalizing i with
  | nil => simp at h
  | cons x xs ih =>
      cases i with
      | zero => simp at h; simp [List.set, h]
      | succ k =>
          rw [List.getElem?_cons_succ] at h
          simp [List.set, ih k h]

theorem get_append_len {α : Type} (l1 : List α) (a : α) (l2 : List α) :
    (l1 ++ a :: l2).get? l1.length = some a := by
  induction l1 with
  | nil => rfl
  | cons x xs ih => simpa [List.get?] using ih

theorem set_append_len {α : Type} (l1 : List α) (a b : α) (l2 : List α) :
    (l1 ++ a :: l2).set l1.length b = l1 ++ b :: l2 := by
  induction l1 with
  | nil => rfl
  | cons x xs ih => simp [List.set, ih]

theorem nameIn_false {n : String} {l : List String} (h : nameIn n l = false) :
    ∀ m ∈ l, (m == n) = false := by
  induction l with
  | nil => intro m hm; cases hm
  | cons x xs ih =>
      simp [nameIn, Bool.or_eq_false_iff] at h
      intro m hm
      rcases List.mem_cons.mp hm with rfl | hm2
      · simpa using h.1
      · exact ih (by simpa using h.2) m hm2

theorem distinct_split {l1 l2 : List String} {n : String}
    (h : distinctB (l1 ++ n :: l2) = true) :
    (∀ m ∈ l1, (m == n) = false) ∧ (∀ m ∈ l2, (m == n) = false) := by
  induction l1 with
  | nil =>
      simp [distinctB, Bool.and_eq_true] at h
      exact ⟨fun m hm => absurd hm (List.not_mem_nil m), nameIn_false (by simpa using h.1)⟩
  | cons x xs ih =>
      simp only [List.cons_append, distinctB, Bool.and_eq_true, Bool.not_eq_true'] at h
      have hx : (x == n) = false := by
        have := nameIn_false h.1 n (by simp)
        simp at this ⊢
        exact fun heq => this heq.symm
      have := ih h.2
      exact ⟨fun m hm => by
        rcases List.mem_cons.mp hm with rfl | hm2
        · exact hx
        · exact this.1 m hm2, this.2⟩

theorem firstIdx_append {α : Type} (p : α → Bool) (l1 : List α) (a : α) (l2 : List α)
    (h : ∀ x ∈ l1, p x = false) (ha : p a = true) :
    firstIdx p (l1 ++ a :: l2) = some l1.length := by
  induction l1 with
  | nil => simp [firstIdx, ha]
  | cons x xs ih =>
      have hx := h x (by simp)
      have hrest := ih (fun y hy => h y (by simp [hy]))
      simp [List.cons_append, firstIdx, hx, hrest]

theorem findFieldIdx_append (pre : Shape) (n : String) (fs : FieldSh) (suf : Shape)
    (h : ∀ m ∈ pre.map Prod.fst, (m == n) = false) :
    findFieldIdx (pre ++ (n, fs) :: suf) n = some pre.length := by
  unfold findFieldIdx
  exact firstIdx_append _ pre (n, fs) suf
    (fun x hx => h x.1 (List.mem_map.mpr ⟨x, hx, rfl⟩)) (by simp)

theorem decodeField_encodePrim {t : PrimTy} {v : PrimVal} (old : PrimVal) (p : Property)
    (hwt : primWT t v = true) (hv : p.value = encodePrim v) :
    decodeField t old p = .ok v := by
  cases t with
  | int w =>
      cases v with
      | int x => simp [primWT] at hwt; simp [decodeField, hv, encodePrim, hwt]
      | str s => simp [primWT] at hwt
      | bool b => simp [primWT] at hwt
      | float q => simp [primWT] at hwt
  | str =>
      cases v with
      | int x => simp [primWT] at hwt
      | str s => simp [decodeField, hv, encodePrim]
      | bool b => simp [primWT] at hwt
      | float q => simp [primWT] at hwt
  | bool =>
      cases v with
      | int x => simp [primWT] at hwt
      | str s => simp [primWT] at hwt
      | bool b => simp [decodeField, hv, encodePrim]
      | float q => simp [primWT] at hwt
  | float is32 =>
      cases v with
      | int x => simp [primWT] at hwt
      | str s => simp [primWT] at hwt
      | bool b => simp [primWT] at hwt
      | float q =>
          simp [primWT] at hwt
          cases is32 with
          | false => simp [decodeField, hv, encodePrim]
          | true =>
              simp at hwt
              simp [decodeField, hv, encodePrim, not_lt.mpr hwt]

theorem refIdxAt_none_of_nonref {sh : Shape} {n : String} {j : Nat} {nm : String}
    {fs : FieldSh} (hfind : findFieldIdx sh n = some j)
    (hget : sh.get? j = some (nm, fs)) (hfs : ∀ _h : fs = .ref, False) :
    refIdxAt sh n = none := by
  unfold refIdxAt
  simp only [hfind, hget]
  cases fs with
  | ref => exact absurd rfl (hfs ·)
  | prim t => rfl
  | plain sub => rfl
  | slice t => rfl
  | bytes => rfl

theorem refIdxAt_some_of_ref {sh : Shape} {n : String} {j : Nat} {nm : String}
    (hfind : findFieldIdx sh n = some j) (hget : sh.get? j = some (nm, .ref)) :
    refIdxAt sh n = some j := by
  unfold refIdxAt
  simp only [hfind, hget]

theorem decodeProp_route {sh : Shape} {p : Property} {j : Nat} {fentry : String × FieldSh}
    {fv : FieldVal} (rv : RecordV) (mem : Mem)
    (href : refIdxAt sh (pureName p.name) = none)
    (hb : findFieldIdxPath sh (baseName p.name) = some j)
    (hsh : sh.get? j = some fentry) (hacc : rv.get? j = some fv) :
    decodeProp sh (rv, mem) p =
      (decodeStructF fentry.2 fv p mem).bind fun out => .ok (rv.set j out.1, out.2) := by
  unfold decodeProp
  simp only [href, hb, hsh, hacc]
  rfl

theorem decodeProp_refhit {sh : Shape} {p : Property} {i : Nat} {k : Option Nat}
    (rv : RecordV) (mem : Mem)
    (href : refIdxAt sh (pureName p.name) = some i) (hv : p.value = .key k) :
    decodeProp sh (rv, mem) p = .ok (rv.set i (.ref k), mem) := by
  unfold decodeProp
  simp only [href, hv]

theorem growTo_succ (t : PrimTy) (vs : List PrimVal) :
    growTo t vs (vs.length + 1) = vs ++ [t.zeroVal] := by
  rw [growTo, if_pos (by omega)]
  rw [growTo, if_neg (by simp)]


theorem encodePrim_not_bytes (v : PrimVal) :
    (∀ bs, encodePrim v = .bytes bs → False) ∧ (encodePrim v = .null → False) := by
  cases v <;> simp [encodePrim]

theorem decodeStructF_slice_step {t : PrimTy} {v : PrimVal} (vs : List PrimVal)
    (n : String) (mem : Mem) (hwt : primWT t v = true)
    (hmem : memGet mem [n] = vs.length) :
    decodeStructF (.slice t) (.slice vs) (sliceProp n v) mem =
      .ok (.slice (vs ++ [v]), memSet mem [n] (vs.length + 1)) := by
  have hnb := encodePrim_not_bytes v
  unfold decodeStructF
  have hval : (sliceProp n v).value = encodePrim v := rfl
  have hstep : decodeStructF.decodeSliceElem t vs (sliceProp n v) mem =
      .ok (.slice (vs ++ [v]), memSet mem [n] (vs.length + 1)) := by
    unfold decodeStructF.decodeSliceElem
    have hname : (sliceProp n v).name = [n] := rfl
    simp only [hname, hmem]
    rw [growTo_succ]
    have hget : (vs ++ [t.zeroVal]).get? vs.length = some t.zeroVal := get_append_len vs _ []
    rw [hget]
    simp only []
    rw [decodeField_encodePrim t.zeroVal (sliceProp n v) hwt hval]
    have hset : (vs ++ [t.zeroVal]).set vs.length v = vs ++ [v] := set_append_len vs _ v []
    show Except.ok (FieldVal.slice ((vs ++ [t.zeroVal]).set vs.length v),
      memSet mem [n] (vs.length + 1)) =
      Except.ok (FieldVal.slice (vs ++ [v]), memSet mem [n] (vs.length + 1))
    rw [hset]
  cases v with
  | int x => simpa [sliceProp, encodePrim] using hstep
  | str s => simpa [sliceProp, encodePrim] using hstep
  | bool b => simpa [sliceProp, encodePrim] using hstep
  | float q => simpa [sliceProp, encodePrim] using hstep




theorem memGet_memSet_self (mem : Mem) (q : FieldPath) (v : Nat) :
    memGet (memSet mem q v) q = v := by
  simp [memGet, memSet]

theorem memGet_memSet_other (mem : Mem) (q q2 : FieldPath) (v : Nat) (h : q2 ≠ q) :
    memGet (memSet mem q v) q2 = memGet mem q2 := by
  simp only [memGet, memSet]
  rw [if_neg (fun heq => h heq.symm)]

theorem decodeSliceBlock (sh : Shape) (j : Nat) (n : String) (t : PrimTy)
    (vpre vsuf : List PrimVal) (rv : RecordV) (mem : Mem)
    (hfind : findFieldIdx sh n = some j)
    (hget : sh.get? j = some (n, .slice t))
    (hrv : rv.get? j = some (.slice vpre))
    (hmem : memGet mem [n] = vpre.length)
    (hwt : vsuf.all (fun v => primWT t v) = true) :
    ∃ mem2, (vsuf.map (sliceProp n)).foldlM (decodeProp sh) (rv, mem)
        = .ok (rv.set j (.slice (vpre ++ vsuf)), mem2)
      ∧ ∀ q, q ≠ ([n] : FieldPath) → memGet mem2 q = memGet mem q := by
  induction vsuf generalizing vpre rv mem with
  | nil =>
      refine ⟨mem, ?_, fun q _ => rfl⟩
      simp only [List.map_nil, List.foldlM_nil, List.append_nil]
      rw [set_of_get_eq rv j _ hrv]
      rfl
  | cons v vsuf ih =>
      rw [List.all_cons, Bool.and_eq_true] at hwt
      have hwv : primWT t v = true := hwt.1
      have hwrest : vsuf.all (fun v => primWT t v) = true := hwt.2
      have hjlt : j < rv.length := by
        by_contra hge
        rw [List.get?_eq_getElem?, List.getElem?_eq_none (by omega)] at hrv
        cases hrv
      have hroute : decodeProp sh (rv, mem) (sliceProp n v) =
          .ok (rv.set j (.slice (vpre ++ [v])), memSet mem [n] (vpre.length + 1)) := by
        have href : refIdxAt sh (pureName (sliceProp n v).name) = none :=
          refIdxAt_none_of_nonref hfind hget (by intro h; cases h)
        have hb : findFieldIdxPath sh (baseName (sliceProp n v).name) = some j := by
          show findFieldIdxPath sh (baseName [n]) = some j
          simpa [findFieldIdxPath, baseName] using hfind
        rw [decodeProp_route rv mem href hb hget hrv]
        rw [decodeStructF_slice_step vpre n mem hwv hmem]
        rfl
      have hrv2 : (rv.set j (.slice (vpre ++ [v]))).get? j = some (.slice (vpre ++ [v])) := by
        rw [List.get?_eq_getElem?]
        exact List.getElem?_set_self hjlt
      have hmem2 : memGet (memSet mem [n] (vpre.length + 1)) [n] = (vpre ++ [v]).length := by
        rw [memGet_memSet_self]; simp
      obtain hih := ih (vpre ++ [v]) (rv.set j (.slice (vpre ++ [v])))
        (memSet mem [n] (vpre.length + 1)) hrv2 hmem2 hwrest
      obtain ⟨mem2, h1, h2⟩ := hih
      refine ⟨mem2, ?_, ?_⟩
      · rw [List.map_cons, List.foldlM_cons, hroute]
        rw [List.set_set, List.append_assoc] at h1
        show (vsuf.map (sliceProp n)).foldlM (decodeProp sh)
          (rv.set j (.slice (vpre ++ [v])), memSet mem [n] (vpre.length + 1)) =
          Except.ok (rv.set j (.slice (vpre ++ v :: vsuf)), mem2)
        simpa using h1
      · intro q hq
        rw [h2 q hq, memGet_memSet_other mem [n] q _ hq]


theorem encodeStructProps_eq_map (n : String) (sub : List (String × PrimTy))
    (vs : List PrimVal) :
    encodeStructProps n sub vs
      = (List.zip sub vs).map fun pv => plainProp n pv.1.1 pv.2 := rfl

theorem decodeStructF_plain_step {st : PrimTy} {v : PrimVal} (sub : List (String × PrimTy))
    (spre ssuf : List (String × PrimTy)) (sn : String)
    (vpre zsuf : List PrimVal) (n : String) (mem : Mem)
    (hsub : sub = spre ++ (sn, st) :: ssuf)
    (hpre : ∀ m ∈ spre.map Prod.fst, (m == sn) = false)
    (hlen : vpre.length = spre.length)
    (hwt : primWT st v = true) :
    decodeStructF (.plain sub) (.plain (vpre ++ st.zeroVal :: zsuf)) (plainProp n sn v) mem
      = .ok (.plain (vpre ++ v :: zsuf), mem) := by
  have hfull : decodePlainAt sub (vpre ++ st.zeroVal :: zsuf) (plainProp n sn v).name
      (plainProp n sn v) = .ok (vpre ++ st.zeroVal :: zsuf) := by
    show decodePlainAt sub _ [n, sn] _ = _
    unfold decodePlainAt lookupSub
    rfl
  have hlook : lookupSub sub [sn] = some spre.length := by
    unfold lookupSub
    rw [hsub]
    exact firstIdx_append _ spre (sn, st) ssuf
      (fun x hx => hpre x.1 (List.mem_map.mpr ⟨x, hx, rfl⟩)) (by simp)
  have hchild : decodePlainAt sub (vpre ++ st.zeroVal :: zsuf)
      (childName (plainProp n sn v).name) (plainProp n sn v)
      = .ok (vpre ++ v :: zsuf) := by
    show decodePlainAt sub _ [sn] _ = _
    unfold decodePlainAt
    have h1 : sub.get? spre.length = some (sn, st) := by
      rw [hsub]; exact get_append_len spre _ ssuf
    have h2 : (vpre ++ st.zeroVal :: zsuf).get? spre.length = some st.zeroVal := by
      rw [← hlen]; exact get_append_len vpre _ zsuf
    simp only [hlook, h1, h2]
    rw [decodeField_encodePrim st.zeroVal (plainProp n sn v) hwt rfl]
    have h3 : (vpre ++ st.zeroVal :: zsuf).set spre.length v = vpre ++ v :: zsuf := by
      rw [← hlen]; exact set_append_len vpre _ v zsuf
    show Except.ok ((vpre ++ st.zeroVal :: zsuf).set spre.length v) = _
    rw [h3]
  show (do
    let vs1 ← decodePlainAt sub (vpre ++ st.zeroVal :: zsuf) (plainProp n sn v).name
      (plainProp n sn v)
    let vs2 ← decodePlainAt sub vs1 (childName (plainProp n sn v).name) (plainProp n sn v)
    Except.ok ((.plain vs2 : FieldVal), mem)) = _
  rw [hfull]
  show (do
    let vs2 ← decodePlainAt sub (vpre ++ st.zeroVal :: zsuf)
      (childName (plainProp n sn v).name) (plainProp n sn v)
    Except.ok ((.plain vs2 : FieldVal), mem)) = _
  rw [hchild]
  rfl

theorem decodePlainBlock (sh : Shape) (j : Nat) (n : String)
    (sub spre ssuf : List (String × PrimTy)) (vpre vsuf : List PrimVal)
    (rv : RecordV) (mem : Mem)
    (hsub : sub = spre ++ ssuf)
    (hfind : findFieldIdx sh n = some j)
    (hget : sh.get? j = some (n, .plain sub))
    (hrv : rv.get? j = some (.plain (vpre ++ ssuf.map fun s => s.2.zeroVal)))
    (hlen : vpre.length = spre.length)
    (hd : distinctB (sub.map Prod.fst) = true)
    (hNC : ssuf.all (fun s => (refIdxAt sh s.1).isNone) = true)
    (hwt : (List.zip ssuf vsuf).all (fun pv => primWT pv.1.2 pv.2) = true)
    (hslen : ssuf.length = vsuf.length) :
    ((List.zip ssuf vsuf).map (fun pv => plainProp n pv.1.1 pv.2)).foldlM
        (decodeProp sh) (rv, mem)
      = .ok (rv.set j (.plain (vpre ++ vsuf)), mem) := by
  induction ssuf generalizing spre vpre vsuf rv with
  | nil =>
      have hv : vsuf = [] := List.length_eq_zero.mp (by simpa using hslen.symm)
      subst hv
      simp only [List.zip_nil_left, List.map_nil, List.foldlM_nil, List.append_nil]
      rw [set_of_get_eq rv j _ (by simpa using hrv)]
      rfl
  | cons s ssuf ih =>
      obtain ⟨sn, st⟩ := s
      cases vsuf with
      | nil => simp at hslen
      | cons v vsuf =>
          rw [List.all_cons, Bool.and_eq_true] at hNC
          rw [List.zip_cons_cons, List.all_cons, Bool.and_eq_true] at hwt
          have hjlt : j < rv.length := by
            by_contra hge
            rw [List.get?_eq_getElem?, List.getElem?_eq_none (by omega)] at hrv
            cases hrv
          have hpre : ∀ m ∈ spre.map Prod.fst, (m == sn) = false := by
            have hnames : sub.map Prod.fst
                = spre.map Prod.fst ++ sn :: ssuf.map Prod.fst := by
              rw [hsub]; simp
            rw [hnames] at hd
            exact (distinct_split hd).1
          have hrvred : rv.get? j
              = some (.plain (vpre ++ st.zeroVal :: ssuf.map fun s => s.2.zeroVal)) := by
            simpa using hrv
          have hroute : decodeProp sh (rv, mem) (plainProp n sn v) =
              .ok (rv.set j (.plain (vpre ++ v :: ssuf.map fun s => s.2.zeroVal)), mem) := by
            have href : refIdxAt sh (pureName (plainProp n sn v).name) = none := by
              show refIdxAt sh (pureName [n, sn]) = none
              have : pureName [n, sn] = sn := rfl
              rw [this]
              exact Option.isNone_iff_eq_none.mp (by simpa using hNC.1)
            have hb : findFieldIdxPath sh (baseName (plainProp n sn v).name) = some j := by
              show findFieldIdxPath sh (baseName [n, sn]) = some j
              have : baseName [n, sn] = [n] := rfl
              rw [this]
              simpa [findFieldIdxPath] using hfind
            rw [decodeProp_route rv mem href hb hget hrvred]
            rw [decodeStructF_plain_step sub spre ssuf sn vpre _ n mem hsub hpre hlen hwt.1]
            rfl
          have hrv2 : (rv.set j (.plain (vpre ++ v :: ssuf.map fun s => s.2.zeroVal))).get? j
              = some (.plain ((vpre ++ [v]) ++ ssuf.map fun s => s.2.zeroVal)) := by
            rw [List.get?_eq_getElem?, List.getElem?_set_self hjlt]
            simp
          have hih := ih (spre ++ [(sn, st)]) (vpre ++ [v]) vsuf
            (rv.set j (.plain (vpre ++ v :: ssuf.map fun s => s.2.zeroVal)))
            (by rw [hsub]; simp) hrv2 (by simp [hlen]) hNC.2 hwt.2 (by simpa using hslen)
          rw [List.zip_cons_cons, List.map_cons, List.foldlM_cons, hroute]
          show ((List.zip ssuf vsuf).map (fun pv => plainProp n pv.1.1 pv.2)).foldlM
              (decodeProp sh)
              (rv.set j (.plain (vpre ++ v :: ssuf.map fun s => s.2.zeroVal)), mem) = _
          rw [hih, List.set_set]
          simp

theorem decodeBlock (sh : Shape) (j : Nat) (n : String) (fs : FieldSh) (fv : FieldVal)
    (rv : RecordV) (mem : Mem) (ps : List Property)
    (hfind : findFieldIdx sh n = some j)
    (hget : sh.get? j = some (n, fs))
    (hcur : rv.get? j = some fs.zeroVal)
    (hwt : fieldWT fs fv = true)
    (hsubd : subsDistinct fs = true)
    (hNC : subsNoRef sh fs = true)
    (hmem : memGet mem [n] = 0)
    (henc : encodeFieldProps n fs fv = .ok ps) :
    ∃ mem2, ps.foldlM (decodeProp sh) (rv, mem) = .ok (rv.set j fv, mem2)
      ∧ ∀ q, q ≠ ([n] : FieldPath) → memGet mem2 q = memGet mem q := by
  cases fs with
  | ref =>
      cases fv with
      | ref k =>
          refine ⟨mem, ?_, fun q _ => rfl⟩
          have hps : ps = [(⟨[n], .key k, false, false⟩ : Property)] := by
            simpa [encodeFieldProps] using henc.symm
          subst hps
          rw [List.foldlM_cons]
          have href : refIdxAt sh n = some j := refIdxAt_some_of_ref hfind hget
          rw [decodeProp_refhit rv mem
            (p := (⟨[n], .key k, false, false⟩ : Property)) href rfl]
          rfl
      | prim v => simp [encodeFieldProps] at henc
      | plain vs => simp [encodeFieldProps] at henc
      | slice vs => simp [encodeFieldProps] at henc
      | bytes bs => simp [encodeFieldProps] at henc
  | prim t =>
      cases fv with
      | prim v =>
          refine ⟨mem, ?_, fun q _ => rfl⟩
          have hps : ps = [(⟨[n], encodePrim v, false, false⟩ : Property)] := by
            simpa [encodeFieldProps] using henc.symm
          subst hps
          rw [List.foldlM_cons]
          have href : refIdxAt sh n = none :=
            refIdxAt_none_of_nonref hfind hget (by intro h; cases h)
          have hb : findFieldIdxPath sh (baseName [n]) = some j := by
            simpa [findFieldIdxPath, baseName] using hfind
          rw [decodeProp_route rv mem
            (p := (⟨[n], encodePrim v, false, false⟩ : Property)) href hb hget hcur]
          have hdf := decodeField_encodePrim (t := t) (PrimTy.zeroVal t)
            (⟨[n], encodePrim v, false, false⟩ : Property)
            (by simpa [fieldWT] using hwt) rfl
          show ((decodeStructF (.prim t) (.prim (PrimTy.zeroVal t))
            (⟨[n], encodePrim v, false, false⟩ : Property) mem).bind
              fun out => Except.ok (rv.set j out.1, out.2)).bind _ = _
          simp only [decodeStructF]
          rw [hdf]
          rfl
      | ref k => simp [encodeFieldProps] at henc
      | plain vs => simp [encodeFieldProps] at henc
      | slice vs => simp [encodeFieldProps] at henc
      | bytes bs => simp [encodeFieldProps] at henc
  | bytes =>
      cases fv with
      | bytes bs =>
          refine ⟨mem, ?_, fun q _ => rfl⟩
          have hps : ps = [(⟨[n], .bytes bs, true, true⟩ : Property)] := by
            simpa [encodeFieldProps] using henc.symm
          subst hps
          rw [List.foldlM_cons]
          have href : refIdxAt sh n = none :=
            refIdxAt_none_of_nonref hfind hget (by intro h; cases h)
          have hb : findFieldIdxPath sh (baseName [n]) = some j := by
            simpa [findFieldIdxPath, baseName] using hfind
          rw [decodeProp_route rv mem
            (p := (⟨[n], .bytes bs, true, true⟩ : Property)) href hb hget hcur]
          rfl
      | ref k => simp [encodeFieldProps] at henc
      | prim v => simp [encodeFieldProps] at henc
      | plain vs => simp [encodeFieldProps] at henc
      | slice vs => simp [encodeFieldProps] at henc
  | slice t =>
      cases fv with
      | slice vs =>
          have hps : ps = vs.map (sliceProp n) := by
            simpa [encodeFieldProps, sliceProp] using henc.symm
          subst hps
          have hwt2 : vs.all (fun v => primWT t v) = true := by
            simpa [fieldWT] using hwt
          obtain ⟨mem2, h1, h2⟩ := decodeSliceBlock sh j n t [] vs rv mem hfind hget
            (by simpa [FieldSh.zeroVal] using hcur) (by simpa using hmem) hwt2
          exact ⟨mem2, by simpa using h1, h2⟩
      | ref k => simp [encodeFieldProps] at henc
      | prim v => simp [encodeFieldProps] at henc
      | plain vs => simp [encodeFieldProps] at henc
      | bytes bs => simp [encodeFieldProps] at henc
  | plain sub =>
      cases fv with
      | plain vs =>
          have hps : ps = (List.zip sub vs).map fun pv => plainProp n pv.1.1 pv.2 := by
            simpa [encodeFieldProps, encodeStructProps_eq_map] using henc.symm
          subst hps
          rw [fieldWT, Bool.and_eq_true] at hwt
          have hlen : sub.length = vs.length := Nat.beq_eq_true_eq _ _ |>.mp hwt.1
          refine ⟨mem, ?_, fun q _ => rfl⟩
          have := decodePlainBlock sh j n sub [] sub [] vs rv mem rfl hfind hget
            (by simpa [FieldSh.zeroVal] using hcur) rfl
            (by simpa [subsDistinct] using hsubd) (by simpa [subsNoRef] using hNC)
            hwt.2 hlen
          simpa using this
      | ref k => simp [encodeFieldProps] at henc
      | prim v => simp [encodeFieldProps] at henc
      | slice vs => simp [encodeFieldProps] at henc
      | bytes bs => simp [encodeFieldProps] at henc

theorem recordWT_cons {n : String} {fs : FieldSh} {suf : Shape} {fv : FieldVal}
    {rsuf : RecordV} (h : recordWT ((n, fs) :: suf) (fv :: rsuf) = true) :
    fieldWT fs fv = true ∧ recordWT suf rsuf = true := by
  unfold recordWT at h ⊢
  rw [Bool.and_eq_true] at h
  obtain ⟨h1, h2⟩ := h
  rw [List.zip_cons_cons, List.all_cons, Bool.and_eq_true] at h2
  refine ⟨h2.1, ?_⟩
  rw [Bool.and_eq_true]
  refine ⟨?_, h2.2⟩
  simpa using h1

theorem recordWT_nil_inv {rsuf : RecordV} (h : recordWT [] rsuf = true) : rsuf = [] := by
  unfold recordWT at h
  rw [Bool.and_eq_true] at h
  exact List.length_eq_zero.mp (by simpa using (Nat.beq_eq_true_eq _ _ |>.mp h.1).symm)

theorem toPropertyList_cons_inv {n : String} {fs : FieldSh} {suf : Shape}
    {fv : FieldVal} {rsuf : RecordV} {props : List Property}
    (h : toPropertyList ((n, fs) :: suf) (fv :: rsuf) = .ok props) :
    ∃ ps rest, encodeFieldProps n fs fv = .ok ps
      ∧ toPropertyList suf rsuf = .ok rest ∧ props = ps ++ rest := by
  unfold toPropertyList at h
  cases henc : encodeFieldProps n fs fv with
  | error e => rw [henc] at h; cases h
  | ok ps =>
      rw [henc] at h
      cases hrest : toPropertyList suf rsuf with
      | error e =>
          rw [hrest] at h
          cases h
      | ok rest =>
          rw [hrest] at h
          refine ⟨ps, rest, rfl, rfl, ?_⟩
          cases h
          rfl

theorem shapeWF_parts {sh : Shape} (h : shapeWF sh = true) :
    distinctB (sh.map Prod.fst) = true
    ∧ ∀ f ∈ sh, subsDistinct f.2 = true := by
  unfold shapeWF at h
  rw [Bool.and_eq_true] at h
  exact ⟨h.1, List.all_eq_true.mp h.2⟩

theorem noRefCollision_parts {sh : Shape} (h : noRefCollision sh = true) :
    ∀ f ∈ sh, subsNoRef sh f.2 = true := by
  unfold noRefCollision at h
  exact List.all_eq_true.mp h

theorem decode_blocks (suf : Shape) (pre : Shape) (rpre rsuf : RecordV) (mem : Mem)
    (props : List Property)
    (hWF : shapeWF (pre ++ suf) = true)
    (hNC : noRefCollision (pre ++ suf) = true)
    (hlen : rpre.length = pre.length)
    (hWT : recordWT suf rsuf = true)
    (hmem : ∀ f ∈ suf, memGet mem [f.1] = 0)
    (henc : toPropertyList suf rsuf = .ok props) :
    ∃ mem2, props.foldlM (decodeProp (pre ++ suf)) (rpre ++ zeroRecord suf, mem)
      = .ok (rpre ++ rsuf, mem2) := by
  induction suf generalizing pre rpre rsuf mem props with
  | nil =>
      obtain rfl := recordWT_nil_inv hWT
      have hp : props = [] := by
        unfold toPropertyList at henc
        cases henc
        rfl
      subst hp
      exact ⟨mem, by simp [zeroRecord, List.foldlM_nil]; rfl⟩
  | cons f suf ih =>
      obtain ⟨n, fs⟩ := f
      cases rsuf with
      | nil =>
          unfold recordWT at hWT
          rw [Bool.and_eq_true] at hWT
          simp at hWT
      | cons fv rsuf =>
          obtain ⟨hwt1, hwt2⟩ := recordWT_cons hWT
          obtain ⟨ps, rest, henc1, henc2, rfl⟩ := toPropertyList_cons_inv henc
          set sh := pre ++ (n, fs) :: suf with hsh
          have hnames : sh.map Prod.fst = pre.map Prod.fst ++ n :: suf.map Prod.fst := by
            rw [hsh]; simp
          have hdist := (shapeWF_parts hWF).1
          rw [hnames] at hdist
          have hsplit := distinct_split hdist
          have hfind : findFieldIdx sh n = some pre.length :=
            findFieldIdx_append pre n fs suf hsplit.1
          have hget : sh.get? pre.length = some (n, fs) := get_append_len pre _ suf
          have hcur : (rpre ++ zeroRecord ((n, fs) :: suf)).get? pre.length
              = some fs.zeroVal := by
            have : zeroRecord ((n, fs) :: suf) = fs.zeroVal :: zeroRecord suf := rfl
            rw [this, ← hlen]
            exact get_append_len rpre _ (zeroRecord suf)
          have hsubd := (shapeWF_parts hWF).2 (n, fs) (by rw [hsh]; simp)
          have hNCf := noRefCollision_parts hNC (n, fs) (by rw [hsh]; simp)
          obtain ⟨mem2, hblock, hmemo⟩ := decodeBlock sh pre.length n fs fv
            (rpre ++ zeroRecord ((n, fs) :: suf)) mem ps hfind hget hcur hwt1
            hsubd hNCf (hmem (n, fs) (by simp)) henc1
          have hsetacc : (rpre ++ zeroRecord ((n, fs) :: suf)).set pre.length fv
              = (rpre ++ [fv]) ++ zeroRecord suf := by
            have : zeroRecord ((n, fs) :: suf) = fs.zeroVal :: zeroRecord suf := rfl
            rw [this, ← hlen, set_append_len]
            simp
          have hmem2 : ∀ f ∈ suf, memGet mem2 [f.1] = 0 := by
            intro f hf
            have hne : ([f.1] : FieldPath) ≠ [n] := by
              have := hsplit.2 f.1 (List.mem_map.mpr ⟨f, hf, rfl⟩)
              simp at this
              simp [this]
            rw [hmemo [f.1] hne]
            exact hmem f (by simp [hf])
          have hWF2 : shapeWF ((pre ++ [(n, fs)]) ++ suf) = true := by
            rw [List.append_assoc]; simpa using hWF
          have hNC2 : noRefCollision ((pre ++ [(n, fs)]) ++ suf) = true := by
            rw [List.append_assoc]; simpa using hNC
          obtain ⟨mem3, hrest⟩ := ih (pre ++ [(n, fs)]) (rpre ++ [fv]) rsuf mem2 rest
            hWF2 hNC2 (by simp [hlen]) hwt2 hmem2 henc2
          refine ⟨mem3, ?_⟩
          rw [List.foldlM_append, hblock, hsetacc]
          have hshr : (pre ++ [(n, fs)]) ++ suf = sh := by
            rw [List.append_assoc]; rfl
          rw [hshr] at hrest
          show rest.foldlM (decodeProp sh) ((rpre ++ [fv]) ++ zeroRecord suf, mem2) = _
          rw [hrest]
          simp

theorem encodeFieldProps_exists (n : String) (fs : FieldSh) (fv : FieldVal)
    (hwt : fieldWT fs fv = true) : ∃ ps, encodeFieldProps n fs fv = .ok ps := by
  cases fs <;> cases fv <;> first
    | exact ⟨_, rfl⟩
    | simp [fieldWT] at hwt

theorem toPropertyList_exists (sh : Shape) (r : RecordV)
    (hWT : recordWT sh r = true) : ∃ ps, toPropertyList sh r = .ok ps := by
  induction sh generalizing r with
  | nil => cases r <;> exact ⟨[], rfl⟩
  | cons f suf ih =>
      obtain ⟨n, fs⟩ := f
      cases r with
      | nil =>
          unfold recordWT at hWT
          rw [Bool.and_eq_true] at hWT
          simp at hWT
      | cons fv rsuf =>
          obtain ⟨hwt1, hwt2⟩ := recordWT_cons hWT
          obtain ⟨ps, hps⟩ := encodeFieldProps_exists n fs fv hwt1
          obtain ⟨rest, hrest⟩ := ih rsuf hwt2
          refine ⟨ps ++ rest, ?_⟩
          unfold toPropertyList
          rw [hps, hrest]
          rfl

theorem roundTrip_of_wf (sh : Shape) (r : RecordV)
    (hWF : shapeWF sh = true) (hNC : noRefCollision sh = true)
    (hWT : recordWT sh r = true) :
    roundTrip sh r = .ok r := by
  obtain ⟨props, hprops⟩ := toPropertyList_exists sh r hWT
  obtain ⟨mem2, hdec⟩ := decode_blocks sh [] [] r [] props
    (by simpa using hWF) (by simpa using hNC) rfl hWT
    (fun f _ => rfl) hprops
  unfold roundTrip fromPropertyList
  rw [hprops]
  show (props.foldlM (decodeProp sh) (zeroRecord sh, [])).bind
    (fun out => Except.ok out.1) = Except.ok r
  have hdec2 : props.foldlM (decodeProp sh) (zeroRecord sh, ([] : Mem))
      = Except.ok (r, mem2) := hdec
  rw [hdec2]
  rfl

/-! ## Claim theorems for the codec (C2, C8) -/

/-- C2, counterexample.  The claim states that for every record graph with
no polymorphic fields, decoding the encoded property list reproduces the
record.  `colShape` has no polymorphic field and `colRecord` is a
well-typed record of it, yet the round trip fails: the nested property
named `Nomo.C` has last segment `C`, which `fromPropertyList` routes to
the reference field `C`, and its string value is rejected with an error
instead of reproducing the record. -/
theorem C2_roundtrip_counterexample :
    recordWT colShape colRecord = true
    ∧ roundTrip colShape colRecord
        = .error "no struct of type key found for reference C" := by
  constructor
  · decide
  · decide

/-- C2, amended.  For every record graph (in the embedded shape grammar:
no polymorphic fields, flat non-reference nesting) whose field names are
distinct and in which no nested subfield name coincides with a reference
field name of the enclosing record, encoding to a flat property list and
decoding into a fresh record of the same shape reproduces the record
field for field, including nested non-reference structs, slices, byte
slices and reference storage keys. -/
theorem C2_roundtrip (sh : Shape) (r : RecordV)
    (hWF : shapeWF sh = true) (hNC : noRefCollision sh = true)
    (hWT : recordWT sh r = true) :
    roundTrip sh r = .ok r :=
  roundTrip_of_wf sh r hWF hNC hWT

/-- C2, witness: the amended round-trip theorem applied to a concrete
record exercising every embedded field kind. -/
theorem C2_roundtrip_witness :
    shapeWF wfShape = true ∧ noRefCollision wfShape = true
    ∧ recordWT wfShape wfRecord = true
    ∧ roundTrip wfShape wfRecord = .ok wfRecord :=
  ⟨by decide, by decide, by decide,
    C2_roundtrip wfShape wfRecord (by decide) (by decide) (by decide)⟩

/-- C8.  Decoding an integer property whose wire value overflows the
target field width returns an error (`decodeField`, structures.go:465),
as does decoding a float property that overflows a float32 field
(structures.go:493); a fitting integer value is stored exactly, never
truncated. -/
theorem C8_numeric_overflow :
    (∀ (w : IntW) (x : Int) (old : PrimVal) (nm : FieldPath) (mult ni : Bool),
        intFits w x = false →
        decodeField (.int w) old ⟨nm, .int x, mult, ni⟩
          = .error "value overflows struct field")
    ∧ (∀ (q : ℚ) (old : PrimVal) (nm : FieldPath) (mult ni : Bool),
        maxFloat32 < |q| →
        decodeField (.float true) old ⟨nm, .float q, mult, ni⟩
          = .error "value overflows struct field")
    ∧ (∀ (w : IntW) (x : Int) (old : PrimVal) (nm : FieldPath) (mult ni : Bool),
        intFits w x = true →
        decodeField (.int w) old ⟨nm, .int x, mult, ni⟩ = .ok (.int x)) := by
  refine ⟨?_, ?_, ?_⟩
  · intro w x old nm mult ni h
    simp [decodeField, h]
  · intro q old nm mult ni h
    simp [decodeField, h]
  · intro w x old nm mult ni h
    simp [decodeField, h]

/-- C8, witness: the wire value 300 overflows an int8 field and is
rejected. -/
theorem C8_numeric_overflow_witness :
    intFits .w8 300 = false
    ∧ decodeField (.int .w8) (.int 0) ⟨["Num"], .int 300, false, false⟩
        = .error "value overflows struct field" :=
  ⟨by decide, C8_numeric_overflow.1 .w8 300 (.int 0) ["Num"] false false (by decide)⟩

/-! ## Indexer theorems: supporting lemmas -/

theorem indexF_shape {n : Nat} {m m2 : MRec} (h : indexF n m = .ok m2) :
    ∃ rl2, m2 = .mk m.addr m.key true m.readonly m.skipIfZero m.searchable
      m.fields (some rl2) := by
  cases n with
  | zero => cases h
  | succ k =>
      obtain ⟨a, key, reg, ro, sz, se, fields, refsOpt⟩ := m
      unfold indexF indexS at h
      dsimp only at h
      cases refsOpt with
      | none =>
          dsimp only at h
          cases hb : buildRefsS (indexF k) false (refFieldsFrom 0 fields) with
          | error e => rw [hb] at h; cases h
          | ok rl =>
              rw [hb] at h
              cases h
              exact ⟨rl, rfl⟩
      | some rl =>
          dsimp only at h
          cases hb : reindexRefsS (indexF k) fields rl with
          | error e => rw [hb] at h; cases h
          | ok rl2 =>
              rw [hb] at h
              cases h
              exact ⟨rl2, rfl⟩

theorem indexF_addr {n : Nat} {m m2 : MRec} (h : indexF n m = .ok m2) :
    m2.addr = m.addr := by
  obtain ⟨rl2, rfl⟩ := indexF_shape h
  rfl

theorem buildRefsS_length (rec : MRec → Except String MRec) :
    ∀ (hasAnc : Bool) (lst : List (Nat × MRec × Bool)) (rl : List MRef),
    buildRefsS rec hasAnc lst = .ok rl → rl.length = lst.length := by
  intro hasAnc lst
  induction lst generalizing hasAnc with
  | nil => intro rl h; cases h; rfl
  | cons e rest ih =>
      intro rl h
      obtain ⟨i, c, anc⟩ := e
      unfold buildRefsS at h
      by_cases hanc : (anc && hasAnc) = true
      · rw [if_pos hanc] at h; cases h
      · rw [if_neg hanc] at h
        cases hc : rec c with
        | error e => rw [hc] at h; cases h
        | ok c2 =>
            rw [hc] at h
            cases hb : buildRefsS rec (hasAnc || anc) rest with
            | error e => rw [hb] at h; cases h
            | ok rl0 =>
                rw [hb] at h
                cases h
                simp [ih _ _ hb]

theorem reindexRefsS_length (rec : MRec → Except String MRec) (fields : List MField) :
    ∀ (lst rl : List MRef),
    reindexRefsS rec fields lst = .ok rl → rl.length = lst.length := by
  intro lst
  induction lst with
  | nil => intro rl h; cases h; rfl
  | cons e rest ih =>
      intro rl h
      obtain ⟨i, c, k, anc⟩ := e
      unfold reindexRefsS at h
      by_cases hreg : c.isRegistered = false
      · rw [if_pos hreg] at h
        cases hc : rec c with
        | error e => rw [hc] at h; cases h
        | ok c2 =>
            rw [hc] at h
            cases hb : reindexRefsS rec fields rest with
            | error e => rw [hb] at h; cases h
            | ok rl0 => rw [hb] at h; cases h; simp [ih _ hb]
      · rw [if_neg hreg] at h
        cases hf : fieldChildAt fields i with
        | none => rw [hf] at h; cases h
        | some cNew =>
            rw [hf] at h
            dsimp only at h
            by_cases haddr : (c.addr == cNew.addr) = true
            · rw [if_pos haddr] at h
              cases hb : reindexRefsS rec fields rest with
              | error e => rw [hb] at h; cases h
              | ok rl0 => rw [hb] at h; cases h; simp [ih _ hb]
            · rw [if_neg haddr] at h
              cases hc : rec (carryForward cNew c) with
              | error e => rw [hc] at h; cases h
              | ok c4 =>
                  rw [hc] at h
                  cases hb : reindexRefsS rec fields rest with
                  | error e => rw [hb] at h; cases h
                  | ok rl0 => rw [hb] at h; cases h; simp [ih _ hb]

theorem buildRefsS_registered (rec : MRec → Except String MRec)
    (hrec : ∀ c c2, rec c = .ok c2 → c2.isRegistered = true) :
    ∀ (hasAnc : Bool) (lst : List (Nat × MRec × Bool)) (rl : List MRef),
    buildRefsS rec hasAnc lst = .ok rl → refsRegistered rl = true := by
  intro hasAnc lst
  induction lst generalizing hasAnc with
  | nil => intro rl h; cases h; rfl
  | cons e rest ih =>
      intro rl h
      obtain ⟨i, c, anc⟩ := e
      unfold buildRefsS at h
      by_cases hanc : (anc && hasAnc) = true
      · rw [if_pos hanc] at h; cases h
      · rw [if_neg hanc] at h
        cases hc : rec c with
        | error e => rw [hc] at h; cases h
        | ok c2 =>
            rw [hc] at h
            cases hb : buildRefsS rec (hasAnc || anc) rest with
            | error e => rw [hb] at h; cases h
            | ok rl0 =>
                rw [hb] at h
                cases h
                show (refRegistered (.mk i c2 none anc) && refsRegistered rl0) = true
                rw [Bool.and_eq_true]
                exact ⟨by show c2.isRegistered = true; exact hrec c c2 hc, ih _ _ hb⟩

theorem reindexRefsS_registered (rec : MRec → Except String MRec)
    (hrec : ∀ c c2, rec c = .ok c2 → c2.isRegistered = true) (fields : List MField) :
    ∀ (lst rl : List MRef),
    reindexRefsS rec fields lst = .ok rl → refsRegistered rl = true := by
  intro lst
  induction lst with
  | nil => intro rl h; cases h; rfl
  | cons e rest ih =>
      intro rl h
      obtain ⟨i, c, k, anc⟩ := e
      unfold reindexRefsS at h
      by_cases hreg : c.isRegistered = false
      · rw [if_pos hreg] at h
        cases hc : rec c with
        | error e => rw [hc] at h; cases h
        | ok c2 =>
            rw [hc] at h
            cases hb : reindexRefsS rec fields rest with
            | error e => rw [hb] at h; cases h
            | ok rl0 =>
                rw [hb] at h
                cases h
                show (refRegistered (.mk i c2 k anc) && refsRegistered rl0) = true
                rw [Bool.and_eq_true]
                exact ⟨by show c2.isRegistered = true; exact hrec c c2 hc, ih _ hb⟩
      · rw [if_neg hreg] at h
        have hcreg : c.isRegistered = true := by
          cases hx : c.isRegistered with
          | false => exact absurd hx hreg
          | true => rfl
        cases hf : fieldChildAt fields i with
        | none => rw [hf] at h; cases h
        | some cNew =>
            rw [hf] at h
            dsimp only at h
            by_cases haddr : (c.addr == cNew.addr) = true
            · rw [if_pos haddr] at h
              cases hb : reindexRefsS rec fields rest with
              | error e => rw [hb] at h; cases h
              | ok rl0 =>
                  rw [hb] at h
                  cases h
                  show (refRegistered (.mk i c k anc) && refsRegistered rl0) = true
                  rw [Bool.and_eq_true]
                  exact ⟨by show c.isRegistered = true; exact hcreg, ih _ hb⟩
            · rw [if_neg haddr] at h
              cases hc : rec (carryForward cNew c) with
              | error e => rw [hc] at h; cases h
              | ok c4 =>
                  rw [hc] at h
                  cases hb : reindexRefsS rec fields rest with
                  | error e => rw [hb] at h; cases h
                  | ok rl0 =>
                      rw [hb] at h
                      cases h
                      show (refRegistered (.mk i c4 k anc) && refsRegistered rl0) = true
                      rw [Bool.and_eq_true]
                      exact ⟨by show c4.isRegistered = true; exact hrec _ c4 hc, ih _ hb⟩

theorem indexF_registered : ∀ (n : Nat) (m m2 : MRec),
    indexF n m = .ok m2 → m2.isRegistered = true := by
  intro n
  induction n with
  | zero => intro m m2 h; cases h
  | succ k ih =>
      intro m m2 h
      obtain ⟨a, key, reg, ro, sz, se, fields, refsOpt⟩ := m
      unfold indexF indexS at h
      dsimp only at h
      cases refsOpt with
      | none =>
          dsimp only at h
          cases hb : buildRefsS (indexF k) false (refFieldsFrom 0 fields) with
          | error e => rw [hb] at h; cases h
          | ok rl =>
              rw [hb] at h
              cases h
              show (true && refsRegistered rl) = true
              rw [Bool.true_and]
              exact buildRefsS_registered (indexF k) (fun c c2 hc => ih c c2 hc) _ _ _ hb
      | some rl =>
          dsimp only at h
          cases hb : reindexRefsS (indexF k) fields rl with
          | error e => rw [hb] at h; cases h
          | ok rl2 =>
              rw [hb] at h
              cases h
              show (true && refsRegistered rl2) = true
              rw [Bool.true_and]
              exact reindexRefsS_registered (indexF k) (fun c c2 hc => ih c c2 hc) _ _ _ hb

theorem carryForward_addr (cNew cOld : MRec) : (carryForward cNew cOld).addr = cNew.addr := by
  obtain ⟨a, k, r, ro, sz, se, fs, rs⟩ := cNew
  rfl

theorem fieldChildAt_cons_succ (f : MField) (rest : List MField) (k : Nat) :
    fieldChildAt (f :: rest) (k + 1) = fieldChildAt rest k := by
  unfold fieldChildAt
  rfl

theorem refFieldsFrom_spec : ∀ (fields : List MField) (d i : Nat) (c : MRec) (anc : Bool),
    (i, c, anc) ∈ refFieldsFrom d fields → fieldChildAt fields (i - d) = some c ∧ d ≤ i := by
  intro fields
  induction fields with
  | nil => intro d i c anc h; cases h
  | cons f rest ih =>
      intro d i c anc h
      cases f with
      | prim z =>
          have := ih (d + 1) i c anc (by simpa [refFieldsFrom] using h)
          refine ⟨?_, by omega⟩
          have hik : i - d = (i - (d + 1)) + 1 := by omega
          rw [hik, fieldChildAt_cons_succ]
          exact this.1
      | strct z =>
          have := ih (d + 1) i c anc (by simpa [refFieldsFrom] using h)
          refine ⟨?_, by omega⟩
          have hik : i - d = (i - (d + 1)) + 1 := by omega
          rw [hik, fieldChildAt_cons_succ]
          exact this.1
      | refFld c0 anc0 =>
          rw [refFieldsFrom] at h
          rcases List.mem_cons.mp h with heq | htail
          · cases heq
            refine ⟨?_, le_refl d⟩
            rw [Nat.sub_self]
            rfl
          · have := ih (d + 1) i c anc htail
            refine ⟨?_, by omega⟩
            have hik : i - d = (i - (d + 1)) + 1 := by omega
            rw [hik, fieldChildAt_cons_succ]
            exact this.1

theorem buildRefsS_aligned (rec : MRec → Except String MRec)
    (hrec : ∀ c c2, rec c = .ok c2 → c2.addr = c.addr) (fields : List MField) :
    ∀ (hasAnc : Bool) (lst : List (Nat × MRec × Bool)) (rl : List MRef),
    (∀ i c anc, (i, c, anc) ∈ lst → ∃ c0, fieldChildAt fields i = some c0
      ∧ c0.addr = c.addr) →
    buildRefsS rec hasAnc lst = .ok rl → rl.all (alignedEntry fields) = true := by
  intro hasAnc lst
  induction lst generalizing hasAnc with
  | nil => intro rl _ h; cases h; rfl
  | cons e rest ih =>
      intro rl hfld h
      obtain ⟨i, c, anc⟩ := e
      unfold buildRefsS at h
      by_cases hanc : (anc && hasAnc) = true
      · rw [if_pos hanc] at h; cases h
      · rw [if_neg hanc] at h
        cases hc : rec c with
        | error e => rw [hc] at h; cases h
        | ok c2 =>
            rw [hc] at h
            cases hb : buildRefsS rec (hasAnc || anc) rest with
            | error e => rw [hb] at h; cases h
            | ok rl0 =>
                rw [hb] at h
                cases h
                rw [List.all_cons, Bool.and_eq_true]
                constructor
                · obtain ⟨c0, hc0, haddr⟩ := hfld i c anc (by simp)
                  show alignedEntry fields (.mk i c2 none anc) = true
                  unfold alignedEntry
                  have : (MRef.mk i c2 none anc).idx = i := rfl
                  rw [this, hc0]
                  show ((MRef.mk i c2 none anc).child.addr == c0.addr) = true
                  have hch : (MRef.mk i c2 none anc).child = c2 := rfl
                  rw [hch, hrec c c2 hc, haddr]
                  simp
                · exact ih _ _ (fun i2 c2a anc2 hm => hfld i2 c2a anc2 (by simp [hm])) hb

theorem reindexRefsS_aligned (rec : MRec → Except String MRec)
    (hrec : ∀ c c2, rec c = .ok c2 → c2.addr = c.addr) (fields : List MField) :
    ∀ (lst rl : List MRef), lst.all (alignedEntry fields) = true →
    reindexRefsS rec fields lst = .ok rl → rl.all (alignedEntry fields) = true := by
  intro lst
  induction lst with
  | nil => intro rl _ h; cases h; rfl
  | cons e rest ih =>
      intro rl hal h
      rw [List.all_cons, Bool.and_eq_true] at hal
      obtain ⟨i, c, k, anc⟩ := e
      unfold reindexRefsS at h
      by_cases hreg : c.isRegistered = false
      · rw [if_pos hreg] at h
        cases hc : rec c with
        | error e => rw [hc] at h; cases h
        | ok c2 =>
            rw [hc] at h
            cases hb : reindexRefsS rec fields rest with
            | error e => rw [hb] at h; cases h
            | ok rl0 =>
                rw [hb] at h
                cases h
                rw [List.all_cons, Bool.and_eq_true]
                refine ⟨?_, ih _ hal.2 hb⟩
                have := hal.1
                unfold alignedEntry at this ⊢
                cases hf : fieldChildAt fields (MRef.mk i c k anc).idx with
                | none => rw [hf] at this; cases this
                | some c0 =>
                    rw [hf] at this
                    have hfx : fieldChildAt fields (MRef.mk i c2 k anc).idx = some c0 := hf
                    rw [hfx]
                    have h1 : (MRef.mk i c2 k anc).child = c2 := rfl
                    have h2 : (MRef.mk i c k anc).child = c := rfl
                    rw [h1, hrec c c2 hc]
                    rw [h2] at this
                    exact this
      · rw [if_neg hreg] at h
        cases hf : fieldChildAt fields i with
        | none => rw [hf] at h; cases h
        | some cNew =>
            rw [hf] at h
            dsimp only at h
            by_cases haddr : (c.addr == cNew.addr) = true
            · rw [if_pos haddr] at h
              cases hb : reindexRefsS rec fields rest with
              | error e => rw [hb] at h; cases h
              | ok rl0 =>
                  rw [hb] at h
                  cases h
                  rw [List.all_cons, Bool.and_eq_true]
                  exact ⟨hal.1, ih _ hal.2 hb⟩
            · rw [if_neg haddr] at h
              cases hc : rec (carryForward cNew c) with
              | error e => rw [hc] at h; cases h
              | ok c4 =>
                  rw [hc] at h
                  cases hb : reindexRefsS rec fields rest with
                  | error e => rw [hb] at h; cases h
                  | ok rl0 =>
                      rw [hb] at h
                      cases h
                      rw [List.all_cons, Bool.and_eq_true]
                      refine ⟨?_, ih _ hal.2 hb⟩
                      unfold alignedEntry
                      have hfx : (MRef.mk i c4 k anc).idx = i := rfl
                      rw [hfx, hf]
                      have h1 : (MRef.mk i c4 k anc).child = c4 := rfl
                      rw [h1, hrec _ c4 hc, carryForward_addr]
                      simp

theorem indexF_aligned {n : Nat} {m m2 : MRec}
    (hal : topAligned m = true) (h : indexF n m = .ok m2) :
    topAligned m2 = true := by
  cases n with
  | zero => cases h
  | succ k =>
      obtain ⟨a, key, reg, ro, sz, se, fields, refsOpt⟩ := m
      unfold indexF indexS at h
      dsimp only at h
      cases refsOpt with
      | none =>
          dsimp only at h
          cases hb : buildRefsS (indexF k) false (refFieldsFrom 0 fields) with
          | error e => rw [hb] at h; cases h
          | ok rl =>
              rw [hb] at h
              cases h
              show rl.all (alignedEntry fields) = true
              refine buildRefsS_aligned (indexF k)
                (fun c c2 hc => indexF_addr hc) fields false _ rl ?_ hb
              intro i c anc hm
              obtain ⟨hfc, _⟩ := refFieldsFrom_spec fields 0 i c anc hm
              exact ⟨c, by simpa using hfc, rfl⟩
      | some rl =>
          dsimp only at h
          cases hb : reindexRefsS (indexF k) fields rl with
          | error e => rw [hb] at h; cases h
          | ok rl2 =>
              rw [hb] at h
              cases h
              show rl2.all (alignedEntry fields) = true
              refine reindexRefsS_aligned (indexF k)
                (fun c c2 hc => indexF_addr hc) fields rl rl2 ?_ hb
              exact hal

theorem reindexRefsS_id (rec : MRec → Except String MRec) (fields : List MField) :
    ∀ rl : List MRef, refsRegistered rl = true → rl.all (alignedEntry fields) = true →
    reindexRefsS rec fields rl = .ok rl := by
  intro rl
  induction rl with
  | nil => intro _ _; rfl
  | cons e rest ih =>
      intro hreg hal
      rw [List.all_cons, Bool.and_eq_true] at hal
      obtain ⟨i, c, k, anc⟩ := e
      have hregs : (refRegistered (.mk i c k anc) && refsRegistered rest) = true := hreg
      rw [Bool.and_eq_true] at hregs
      have hcreg : c.isRegistered = true := hregs.1
      unfold reindexRefsS
      rw [if_neg (by rw [hcreg]; simp)]
      have := hal.1
      unfold alignedEntry at this
      cases hf : fieldChildAt fields (MRef.mk i c k anc).idx with
      | none => rw [hf] at this; cases this
      | some c0 =>
          rw [hf] at this
          have hfx : fieldChildAt fields i = some c0 := hf
          rw [hfx]
          dsimp only
          have h2 : (MRef.mk i c k anc).child = c := rfl
          rw [h2] at this
          rw [if_pos this]
          rw [ih hregs.2 hal.2]

theorem indexS_id (rec : MRec → Except String MRec) (m : MRec) (rl : List MRef)
    (hrefs : m.refs = some rl) (hreg : m.isRegistered = true)
    (hal : topAligned m = true) : indexS rec m = .ok m := by
  obtain ⟨a, key, reg, ro, sz, se, fields, refsOpt⟩ := m
  have : refsOpt = some rl := hrefs
  subst this
  have hregs : (reg && refsRegistered rl) = true := hreg
  rw [Bool.and_eq_true] at hregs
  have hals : rl.all (alignedEntry fields) = true := hal
  unfold indexS
  dsimp only
  rw [reindexRefsS_id rec fields rl hregs.2 hals]
  rw [hregs.1.symm]

/-! ## Claim theorems for the indexer (C6, C7) -/

/-- C6.  Indexing is idempotent: for every aligned record (each
registered reference occupies the address of its embedded field, the
invariant the library maintains), a successful `index` followed by a
second `index` with no modification in between returns the record
unchanged — in particular the reference list is identical: the same
child instances by address, at the same positions, in the same order
(model.go:292-326: every re-index iteration finds its reference
registered and unswapped and skips it). -/
theorem C6_index_idempotent (n k : Nat) (m m2 : MRec)
    (hal : topAligned m = true) (h : indexF n m = .ok m2) :
    indexF (k + 1) m2 = .ok m2 := by
  have hreg := indexF_registered n m m2 h
  have hal2 := indexF_aligned hal h
  obtain ⟨rl2, hm2⟩ := indexF_shape h
  show indexS (indexF k) m2 = .ok m2
  exact indexS_id _ m2 rl2 (by rw [hm2]; rfl) hreg hal2

/-- C6, witness: indexing the concrete two-level record is idempotent. -/
theorem C6_index_idempotent_witness :
    topAligned exRoot = true ∧ indexF 5 exRoot = .ok exRootI
      ∧ indexF 1 exRootI = .ok exRootI :=
  ⟨rfl, rfl, C6_index_idempotent 5 0 exRoot exRootI rfl rfl⟩

/-- C7.  Once a record is indexed its reference list length equals the
descriptor reference-field count (`make([]reference, refno)`,
model.go:258-260), and re-indexing an already indexed record — whether
references were swapped, unregistered or unchanged — returns a list of
exactly the same length, so the list never shrinks (model.go:292-326
replaces entries in place). -/
theorem C7_reflist_length :
    (∀ (n : Nat) (m m2 : MRec), m.refs = none → indexF n m = .ok m2 →
      ∃ rl2, m2.refs = some rl2 ∧ rl2.length = (refFieldsFrom 0 m.fields).length)
    ∧ (∀ (n : Nat) (m m2 : MRec) (rl : List MRef), m.refs = some rl →
      indexF n m = .ok m2 → ∃ rl2, m2.refs = some rl2 ∧ rl2.length = rl.length) := by
  constructor
  · intro n m m2 hrefs h
    cases n with
    | zero => cases h
    | succ kk =>
        obtain ⟨a, key, reg, ro, sz, se, fields, refsOpt⟩ := m
        have : refsOpt = none := hrefs
        subst this
        unfold indexF indexS at h
        dsimp only at h
        cases hb : buildRefsS (indexF kk) false (refFieldsFrom 0 fields) with
        | error e => rw [hb] at h; cases h
        | ok rl =>
            rw [hb] at h
            cases h
            exact ⟨rl, rfl, buildRefsS_length _ _ _ _ hb⟩
  · intro n m m2 rl hrefs h
    cases n with
    | zero => cases h
    | succ kk =>
        obtain ⟨a, key, reg, ro, sz, se, fields, refsOpt⟩ := m
        have : refsOpt = some rl := hrefs
        subst this
        unfold indexF indexS at h
        dsimp only at h
        cases hb : reindexRefsS (indexF kk) fields rl with
        | error e => rw [hb] at h; cases h
        | ok rl2 =>
            rw [hb] at h
            cases h
            exact ⟨rl2, rfl, reindexRefsS_length _ _ _ _ hb⟩

/-- C7, witness: the freshly indexed concrete record has exactly one
reference, matching its one reference field. -/
theorem C7_reflist_length_witness :
    exRoot.refs = none
      ∧ ∃ rl2, exRootI.refs = some rl2
          ∧ rl2.length = (refFieldsFrom 0 exRoot.fields).length :=
  ⟨rfl, C7_reflist_length.1 5 exRoot exRootI rfl rfl⟩


/-! ## Trace lemmas for the persistence operations -/

/-- Pointwise strengthening of an `all` trace predicate. -/
theorem evAll_imp {p q : Ev → Bool} (h : ∀ e, p e = true → q e = true) :
    ∀ tr : List Ev, tr.all p = true → tr.all q = true := by
  intro tr htr
  rw [List.all_eq_true] at htr ⊢
  exact fun e he => h e (htr e he)

/-- `updateRefLoop` preserves any `all` trace predicate established for
its step operations on the list members. -/
theorem updateRefLoop_all (p : Ev → Bool) (u : St → MRef → Nat → RefRes)
    (c : St → MRef → RefRes) (l : List MRef)
    (hu : ∀ st r k, r ∈ l → ((u st r k).2.2.all p) = true)
    (hc : ∀ st r, r ∈ l → ((c st r).2.2.all p) = true) :
    ∀ st : St, ((updateRefLoop u c st l).2.2.all p) = true := by
  induction l with
  | nil => intro st; rfl
  | cons r rest ih =>
      intro st
      have hmem : r ∈ r :: rest := List.mem_cons_self r rest
      have hstep : ((match r.key with
          | some k => u st r k
          | none =>
              match r.child.key with
              | some ck => u st r ck
              | none =>
                  if r.child.skipIfZero && isZeroRec r.child then
                    ((.ok r : Except String MRef), st, ([] : List Ev))
                  else c st r) : RefRes).2.2.all p = true := by
        cases r.key with
        | some k => exact hu st r k hmem
        | none =>
            cases r.child.key with
            | some ck => exact hu st r ck hmem
            | none =>
                dsimp only
                split
                · rfl
                · exact hc st r hmem
      have ihr : ∀ st2 : St, ((updateRefLoop u c st2 rest).2.2.all p) = true :=
        ih (fun st2 r2 k hr2 => hu st2 r2 k (List.mem_cons_of_mem r hr2))
          (fun st2 r2 hr2 => hc st2 r2 (List.mem_cons_of_mem r hr2))
      unfold updateRefLoop
      dsimp only
      split
      · next e st2 tr heq => rw [heq] at hstep; exact hstep
      · next r2 st2 tr heq =>
          rw [heq] at hstep
          have hrest := ihr st2
          split
          · next e st3 tr2 heq2 =>
              rw [heq2] at hrest
              simp only [List.all_append, Bool.and_eq_true]
              exact And.intro hstep hrest
          · next rl st3 tr2 heq2 =>
              rw [heq2] at hrest
              simp only [List.all_append, Bool.and_eq_true]
              exact And.intro hstep hrest

/-- `createLoop` preserves any `all` trace predicate established for its
step operations on the list members. -/
theorem createLoop_all (p : Ev → Bool) (u : St → MRef → Nat → RefRes)
    (c : St → MRef → RefRes) (l : List MRef)
    (hu : ∀ st r k, r ∈ l → ((u st r k).2.2.all p) = true)
    (hc : ∀ st r, r ∈ l → ((c st r).2.2.all p) = true) :
    ∀ (st : St) (anc : Option Nat), ((createLoop u c st anc l).2.2.all p) = true := by
  induction l with
  | nil => intro st anc; rfl
  | cons r rest ih =>
      intro st anc
      have hmem : r ∈ r :: rest := List.mem_cons_self r rest
      have ihr : ∀ st2 anc2, ((createLoop u c st2 anc2 rest).2.2.all p) = true :=
        fun st2 anc2 =>
          ih (fun st3 r2 k hr2 => hu st3 r2 k (List.mem_cons_of_mem r hr2))
            (fun st3 r2 hr2 => hc st3 r2 (List.mem_cons_of_mem r hr2)) st2 anc2
      have hstep : ((match r.child.key with
          | some ck => u st r ck
          | none => c st r) : RefRes).2.2.all p = true := by
        cases r.child.key with
        | some ck => exact hu st r ck hmem
        | none => exact hc st r hmem
      unfold createLoop
      dsimp only
      split
      · rfl
      · split
        · have hrest := ihr st anc
          split
          · next e st2 tr heq => rw [heq] at hrest; exact hrest
          · next rl ancOut st2 tr heq => rw [heq] at hrest; exact hrest
        · split
          · next e st2 tr heq => rw [heq] at hstep; exact hstep
          · next r2 st2 tr heq =>
              rw [heq] at hstep
              have hrest := ihr st2 (if r2.ancestor then r2.key else anc)
              split
              · next e st3 tr2 heq2 =>
                  rw [heq2] at hrest
                  simp only [List.all_append, Bool.and_eq_true]
                  exact And.intro hstep hrest
              · next rl ancOut st3 tr2 heq2 =>
                  rw [heq2] at hrest
                  simp only [List.all_append, Bool.and_eq_true]
                  exact And.intro hstep hrest

/-- `updateRecLoop` preserves any `all` trace predicate established for
its step operations on the list members. -/
theorem updateRecLoop_all (p : Ev → Bool) (u : St → MRef → Nat → RefRes)
    (c : St → MRef → RefRes) (l : List MRef)
    (hu : ∀ st r k, r ∈ l → ((u st r k).2.2.all p) = true)
    (hc : ∀ st r, r ∈ l → ((c st r).2.2.all p) = true) :
    ∀ st : St, ((updateRecLoop u c st l).2.2.all p) = true := by
  induction l with
  | nil => intro st; rfl
  | cons r rest ih =>
      intro st
      have hmem : r ∈ r :: rest := List.mem_cons_self r rest
      have hstep : ((match r.child.key with
          | some ck => u st r ck
          | none =>
              match r.key with
              | some k => u st r k
              | none =>
                  if r.child.skipIfZero && isZeroRec r.child then
                    ((.ok r : Except String MRef), st, ([] : List Ev))
                  else c st r) : RefRes).2.2.all p = true := by
        cases r.child.key with
        | some ck => exact hu st r ck hmem
        | none =>
            cases r.key with
            | some k => exact hu st r k hmem
            | none =>
                dsimp only
                split
                · rfl
                · exact hc st r hmem
      have ihr : ∀ st2 : St, ((updateRecLoop u c st2 rest).2.2.all p) = true :=
        ih (fun st2 r2 k hr2 => hu st2 r2 k (List.mem_cons_of_mem r hr2))
          (fun st2 r2 hr2 => hc st2 r2 (List.mem_cons_of_mem r hr2))
      unfold updateRecLoop
      dsimp only
      split
      · next e st2 tr heq => rw [heq] at hstep; exact hstep
      · next r2 st2 tr heq =>
          rw [heq] at hstep
          have hrest := ihr st2
          split
          · next e st3 tr2 heq2 =>
              rw [heq2] at hrest
              simp only [List.all_append, Bool.and_eq_true]
              exact And.intro hstep hrest
          · next rl st3 tr2 heq2 =>
              rw [heq2] at hrest
              simp only [List.all_append, Bool.and_eq_true]
              exact And.intro hstep hrest

/-- The reference loop of `read` preserves any `all` trace predicate
established for the recursive read. -/
theorem readRefsLoop_all (p : Ev → Bool) (rec : St → MRec → RecRes)
    (hrec : ∀ st c, ((rec st c).2.2.all p) = true) :
    ∀ (l : List MRef) (st : St), ((readS.readRefsLoop rec st l).2.2.all p) = true := by
  intro l
  induction l with
  | nil => intro st; rfl
  | cons r rest ih =>
      intro st
      unfold readS.readRefsLoop
      have hstep := hrec st r.child
      split
      · next e st2 tr heq => rw [heq] at hstep; exact hstep
      · next c2 st2 tr heq =>
          rw [heq] at hstep
          have hrest := ih st2
          split
          · next e st3 tr2 heq2 =>
              rw [heq2] at hrest
              simp only [List.all_append, Bool.and_eq_true]
              exact And.intro hstep hrest
          · next rl st3 tr2 heq2 =>
              rw [heq2] at hrest
              simp only [List.all_append, Bool.and_eq_true]
              exact And.intro hstep hrest

/-- The reference loop of `saveInMemcache` preserves any `all` trace
predicate established for the recursive save. -/
theorem saveRefsLoop_all (p : Ev → Bool) (save : St → MRec → URes)
    (hrec : ∀ st c, ((save st c).2.2.all p) = true) :
    ∀ (l : List MRef) (st : St), ((saveRefsLoop save st l).2.2.all p) = true := by
  intro l
  induction l with
  | nil => intro st; rfl
  | cons r rest ih =>
      intro st
      unfold saveRefsLoop
      split
      · exact ih st
      · split
        · exact ih st
        · next ck hck =>
            split
            · have hstep := hrec st r.child
              split
              · next e st2 tr heq => rw [heq] at hstep; exact hstep
              · next u st2 tr heq =>
                  rw [heq] at hstep
                  have hrest := ih st2
                  split
                  · next e st3 tr2 heq2 =>
                      rw [heq2] at hrest
                      simp only [List.all_append, Bool.and_eq_true]
                      exact And.intro hstep hrest
                  · next km st3 tr2 heq2 =>
                      rw [heq2] at hrest
                      simp only [List.all_append, Bool.and_eq_true]
                      exact And.intro hstep hrest
            · rfl

/-- The reference loop of `loadFromMemcache` preserves any `all` trace
predicate established for the recursive load. -/
theorem loadRefsLoop_all (p : Ev → Bool) (load : St → MRec → RecRes)
    (km : List (Nat × Nat)) (hrec : ∀ st c, ((load st c).2.2.all p) = true) :
    ∀ (l : List MRef) (st : St), ((loadRefsLoop load km st l).2.2.all p) = true := by
  intro l
  induction l with
  | nil => intro st; rfl
  | cons r rest ih =>
      intro st
      unfold loadRefsLoop
      split
      · rfl
      · next ek hek =>
          have hstep := hrec st (r.child.withKey (some ek))
          split
          · next e st2 tr heq => rw [heq] at hstep; exact hstep
          · next c2 st2 tr heq =>
              rw [heq] at hstep
              have hrest := ih st2
              split
              · next e st3 tr2 heq2 =>
                  rw [heq2] at hrest
                  simp only [List.all_append, Bool.and_eq_true]
                  exact And.intro hstep hrest
              · next rl st3 tr2 heq2 =>
                  rw [heq2] at hrest
                  simp only [List.all_append, Bool.and_eq_true]
                  exact And.intro hstep hrest

/-- The reference loop of `deleteFromMemcache` preserves any `all` trace
predicate established for the recursive delete. -/
theorem deleteRefsLoop_all (p : Ev → Bool) (del : St → MRec → RecRes)
    (hrec : ∀ st c, ((del st c).2.2.all p) = true) :
    ∀ (l : List MRef) (st : St),
      ((deleteFromMemcacheS.deleteRefsLoop del st l).2.2.all p) = true := by
  intro l
  induction l with
  | nil => intro st; rfl
  | cons r rest ih =>
      intro st
      unfold deleteFromMemcacheS.deleteRefsLoop
      split
      · have hrest := ih st
        split
        · next e st2 tr heq => rw [heq] at hrest; exact hrest
        · next rl st2 tr heq => rw [heq] at hrest; exact hrest
      · have hstep := hrec st r.child
        split
        · next e st2 tr heq => rw [heq] at hstep; exact hstep
        · next c2 st2 tr heq =>
            rw [heq] at hstep
            have hrest := ih st2
            split
            · next e st3 tr2 heq2 =>
                rw [heq2] at hrest
                simp only [List.all_append, Bool.and_eq_true]
                exact And.intro hstep hrest
            · next rl st3 tr2 heq2 =>
                rw [heq2] at hrest
                simp only [List.all_append, Bool.and_eq_true]
                exact And.intro hstep hrest

/-- Every event of `createWithOptions`, `updateReference` and
`createReference` is a datastore put or a search refresh: in particular
these helpers open no transaction and touch no cache entry. -/
theorem opsF_opEv : ∀ n : Nat,
    (∀ (o : CreateOptions) (st : St) (m : MRec),
        (((opsF n).1 o st m).2.2.all opEv) = true)
    ∧ (∀ (st : St) (r : MRef) (k : Nat), (((opsF n).2.1 st r k).2.2.all opEv) = true)
    ∧ (∀ (st : St) (r : MRef), (((opsF n).2.2 st r).2.2.all opEv) = true) := by
  intro n
  induction n with
  | zero => exact ⟨fun _ _ _ => rfl, fun _ _ _ => rfl, fun _ _ => rfl⟩
  | succ k ih =>
      obtain ⟨ih1, ih2, ih3⟩ := ih
      refine ⟨?_, ?_, ?_⟩
      · intro o st m
        show ((createWOS (opsF k).2.1 (opsF k).2.2 o st m).2.2.all opEv) = true
        unfold createWOS
        split
        · rfl
        · have hloop := createLoop_all opEv _ _ (m.refs.getD [])
            (fun st2 r k2 _ => ih2 st2 r k2) (fun st2 r _ => ih3 st2 r) st none
          dsimp only
          split
          · next e st2 tr heq => rw [heq] at hloop; exact hloop
          · next rl2 anc st2 tr heq =>
              rw [heq] at hloop
              dsimp only
              simp only [List.all_append, Bool.and_eq_true]
              refine ⟨⟨hloop, rfl⟩, ?_⟩
              repeat' split
              all_goals rfl
      · intro st r k2
        show ((updateRefS (opsF k).2.1 (opsF k).2.2 st r k2).2.2.all opEv) = true
        unfold updateRefS
        dsimp only
        split
        · rfl
        · have hloop := updateRefLoop_all opEv _ _
            (((r.child.withKey (some k2)).refs.getD []))
            (fun st2 r2 k2 _ => ih2 st2 r2 k2) (fun st2 r2 _ => ih3 st2 r2) st
          split
          · next e st2 tr heq => rw [heq] at hloop; exact hloop
          · next rl2 st2 tr heq =>
              rw [heq] at hloop
              dsimp only
              simp only [List.all_append, Bool.and_eq_true]
              refine ⟨⟨hloop, rfl⟩, ?_⟩
              repeat' split
              all_goals rfl
      · intro st r
        show ((createRefS (opsF k).1 st r).2.2.all opEv) = true
        unfold createRefS
        have hstep := ih1 NewCreateOptions st r.child
        split
        · next e st2 tr heq => rw [heq] at hstep; exact hstep
        · next c2 st2 tr heq => rw [heq] at hstep; exact hstep

/-- Every event of `update` is a datastore put or a search refresh. -/
theorem updateF_opEv : ∀ (n : Nat) (st : St) (m : MRec),
    ((updateF n st m).2.2.all opEv) = true := by
  intro n st m
  obtain ⟨h1, h2, h3⟩ := opsF_opEv n
  unfold updateF
  split
  · rfl
  · next key hkey =>
      have hloop := updateRecLoop_all opEv (updateReferenceF n) (createReferenceF n)
        (m.refs.getD []) (fun st2 r k _ => h2 st2 r k) (fun st2 r _ => h3 st2 r) st
      split
      · next e st2 tr heq => rw [heq] at hloop; exact hloop
      · next rl2 st2 tr heq =>
          rw [heq] at hloop
          dsimp only
          simp only [List.all_append, Bool.and_eq_true]
          refine ⟨⟨hloop, rfl⟩, ?_⟩
          repeat' split
          all_goals rfl

/-- Every event of `saveInMemcache` is a cache event. -/
theorem saveInMemcacheF_cacheEv : ∀ (n : Nat) (st : St) (m : MRec),
    ((saveInMemcacheF n st m).2.2.all Ev.isCacheEv) = true := by
  intro n
  induction n with
  | zero => intro st m; rfl
  | succ k ih =>
      intro st m
      show ((saveInMemcacheS (saveInMemcacheF k) st m).2.2.all Ev.isCacheEv) = true
      unfold saveInMemcacheS
      split
      · rfl
      · split
        · rfl
        · next key hkey =>
            split
            · rfl
            · have hloop := saveRefsLoop_all Ev.isCacheEv (saveInMemcacheF k)
                (fun st2 c => ih st2 c) (m.refs.getD []) st
              split
              · next e st2 tr heq => rw [heq] at hloop; exact hloop
              · next km st2 tr heq =>
                  rw [heq] at hloop
                  dsimp only
                  simp only [List.all_append, Bool.and_eq_true]
                  exact ⟨hloop, rfl⟩

/-- Every event of `deleteFromMemcache` is a cache event. -/
theorem deleteFromMemcacheF_cacheEv : ∀ (n : Nat) (st : St) (m : MRec),
    ((deleteFromMemcacheF n st m).2.2.all Ev.isCacheEv) = true := by
  intro n
  induction n with
  | zero => intro st m; rfl
  | succ k ih =>
      intro st m
      show ((deleteFromMemcacheS (deleteFromMemcacheF k) st m).2.2.all Ev.isCacheEv) = true
      unfold deleteFromMemcacheS
      split
      · rfl
      · next key hkey =>
          have hloop := deleteRefsLoop_all Ev.isCacheEv (deleteFromMemcacheF k)
            (fun st2 c => ih st2 c) (m.refs.getD []) st
          split
          · next e st2 tr heq => rw [heq] at hloop; exact hloop
          · next rl2 st2 tr heq =>
              rw [heq] at hloop
              split
              · exact hloop
              · split
                · simp only [List.all_append, Bool.and_eq_true]
                  exact ⟨hloop, rfl⟩
                · dsimp only
                  simp only [List.all_append, Bool.and_eq_true]
                  exact ⟨hloop, rfl⟩

/-- Events of helper operations are never transactions. -/
theorem opEv_notTx : ∀ e : Ev, opEv e = true → (!(e.isTx)) = true := by
  intro e h
  cases e <;> first | rfl | exact (Bool.false_ne_true h).elim

/-- Cache events are never transactions. -/
theorem cacheEv_notTx : ∀ e : Ev, Ev.isCacheEv e = true → (!(e.isTx)) = true := by
  intro e h
  cases e <;> first | rfl | exact (Bool.false_ne_true h).elim

/-- Cache events are never bare datastore writes. -/
theorem cacheEv_notBare : ∀ e : Ev, Ev.isCacheEv e = true → (!(e.isBareDsWrite)) = true := by
  intro e h
  cases e <;> first | rfl | exact (Bool.false_ne_true h).elim

/-- Cache events satisfy any attempt-count discipline. -/
theorem cacheEv_txOk (a : Nat) : ∀ e : Ev, Ev.isCacheEv e = true →
    (match e with
      | .tx a2 _ => a2 == a
      | _ => true) = true := by
  intro e h
  cases e <;> first | rfl | exact (Bool.false_ne_true h).elim

/-- A trace whose events are all non-writes contains no bare write. -/
theorem hasBareDsWrite_of_all {tr : List Ev}
    (h : tr.all (fun e => !(e.isBareDsWrite)) = true) : hasBareDsWrite tr = false := by
  unfold hasBareDsWrite
  cases hb : tr.any Ev.isBareDsWrite
  · rfl
  · exfalso
    rw [List.any_eq_true] at hb
    obtain ⟨e, he, hbe⟩ := hb
    rw [List.all_eq_true] at h
    have h2 := h e he
    rw [hbe] at h2
    exact Bool.false_ne_true h2

/-- `runTx` emits exactly one event: the transaction with its attempt
count, wrapping the trace of the body. -/
theorem runTx_trace {α : Type} (a : Nat) (st : St)
    (f : St → (Except String α) × St × List Ev) :
    ∃ inner, (runTx a st f).2.2 = [Ev.tx a inner] := by
  unfold runTx
  rcases f st with ⟨res, st2, tr⟩
  cases res
  · exact ⟨tr, rfl⟩
  · exact ⟨tr, rfl⟩

/-! ## Claim theorems C1 and C9 -/

/-- C1, counterexample to the stated transactional wrapping: `Create`
and `Update` with default options perform their datastore puts outside
any transaction — the traces contain bare put events and no transaction
event at all (extension.go:64-69 only opens a transaction for a positive
`Attempts`; `new(CreateOptions)` leaves it zero; query.go:365-377 never
opens one). -/
theorem C1_default_ops_not_transactional :
    (hasBareDsWrite ((CreateF 10 st0 exEntI).2.2) = true
      ∧ noTx ((CreateF 10 st0 exEntI).2.2) = true)
    ∧ (hasBareDsWrite ((UpdateF 10 st0 exPROk).2.2) = true
      ∧ noTx ((UpdateF 10 st0 exPROk).2.2) = true) := by
  exact ⟨⟨rfl, rfl⟩, ⟨rfl, rfl⟩⟩

/-- C1 (amended).  The transactional discipline actually implemented:
the default `CreateOptions` carry zero transaction attempts, not one;
`CreateWithOptions` with a positive attempt count wraps all its
datastore writes in a single transaction carrying exactly the caller's
attempt count (the trailing cache mirror only touches the cache);
`UpdateInTransaction` and `Clear` always wrap their datastore writes in
a single transaction with exactly one attempt; and plain `Create` and
`Update` open no transaction at all. -/
theorem C1_transactions (n : Nat) (st : St) (m : MRec) (copts : CreateOptions) :
    NewCreateOptions.attempts = 0
    ∧ (0 < copts.attempts →
        hasBareDsWrite ((CreateWithOptionsF n copts st m).2.2) = false
        ∧ txAttemptsOk copts.attempts ((CreateWithOptionsF n copts st m).2.2) = true)
    ∧ (hasBareDsWrite ((UpdateInTransactionF n st m).2.2) = false
        ∧ txAttemptsOk 1 ((UpdateInTransactionF n st m).2.2) = true)
    ∧ (hasBareDsWrite ((ClearF n st m).2.2) = false
        ∧ txAttemptsOk 1 ((ClearF n st m).2.2) = true)
    ∧ noTx ((CreateF n st m).2.2) = true
    ∧ noTx ((UpdateF n st m).2.2) = true := by
  refine ⟨rfl, ?_, ?_, ?_, ?_, ?_⟩
  · -- CreateWithOptions with positive attempts
    intro h
    unfold CreateWithOptionsF
    cases hidx : indexF n m with
    | error e => exact ⟨rfl, rfl⟩
    | ok m1 =>
        dsimp only
        have hgt : copts.attempts > 0 := h
        rw [if_pos hgt]
        obtain ⟨inner, htx⟩ :=
          runTx_trace copts.attempts st (fun st1 => createWithOptionsF n copts st1 m1)
        rcases hr : runTx copts.attempts st
            (fun st1 => createWithOptionsF n copts st1 m1) with ⟨res, st2, tr⟩
        rw [hr] at htx
        have htr : tr = [Ev.tx copts.attempts inner] := htx
        subst htr
        cases res with
        | error e =>
            refine ⟨rfl, ?_⟩
            show ([Ev.tx copts.attempts inner].all _) = true
            simp [txAttemptsOk]
        | ok m2 =>
            dsimp only
            rcases hs : saveInMemcacheF n st2 m2 with ⟨res2, st3, tr2⟩
            have hcache : tr2.all Ev.isCacheEv = true := by
              have h2 := saveInMemcacheF_cacheEv n st2 m2
              rw [hs] at h2
              exact h2
            have hgoal : hasBareDsWrite ([Ev.tx copts.attempts inner] ++ tr2) = false
                ∧ txAttemptsOk copts.attempts ([Ev.tx copts.attempts inner] ++ tr2) = true := by
              constructor
              · refine hasBareDsWrite_of_all ?_
                simp only [List.all_append, Bool.and_eq_true]
                exact ⟨rfl, evAll_imp cacheEv_notBare tr2 hcache⟩
              · show (([Ev.tx copts.attempts inner] ++ tr2).all _) = true
                simp only [List.all_append, Bool.and_eq_true]
                refine ⟨by simp, evAll_imp (cacheEv_txOk copts.attempts) tr2 hcache⟩
            cases res2 with
            | error e => exact hgoal
            | ok u => exact hgoal
  · -- UpdateInTransaction
    unfold UpdateInTransactionF
    cases hidx : indexF n m with
    | error e => exact ⟨rfl, rfl⟩
    | ok m1 =>
        dsimp only
        obtain ⟨inner, htx⟩ := runTx_trace 1 st (fun st1 => updateF n st1 m1)
        rcases hr : runTx 1 st (fun st1 => updateF n st1 m1) with ⟨res, st2, tr⟩
        rw [hr] at htx
        have htr : tr = [Ev.tx 1 inner] := htx
        subst htr
        cases res with
        | error e =>
            refine ⟨rfl, ?_⟩
            show ([Ev.tx 1 inner].all _) = true
            simp [txAttemptsOk]
        | ok m2 =>
            dsimp only
            rcases hs : saveInMemcacheF n st2 m2 with ⟨res2, st3, tr2⟩
            have hcache : tr2.all Ev.isCacheEv = true := by
              have h2 := saveInMemcacheF_cacheEv n st2 m2
              rw [hs] at h2
              exact h2
            have hgoal : hasBareDsWrite ([Ev.tx 1 inner] ++ tr2) = false
                ∧ txAttemptsOk 1 ([Ev.tx 1 inner] ++ tr2) = true := by
              constructor
              · refine hasBareDsWrite_of_all ?_
                simp only [List.all_append, Bool.and_eq_true]
                exact ⟨rfl, evAll_imp cacheEv_notBare tr2 hcache⟩
              · show (([Ev.tx 1 inner] ++ tr2).all _) = true
                simp only [List.all_append, Bool.and_eq_true]
                refine ⟨by simp, evAll_imp (cacheEv_txOk 1) tr2 hcache⟩
            cases res2 with
            | error e => exact hgoal
            | ok u => exact hgoal
  · -- Clear
    unfold ClearF
    obtain ⟨inner, htx⟩ := runTx_trace 1 st (fun st1 => clearF n st1 m)
    rcases hr : runTx 1 st (fun st1 => clearF n st1 m) with ⟨res, st2, tr⟩
    rw [hr] at htx
    have htr : tr = [Ev.tx 1 inner] := htx
    subst htr
    cases res with
    | error e =>
        refine ⟨rfl, ?_⟩
        show ([Ev.tx 1 inner].all _) = true
        simp [txAttemptsOk]
    | ok u =>
        dsimp only
        rcases hs : deleteFromMemcacheF n st2 m with ⟨res2, st3, tr2⟩
        have hcache : tr2.all Ev.isCacheEv = true := by
          have h2 := deleteFromMemcacheF_cacheEv n st2 m
          rw [hs] at h2
          exact h2
        have hgoal : hasBareDsWrite ([Ev.tx 1 inner] ++ tr2) = false
            ∧ txAttemptsOk 1 ([Ev.tx 1 inner] ++ tr2) = true := by
          constructor
          · refine hasBareDsWrite_of_all ?_
            simp only [List.all_append, Bool.and_eq_true]
            exact ⟨rfl, evAll_imp cacheEv_notBare tr2 hcache⟩
          · show (([Ev.tx 1 inner] ++ tr2).all _) = true
            simp only [List.all_append, Bool.and_eq_true]
            refine ⟨by simp, evAll_imp (cacheEv_txOk 1) tr2 hcache⟩
        cases res2 with
        | error e => exact hgoal
        | ok u2 => exact hgoal
  · -- Create opens no transaction
    unfold CreateF CreateWithOptionsF
    cases hidx : indexF n m with
    | error e => rfl
    | ok m1 =>
        dsimp only
        rw [if_neg (by decide : ¬ NewCreateOptions.attempts > 0)]
        unfold createWithOptionsF
        rcases hcw : (opsF n).1 NewCreateOptions st m1 with ⟨res, st2, tr⟩
        have hop : tr.all opEv = true := by
          have h2 := (opsF_opEv n).1 NewCreateOptions st m1
          rw [hcw] at h2
          exact h2
        cases res with
        | error e => exact evAll_imp opEv_notTx tr hop
        | ok m2 =>
            dsimp only
            rcases hs : saveInMemcacheF n st2 m2 with ⟨res2, st3, tr2⟩
            have hcache : tr2.all Ev.isCacheEv = true := by
              have h2 := saveInMemcacheF_cacheEv n st2 m2
              rw [hs] at h2
              exact h2
            have hgoal : noTx (tr ++ tr2) = true := by
              show ((tr ++ tr2).all _) = true
              simp only [List.all_append, Bool.and_eq_true]
              exact ⟨evAll_imp opEv_notTx tr hop, evAll_imp cacheEv_notTx tr2 hcache⟩
            cases res2 with
            | error e => exact hgoal
            | ok u => exact hgoal
  · -- Update opens no transaction
    unfold UpdateF
    cases hidx : indexF n m with
    | error e => rfl
    | ok m1 =>
        dsimp only
        rcases hu : updateF n st m1 with ⟨res, st2, tr⟩
        have hop : tr.all opEv = true := by
          have h2 := updateF_opEv n st m1
          rw [hu] at h2
          exact h2
        cases res with
        | error e => exact evAll_imp opEv_notTx tr hop
        | ok m2 =>
            dsimp only
            rcases hs : saveInMemcacheF n st2 m2 with ⟨res2, st3, tr2⟩
            have hcache : tr2.all Ev.isCacheEv = true := by
              have h2 := saveInMemcacheF_cacheEv n st2 m2
              rw [hs] at h2
              exact h2
            have hgoal : noTx (tr ++ tr2) = true := by
              show ((tr ++ tr2).all _) = true
              simp only [List.all_append, Bool.and_eq_true]
              exact ⟨evAll_imp opEv_notTx tr hop, evAll_imp cacheEv_notTx tr2 hcache⟩
            cases res2 with
            | error e => exact hgoal
            | ok u => exact hgoal

/-- C1, witness: the amended discipline at concrete inputs, with the
positive-attempts hypothesis discharged for three attempts. -/
theorem C1_transactions_witness :
    (0 < (3 : Nat)
      ∧ hasBareDsWrite ((CreateWithOptionsF 10 ⟨"", 0, 3⟩ st0 exEntI).2.2) = false)
    ∧ txAttemptsOk 1 ((ClearF 10 st0 exPROk).2.2) = true := by
  have h := C1_transactions 10 st0 exEntI ⟨"", 0, 3⟩
  have h2 := C1_transactions 10 st0 exPROk ⟨"", 0, 3⟩
  exact ⟨⟨by decide, (h.2.1 (by decide)).1⟩, h2.2.2.2.1.2⟩

/-- C9.  Creating a record that already carries a storage key fails with
the "already created" error before touching the datastore: the state is
returned unchanged and the trace is empty (extension.go:87-89, the guard
precedes every datastore access). -/
theorem C9_create_existing_key (n : Nat) (st : St) (m m1 : MRec)
    (hidx : indexF n m = .ok m1) (hkey : m.key.isSome = true) :
    CreateF n st m = (.error "data has already been created", st, []) := by
  have hk1 : m1.key.isSome = true := by
    obtain ⟨rl2, rfl⟩ := indexF_shape hidx
    exact hkey
  cases n with
  | zero => cases hidx
  | succ k =>
      unfold CreateF CreateWithOptionsF
      rw [hidx]
      dsimp only
      rw [if_neg (by decide : ¬ NewCreateOptions.attempts > 0)]
      have hstep : createWithOptionsF (k + 1) NewCreateOptions st m1
          = (.error "data has already been created", st, []) := by
        show createWOS (opsF k).2.1 (opsF k).2.2 NewCreateOptions st m1 = _
        unfold createWOS
        rw [hk1]
        rfl
      rw [hstep]

/-- C9, witness: a concrete keyed record, stable under indexing, is
rejected by `Create` with the state untouched and an empty trace. -/
theorem C9_create_existing_key_witness :
    indexF 3 exMCPar = .ok exMCPar ∧ exMCPar.key.isSome = true
    ∧ CreateF 3 st0 exMCPar = (.error "data has already been created", st0, []) :=
  ⟨rfl, rfl, C9_create_existing_key 3 st0 exMCPar exMCPar rfl rfl⟩

/-! ## Address bounds for cache writes, and error propagation (C5, C10) -/

/-- Membership distributes over appended address lists. -/
theorem addrIn_append (a : Nat) : ∀ l1 l2 : List Nat,
    addrIn a (l1 ++ l2) = (addrIn a (l1) || addrIn a l2) := by
  intro l1 l2
  induction l1 with
  | nil => rfl
  | cons b rest ih =>
      show ((b == a) || addrIn a (rest ++ l2)) = (((b == a) || addrIn a rest) || addrIn a l2)
      rw [ih, Bool.or_assoc]

/-- The addresses of a reference are those of its child record. -/
theorem refAddrsOf_eq (r : MRef) : refAddrsOf r = recAddrs r.child := by
  cases r; rfl

/-- A child subtree address is an address of the reference list. -/
theorem refsAddrs_sub (a : Nat) (r : MRef) : ∀ l : List MRef, r ∈ l →
    addrIn a (recAddrs r.child) = true → addrIn a (refsAddrs l) = true := by
  intro l
  induction l with
  | nil => intro hr; cases hr
  | cons h rest ih =>
      intro hr ha
      show addrIn a (refAddrsOf h ++ refsAddrs rest) = true
      rw [addrIn_append]
      rcases List.mem_cons.mp hr with rfl | hr2
      · rw [refAddrsOf_eq, ha]; rfl
      · rw [ih hr2 ha, Bool.or_true]

/-- Enlarging the allowed set preserves the cache-write bound. -/
theorem cacheSetsWithin_mono {A B : List Nat}
    (hsub : ∀ a, addrIn a A = true → addrIn a B = true) :
    ∀ {tr : List Ev}, cacheSetsWithin A tr = true → cacheSetsWithin B tr = true := by
  intro tr h
  refine evAll_imp ?_ tr h
  intro e he
  cases e <;> first | rfl | exact hsub _ he

/-- A trace bounded away from an address writes no cache entry for it. -/
theorem noCacheSetFor_of_within {A : List Nat} {a : Nat} {tr : List Ev}
    (h : cacheSetsWithin A tr = true) (ha : addrIn a A = false) :
    noCacheSetFor a tr = true := by
  refine evAll_imp ?_ tr h
  intro e he
  cases e <;> try rfl
  next a2 ck =>
    dsimp only at he ⊢
    cases hq : (a2 == a) with
    | false => rfl
    | true =>
        have ha2 : a2 = a := by simpa using hq
        subst ha2
        rw [ha] at he
        exact (Bool.false_ne_true he).elim

/-- Member-aware version of the trace preservation for the save loop:
the predicate needs to hold only for saves of children of the list. -/
theorem saveRefsLoop_allMem (p : Ev → Bool) (save : St → MRec → URes) (l : List MRef)
    (hrec : ∀ st r, r ∈ l → ((save st r.child).2.2.all p) = true) :
    ∀ st : St, ((saveRefsLoop save st l).2.2.all p) = true := by
  induction l with
  | nil => intro st; rfl
  | cons r rest ih =>
      intro st
      have hmem : r ∈ r :: rest := List.mem_cons_self r rest
      have ihr : ∀ st2 : St, ((saveRefsLoop save st2 rest).2.2.all p) = true :=
        ih (fun st2 r2 hr2 => hrec st2 r2 (List.mem_cons_of_mem r hr2))
      unfold saveRefsLoop
      split
      · exact ihr st
      · split
        · exact ihr st
        · next ck hck =>
            split
            · have hstep := hrec st r hmem
              split
              · next e st2 tr heq => rw [heq] at hstep; exact hstep
              · next u st2 tr heq =>
                  rw [heq] at hstep
                  have hrest := ihr st2
                  split
                  · next e st3 tr2 heq2 =>
                      rw [heq2] at hrest
                      simp only [List.all_append, Bool.and_eq_true]
                      exact And.intro hstep hrest
                  · next km st3 tr2 heq2 =>
                      rw [heq2] at hrest
                      simp only [List.all_append, Bool.and_eq_true]
                      exact And.intro hstep hrest
            · rfl

/-- Every cache write of `saveInMemcache` targets a record of the
argument's reference closure: the record itself or a member of some
reachable reference list. -/
theorem saveInMemcacheF_cacheSets : ∀ (n : Nat) (st : St) (m : MRec),
    cacheSetsWithin (recAddrs m) ((saveInMemcacheF n st m).2.2) = true := by
  intro n
  induction n with
  | zero => intro st m; rfl
  | succ j ih =>
      intro st m
      show cacheSetsWithin (recAddrs m) ((saveInMemcacheS (saveInMemcacheF j) st m).2.2) = true
      obtain ⟨a0, k0, rg, ro, sz, se, fs, refsOpt⟩ := m
      unfold saveInMemcacheS
      split
      · rfl
      · split
        · rfl
        · next k hk =>
            split
            · rfl
            · cases refsOpt with
              | none =>
                  show cacheSetsWithin (recAddrs (MRec.mk a0 k0 rg ro sz se fs none))
                    ([Ev.cacheSet a0 (encKey k)]) = true
                  show (((a0 == a0) || false) && true) = true
                  simp
              | some rl =>
                  have hsub : ∀ (r2 : MRef), r2 ∈ rl → ∀ a,
                      addrIn a (recAddrs r2.child) = true →
                      addrIn a (recAddrs (.mk a0 k0 rg ro sz se fs (some rl))) = true := by
                    intro r2 hr2 a ha
                    show ((a0 == a) || addrIn a (refsAddrs rl)) = true
                    rw [refsAddrs_sub a r2 rl hr2 ha, Bool.or_true]
                  have hloop := saveRefsLoop_allMem _ (saveInMemcacheF j) rl
                    (fun st2 r2 hr2 =>
                      cacheSetsWithin_mono (hsub r2 hr2) (ih st2 r2.child)) st
                  have hgetd : ((MRec.mk a0 k0 rg ro sz se fs (some rl)).refs.getD [])
                      = rl := rfl
                  rw [hgetd]
                  split
                  · next e st2 tr heq => rw [heq] at hloop; exact hloop
                  · next km st2 tr heq =>
                      rw [heq] at hloop
                      dsimp only
                      show ((tr ++ [Ev.cacheSet a0 (encKey k)]).all _) = true
                      simp only [List.all_append, Bool.and_eq_true]
                      refine ⟨hloop, ?_⟩
                      show ((((a0 == a0) || addrIn a0 (refsAddrs rl))) && true) = true
                      simp

/-- A reference list containing a non-readonly entry whose child key
differs from the recorded reference key makes the save loop fail. -/
theorem saveRefsLoop_mismatch_err (save : St → MRec → URes) (l : List MRef) (r : MRef)
    (hr : r ∈ l) (hro : r.child.readonly = false)
    (hbad : ∃ ck, r.child.key = some ck ∧ r.key ≠ some ck) :
    ∀ st : St, ∃ e, (saveRefsLoop save st l).1 = .error e := by
  induction l with
  | nil => cases hr
  | cons h rest ih =>
      intro st
      unfold saveRefsLoop
      rcases List.mem_cons.mp hr with rfl | hr2
      · rw [if_neg (fun hc => Bool.false_ne_true (hro ▸ hc))]
        obtain ⟨ck, hcks, hne⟩ := hbad
        rw [hcks]
        dsimp only
        rw [if_neg hne]
        exact ⟨_, rfl⟩
      · by_cases hro2 : h.child.readonly = true
        · rw [if_pos hro2]
          exact ih hr2 st
        · rw [if_neg hro2]
          cases hk : h.child.key with
          | none => exact ih hr2 st
          | some ck2 =>
              dsimp only
              by_cases hkey2 : h.key = some ck2
              · rw [if_pos hkey2]
                rcases hs : save st h.child with ⟨res, st2, tr⟩
                cases res with
                | error e => exact ⟨e, rfl⟩
                | ok u =>
                    obtain ⟨e, he⟩ := ih hr2 st2
                    rcases hrec : saveRefsLoop save st2 rest with ⟨res2, st3, tr2⟩
                    rw [hrec] at he
                    have he2 : res2 = .error e := he
                    subst he2
                    dsimp only
                    rw [hrec]
                    exact ⟨e, rfl⟩
              · rw [if_neg hkey2]
                exact ⟨_, rfl⟩

/-- A reference whose field index is absent from the key map makes the
load loop fail. -/
theorem loadRefsLoop_miss_err (load : St → MRec → RecRes) (km : List (Nat × Nat))
    (l : List MRef) (r : MRef) (hr : r ∈ l) (hmiss : aget km r.idx = none) :
    ∀ st : St, ∃ e, (loadRefsLoop load km st l).1 = .error e := by
  induction l with
  | nil => cases hr
  | cons h rest ih =>
      intro st
      unfold loadRefsLoop
      cases hm : aget km h.idx with
      | none => exact ⟨_, rfl⟩
      | some ek =>
          dsimp only
          have hr2 : r ∈ rest := by
            rcases List.mem_cons.mp hr with rfl | hr2
            · rw [hm] at hmiss; cases hmiss
            · exact hr2
          rcases hl : load st (h.child.withKey (some ek)) with ⟨res, st2, tr⟩
          cases res with
          | error e => exact ⟨e, rfl⟩
          | ok c2 =>
              obtain ⟨e, he⟩ := ih hr2 st2
              rcases hrec : loadRefsLoop load km st2 rest with ⟨res2, st3, tr2⟩
              rw [hrec] at he
              have he2 : res2 = .error e := he
              subst he2
              dsimp only
              rw [hrec]
              exact ⟨e, rfl⟩

/-! ## Claim theorems C5 and C10 -/

/-- C5.  A stored cache entry whose key map lacks a reference expected
by the record's descriptor is treated as a full cache miss: the load
returns an error — on which `Read` falls through to the datastore — and
never an `ok` partially populated record (unnamed/part_002:119-124: the
absent index aborts the whole load before the deferred copy runs). -/
theorem C5_missing_ref_is_cache_miss (n : Nat) (st : St) (m : MRec) (k : Nat)
    (box : CEntry) (rl : List MRef) (r : MRef)
    (hkey : m.key = some k)
    (hbox : aget st.cache (encKey k) = some box)
    (hrefs : m.refs = some rl) (hr : r ∈ rl)
    (hmiss : aget box.keyMap r.idx = none) :
    ∃ e, (loadFromMemcacheF n st m).1 = .error e := by
  cases n with
  | zero => exact ⟨_, rfl⟩
  | succ j =>
      show ∃ e, (loadFromMemcacheS (loadFromMemcacheF j) st m).1 = .error e
      unfold loadFromMemcacheS
      rw [hkey]
      dsimp only
      split
      · exact ⟨_, rfl⟩
      · rw [hbox]
        dsimp only
        have hl : (m.refs.getD []) = rl := by rw [hrefs]; rfl
        rw [hl]
        obtain ⟨e, he⟩ :=
          loadRefsLoop_miss_err (loadFromMemcacheF j) box.keyMap rl r hr hmiss st
        rcases hloop : loadRefsLoop (loadFromMemcacheF j) box.keyMap st rl
          with ⟨res, st2, tr⟩
        rw [hloop] at he
        have he2 : res = .error e := he
        subst he2
        exact ⟨e, rfl⟩

/-- C5, witness: a cache entry with an empty key map for a record whose
descriptor expects one reference. -/
theorem C5_missing_ref_is_cache_miss_witness :
    ∃ e, (loadFromMemcacheF 5 stC5 exMCPar).1 = .error e :=
  C5_missing_ref_is_cache_miss 5 stC5 exMCPar 8 ⟨[], exMCPar⟩
    [.mk 0 exMCChild (some 5) false] (.mk 0 exMCChild (some 5) false)
    rfl rfl rfl (List.mem_cons_self _ _) rfl

/-- C10.  Saving an indexed, keyed record whose reference list holds a
non-readonly entry with a keyed child whose key is not the one recorded
on the reference slot fails with an error, and the record's own cache
entry is never written (unnamed/part_002:64-67: the mismatch aborts the
reference walk, and the record's own `Gob.Set` only runs after the walk
succeeds).  Freshness of the record's address with respect to its
children's subtrees pins "its own entry" in the trace. -/
theorem C10_save_key_mismatch (n : Nat) (st : St) (m : MRec) (k : Nat)
    (rl : List MRef) (r : MRef)
    (hreg : m.isRegistered = true)
    (hkey : m.key = some k) (hrefs : m.refs = some rl) (hr : r ∈ rl)
    (hro : r.child.readonly = false)
    (hbad : ∃ ck, r.child.key = some ck ∧ r.key ≠ some ck)
    (hfresh : addrIn m.addr (refsAddrs rl) = false) :
    (∃ e, (saveInMemcacheF n st m).1 = .error e)
    ∧ noCacheSetFor m.addr ((saveInMemcacheF n st m).2.2) = true := by
  cases n with
  | zero => exact ⟨⟨_, rfl⟩, rfl⟩
  | succ j =>
      show (∃ e, (saveInMemcacheS (saveInMemcacheF j) st m).1 = .error e)
        ∧ noCacheSetFor m.addr ((saveInMemcacheS (saveInMemcacheF j) st m).2.2) = true
      unfold saveInMemcacheS
      rw [if_neg (fun hc => Bool.false_ne_true ((hreg ▸ hc : (true = false))).symm)]
      rw [hkey]
      dsimp only
      split
      · exact ⟨⟨_, rfl⟩, rfl⟩
      · have hl : (m.refs.getD []) = rl := by rw [hrefs]; rfl
        rw [hl]
        have hsub : ∀ (r2 : MRef), r2 ∈ rl → ∀ a,
            addrIn a (recAddrs r2.child) = true → addrIn a (refsAddrs rl) = true :=
          fun r2 hr2 a ha => refsAddrs_sub a r2 rl hr2 ha
        have hbound := saveRefsLoop_allMem _ (saveInMemcacheF j) rl
          (fun st2 r2 hr2 =>
            cacheSetsWithin_mono (hsub r2 hr2) (saveInMemcacheF_cacheSets j st2 r2.child)) st
        obtain ⟨e, he⟩ := saveRefsLoop_mismatch_err (saveInMemcacheF j) rl r hr hro hbad st
        rcases hloop : saveRefsLoop (saveInMemcacheF j) st rl with ⟨res, st2, tr⟩
        rw [hloop] at he hbound
        have he2 : res = .error e := he
        subst he2
        exact ⟨⟨e, rfl⟩, noCacheSetFor_of_within hbound hfresh⟩

/-- C10, witness: a parent whose reference slot records key 5 while the
child holds key 9: the save fails and no cache entry for the parent is
written. -/
theorem C10_save_key_mismatch_witness :
    (∃ e, (saveInMemcacheF 5 st0 exMCPar).1 = .error e)
    ∧ noCacheSetFor 30 ((saveInMemcacheF 5 st0 exMCPar).2.2) = true :=
  C10_save_key_mismatch 5 st0 exMCPar 8 [.mk 0 exMCChild (some 5) false]
    (.mk 0 exMCChild (some 5) false) rfl rfl rfl (List.mem_cons_self _ _) rfl
    ⟨9, rfl, by decide⟩ rfl

/-! ## Datastore put bounds for the update path (C4) -/

/-- `withRefs` preserves the address. -/
theorem withRefs_addr (m : MRec) (rs : Option (List MRef)) : (m.withRefs rs).addr = m.addr := by
  cases m; rfl

/-- `withKey` preserves the address. -/
theorem withKey_addr (m : MRec) (k : Option Nat) : (m.withKey k).addr = m.addr := by
  cases m; rfl

/-- `withKey` preserves the readonly flag. -/
theorem withKey_readonly (m : MRec) (k : Option Nat) : (m.withKey k).readonly = m.readonly := by
  cases m; rfl

/-- `withKey` preserves the reachable address set. -/
theorem recAddrs_withKey (m : MRec) (k : Option Nat) : recAddrs (m.withKey k) = recAddrs m := by
  obtain ⟨a0, k0, rg, ro, sz, se, fs, refsOpt⟩ := m
  cases refsOpt <;> rfl

/-- A record's own address is in its reachable set. -/
theorem recAddrs_head (m : MRec) : addrIn m.addr (recAddrs m) = true := by
  obtain ⟨a0, k0, rg, ro, sz, se, fs, refsOpt⟩ := m
  cases refsOpt with
  | none => show ((a0 == a0) || false) = true; simp
  | some rl => show ((a0 == a0) || addrIn a0 (refsAddrs rl)) = true; simp

/-- Reachable addresses of a reference-list member embed into those of
the record owning the list. -/
theorem recAddrs_sub_of_mem {m : MRec} {r2 : MRef} (hr2 : r2 ∈ m.refs.getD []) :
    ∀ a, addrIn a (recAddrs r2.child) = true → addrIn a (recAddrs m) = true := by
  obtain ⟨a0, k0, rg, ro, sz, se, fs, refsOpt⟩ := m
  cases refsOpt with
  | none => cases hr2
  | some rl =>
      intro a ha
      show ((a0 == a) || addrIn a (refsAddrs rl)) = true
      rw [refsAddrs_sub a r2 rl hr2 ha, Bool.or_true]

/-- Enlarging the allowed set preserves the put bound. -/
theorem putsWithin_mono {A B : List Nat}
    (hsub : ∀ a, addrIn a A = true → addrIn a B = true) :
    ∀ {tr : List Ev}, putsWithin A tr = true → putsWithin B tr = true := by
  intro tr h
  refine evAll_imp ?_ tr h
  intro e he
  cases e <;> first | rfl | exact hsub _ he | exact (Bool.false_ne_true he).elim

/-- Put search distributes over appended traces. -/
theorem hasPutFor_append (a : Nat) (l1 l2 : List Ev) :
    hasPutFor a (l1 ++ l2) = (hasPutFor a (l1) || hasPutFor a l2) := by
  unfold hasPutFor
  rw [List.any_append]

/-- A trace whose puts avoid an address contains no put for it. -/
theorem hasPutFor_of_putsWithin {A : List Nat} {a : Nat} (ha : addrIn a A = false)
    {tr : List Ev} (h : putsWithin A tr = true) : hasPutFor a tr = false := by
  unfold hasPutFor
  cases hb : tr.any (fun e => match e with | Ev.dsPut a2 _ => a2 == a | _ => false) with
  | false => rfl
  | true =>
      exfalso
      rw [List.any_eq_true] at hb
      obtain ⟨e, he, hpe⟩ := hb
      unfold putsWithin at h
      rw [List.all_eq_true] at h
      have hw := h e he
      cases e <;> dsimp only at hpe hw
      case dsPut a2 k2 =>
        have ha2 : a2 = a := by simpa using hpe
        subst ha2
        rw [hw] at ha
        exact Bool.false_ne_true ha.symm
      all_goals exact Bool.false_ne_true hpe

/-- A cache-only trace contains no put at all. -/
theorem hasPutFor_of_cacheEv {a : Nat} {tr : List Ev}
    (h : tr.all Ev.isCacheEv = true) : hasPutFor a tr = false := by
  unfold hasPutFor
  cases hb : tr.any (fun e => match e with | Ev.dsPut a2 _ => a2 == a | _ => false) with
  | false => rfl
  | true =>
      exfalso
      rw [List.any_eq_true] at hb
      obtain ⟨e, he, hpe⟩ := hb
      rw [List.all_eq_true] at h
      have hw := h e he
      cases e <;> dsimp only at hpe hw
      case dsPut a2 k2 => exact Bool.false_ne_true hw
      all_goals exact Bool.false_ne_true hpe

/-- Appending three bounded traces stays bounded. -/
theorem putsWithin_append3 {A : List Nat} {l1 l2 l3 : List Ev}
    (h1 : putsWithin A (l1) = true) (h2 : putsWithin A l2 = true)
    (h3 : putsWithin A l3 = true) : putsWithin A (l1 ++ l2 ++ l3) = true := by
  unfold putsWithin at *
  simp only [List.all_append, Bool.and_eq_true]
  exact ⟨⟨h1, h2⟩, h3⟩

/-- A singleton put trace aimed at an allowed address is bounded. -/
theorem putsWithin_put {A : List Nat} {a : Nat} (k : Nat) (h : addrIn a A = true) :
    putsWithin A ([Ev.dsPut a k]) = true := by
  show (addrIn a A && true) = true
  rw [h]
  rfl

/-- An optional search refresh is always bounded. -/
theorem putsWithin_search {A : List Nat} {c : Prop} [Decidable c] {k : Nat} :
    putsWithin A (if c then [Ev.searchUpd k] else []) = true := by
  split <;> rfl

/-- `updateReference` on a readonly child issues no event whatsoever
(query.go:397-399: it returns before resolving references and before the
datastore put). -/
theorem updateReferenceF_readonly_trace : ∀ (n : Nat) (st : St) (r : MRef) (k : Nat),
    r.child.readonly = true → (updateReferenceF n st r k).2.2 = [] := by
  intro n st r k hro
  cases n with
  | zero => rfl
  | succ j =>
      show (updateRefS (opsF j).2.1 (opsF j).2.2 st r k).2.2 = []
      unfold updateRefS
      dsimp only
      rw [if_pos (show ((r.child.withKey (some k)).readonly = true) from by
        rw [withKey_readonly]; exact hro)]

/-- Every datastore put of `createWithOptions`, `updateReference` and
`createReference` targets a record of the argument's reference closure,
and these helpers open no transaction. -/
theorem opsF_putsWithin : ∀ n : Nat,
    (∀ (o : CreateOptions) (st : St) (m : MRec),
        putsWithin (recAddrs m) (((opsF n).1 o st m).2.2) = true)
    ∧ (∀ (st : St) (r : MRef) (k : Nat),
        putsWithin (recAddrs r.child) (((opsF n).2.1 st r k).2.2) = true)
    ∧ (∀ (st : St) (r : MRef),
        putsWithin (recAddrs r.child) (((opsF n).2.2 st r).2.2) = true) := by
  intro n
  induction n with
  | zero => exact ⟨fun _ _ _ => rfl, fun _ _ _ => rfl, fun _ _ => rfl⟩
  | succ j ih =>
      obtain ⟨ih1, ih2, ih3⟩ := ih
      refine ⟨?_, ?_, ?_⟩
      · intro o st m
        show putsWithin (recAddrs m) ((createWOS (opsF j).2.1 (opsF j).2.2 o st m).2.2) = true
        unfold createWOS
        split
        · rfl
        · have hloop := createLoop_all _ (opsF j).2.1 (opsF j).2.2 (m.refs.getD [])
            (fun st2 r2 k2 hm => putsWithin_mono (recAddrs_sub_of_mem hm) (ih2 st2 r2 k2))
            (fun st2 r2 hm => putsWithin_mono (recAddrs_sub_of_mem hm) (ih3 st2 r2)) st none
          split
          · next e st2 tr heq => rw [heq] at hloop; exact hloop
          · next rl2 anc st2 tr heq =>
              rw [heq] at hloop
              dsimp only
              refine putsWithin_append3 hloop (putsWithin_put _ ?_) putsWithin_search
              have haddr : (if m.refs.isSome then m.withRefs (some rl2) else m).addr
                  = m.addr := by
                split
                · rw [withRefs_addr]
                · rfl
              rw [haddr]
              exact recAddrs_head m
      · intro st r k2
        show putsWithin (recAddrs r.child)
          ((updateRefS (opsF j).2.1 (opsF j).2.2 st r k2).2.2) = true
        unfold updateRefS
        dsimp only
        split
        · rfl
        · have hrc : recAddrs (r.child.withKey (some k2)) = recAddrs r.child :=
            recAddrs_withKey r.child (some k2)
          have hloop := updateRefLoop_all _ (opsF j).2.1 (opsF j).2.2
            ((r.child.withKey (some k2)).refs.getD [])
            (fun st2 r2 kk hm => putsWithin_mono (fun a ha => by
                have h2 := recAddrs_sub_of_mem hm a ha
                rw [hrc] at h2
                exact h2) (ih2 st2 r2 kk))
            (fun st2 r2 hm => putsWithin_mono (fun a ha => by
                have h2 := recAddrs_sub_of_mem hm a ha
                rw [hrc] at h2
                exact h2) (ih3 st2 r2)) st
          split
          · next e st2 tr heq => rw [heq] at hloop; exact hloop
          · next rl2 st2 tr heq =>
              rw [heq] at hloop
              dsimp only
              refine putsWithin_append3 hloop (putsWithin_put _ ?_) putsWithin_search
              have haddr : (if (r.child.withKey (some k2)).refs.isSome
                    then (r.child.withKey (some k2)).withRefs (some rl2)
                    else (r.child.withKey (some k2))).addr = r.child.addr := by
                split
                · rw [withRefs_addr, withKey_addr]
                · rw [withKey_addr]
              rw [haddr]
              exact recAddrs_head r.child
      · intro st r
        show putsWithin (recAddrs r.child)
          ((createRefS (opsF j).1 st r).2.2) = true
        unfold createRefS
        have hstep := ih1 NewCreateOptions st r.child
        split
        · next e st2 tr heq => rw [heq] at hstep; exact hstep
        · next c2 st2 tr heq => rw [heq] at hstep; exact hstep

/-- The reference loop of `update` issues no put for an address that is
outside every entry's subtree, once entries owning the address are
readonly with a key available (those route through `updateReference`,
which returns before writing). -/
theorem updateRecLoop_no_put (u : St → MRef → Nat → RefRes) (c : St → MRef → RefRes)
    (a : Nat) (l : List MRef)
    (hu : ∀ st r k, r ∈ l → putsWithin (recAddrs r.child) ((u st r k).2.2) = true)
    (huro : ∀ st r k, r.child.readonly = true → (u st r k).2.2 = [])
    (hc : ∀ st r, r ∈ l → putsWithin (recAddrs r.child) ((c st r).2.2) = true)
    (hent : ∀ r, r ∈ l → (addrIn a (recAddrs r.child) = false
        ∨ (r.child.readonly = true ∧ (r.child.key.isSome = true ∨ r.key.isSome = true)))) :
    ∀ st : St, hasPutFor a ((updateRecLoop u c st l).2.2) = false := by
  induction l with
  | nil => intro st; rfl
  | cons r rest ih =>
      intro st
      have hmem : r ∈ r :: rest := List.mem_cons_self r rest
      have hstep : hasPutFor a ((match r.child.key with
          | some ck => u st r ck
          | none =>
              match r.key with
              | some k => u st r k
              | none =>
                  if r.child.skipIfZero && isZeroRec r.child then
                    ((.ok r : Except String MRef), st, ([] : List Ev))
                  else c st r) : RefRes).2.2 = false := by
        rcases hent r hmem with hfr | ⟨hro, hkeys⟩
        · cases hk : r.child.key with
          | some ck => exact hasPutFor_of_putsWithin hfr (hu st r ck hmem)
          | none =>
              cases hk2 : r.key with
              | some k => exact hasPutFor_of_putsWithin hfr (hu st r k hmem)
              | none =>
                  dsimp only
                  split
                  · rfl
                  · exact hasPutFor_of_putsWithin hfr (hc st r hmem)
        · cases hk : r.child.key with
          | some ck =>
              dsimp only
              rw [huro st r ck hro]
              rfl
          | none =>
              cases hk2 : r.key with
              | some k =>
                  dsimp only
                  rw [huro st r k hro]
                  rfl
              | none =>
                  exfalso
                  rcases hkeys with h1 | h1
                  · rw [hk] at h1; simp at h1
                  · rw [hk2] at h1; simp at h1
      have ihr : ∀ st2 : St, hasPutFor a ((updateRecLoop u c st2 rest).2.2) = false :=
        ih (fun st2 r2 k hr2 => hu st2 r2 k (List.mem_cons_of_mem r hr2))
          (fun st2 r2 hr2 => hc st2 r2 (List.mem_cons_of_mem r hr2))
          (fun r2 hr2 => hent r2 (List.mem_cons_of_mem r hr2))
      unfold updateRecLoop
      dsimp only
      split
      · next e st2 tr heq => rw [heq] at hstep; exact hstep
      · next r2 st2 tr heq =>
          rw [heq] at hstep
          have hrest := ihr st2
          split
          · next e st3 tr2 heq2 =>
              rw [heq2] at hrest
              rw [hasPutFor_append, hstep, hrest]
              rfl
          · next rl st3 tr2 heq2 =>
              rw [heq2] at hrest
              rw [hasPutFor_append, hstep, hrest]
              rfl

/-- `update` issues no put for an address foreign to its own entity and,
per the entry condition, to each reference subtree. -/
theorem updateF_no_put_for (n : Nat) (st : St) (m1 : MRec) (a : Nat) (rl : List MRef)
    (hrefs : m1.refs = some rl)
    (haddr : m1.addr ≠ a)
    (hent : ∀ r2, r2 ∈ rl → (addrIn a (recAddrs r2.child) = false
        ∨ (r2.child.readonly = true ∧ (r2.child.key.isSome = true ∨ r2.key.isSome = true)))) :
    hasPutFor a ((updateF n st m1).2.2) = false := by
  unfold updateF
  split
  · rfl
  · next key hkey =>
      have hl : m1.refs.getD [] = rl := by rw [hrefs]; rfl
      rw [hl]
      have hloop := updateRecLoop_no_put (updateReferenceF n) (createReferenceF n) a rl
        (fun st2 r2 k _ => (opsF_putsWithin n).2.1 st2 r2 k)
        (updateReferenceF_readonly_trace n)
        (fun st2 r2 _ => (opsF_putsWithin n).2.2 st2 r2)
        hent st
      split
      · next e st2 tr heq => rw [heq] at hloop; exact hloop
      · next rl2 st2 tr heq =>
          rw [heq] at hloop
          dsimp only
          have haddr2 : (if m1.refs.isSome then m1.withRefs (some rl2) else m1).addr
              = m1.addr := by
            split
            · rw [withRefs_addr]
            · rfl
          have hput : hasPutFor a
              ([Ev.dsPut (if m1.refs.isSome then m1.withRefs (some rl2) else m1).addr key])
              = false := by
            show ((((if m1.refs.isSome then m1.withRefs (some rl2) else m1).addr == a)
              || false)) = false
            rw [haddr2]
            cases hq : (m1.addr == a) with
            | false => rfl
            | true => exact absurd (by simpa using hq) haddr
          have hsearch : hasPutFor a
              (if (if m1.refs.isSome then m1.withRefs (some rl2) else m1).searchable
                then [Ev.searchUpd key] else []) = false := by
            repeat' split
            all_goals rfl
          rw [hasPutFor_append, hasPutFor_append, hloop, hput, hsearch]
          rfl

/-- `Update` opens no transaction: its trace consists of the update's
flat datastore events followed by cache events. -/
theorem UpdateF_noTx (n : Nat) (st : St) (m : MRec) :
    noTx ((UpdateF n st m).2.2) = true := by
  unfold UpdateF
  cases hidx : indexF n m with
  | error e => rfl
  | ok m1 =>
      dsimp only
      rcases hu : updateF n st m1 with ⟨res, st2, tr⟩
      have hop : tr.all opEv = true := by
        have h2 := updateF_opEv n st m1
        rw [hu] at h2
        exact h2
      cases res with
      | error e => exact evAll_imp opEv_notTx tr hop
      | ok m2 =>
          dsimp only
          rcases hs : saveInMemcacheF n st2 m2 with ⟨res2, st3, tr2⟩
          have hcache : tr2.all Ev.isCacheEv = true := by
            have h2 := saveInMemcacheF_cacheEv n st2 m2
            rw [hs] at h2
            exact h2
          have hgoal : noTx (tr ++ tr2) = true := by
            show ((tr ++ tr2).all _) = true
            simp only [List.all_append, Bool.and_eq_true]
            exact ⟨evAll_imp opEv_notTx tr hop, evAll_imp cacheEv_notTx tr2 hcache⟩
          cases res2 with
          | error e => exact hgoal
          | ok u => exact hgoal

/-! ## Claim theorems C4 -/

/-- C4, counterexample: a keyed parent with a readonly reference whose
child is keyless receives a datastore put for that reference during
`Update` — the loop of `update` routes keyless children to
`createReference` (query.go:459-469), which writes the child regardless
of the readonly flag; the readonly guard only lives inside
`updateReference`. -/
theorem C4_keyless_readonly_written :
    exPRO.key.isSome = true
    ∧ (∃ rl, exPRO.refs = some rl
        ∧ ∃ r, r ∈ rl ∧ r.child.readonly = true ∧ r.child.key = none
          ∧ hasPutFor r.child.addr ((UpdateF 10 st0 exPRO).2.2) = true) := by
  exact ⟨rfl, ⟨_, rfl, ⟨_, List.mem_cons_self _ _, rfl, rfl, rfl⟩⟩⟩

/-- C4 (amended).  For a keyed parent whose readonly reference holds a
child that already has a key — the state every loaded or adopted
readonly child is in — `Update` never issues a datastore put for that
child: the loop hands the keyed child to `updateReference`, which
returns before writing (query.go:397-399), and no transaction hides any
further write.  Address-freshness hypotheses pin the child instance in
the event trace. -/
theorem C4_readonly_keyed_not_written (n : Nat) (st : St) (m m1 : MRec)
    (rl : List MRef) (r : MRef) (ck : Nat)
    (hidx : indexF n m = .ok m1)
    (hrefs : m1.refs = some rl) (hr : r ∈ rl)
    (hro : r.child.readonly = true) (hck : r.child.key = some ck)
    (haddr : m1.addr ≠ r.child.addr)
    (hother : ∀ r2, r2 ∈ rl → ¬ r2 = r →
      addrIn r.child.addr (recAddrs r2.child) = false) :
    hasPutFor r.child.addr ((UpdateF n st m).2.2) = false
    ∧ noTx ((UpdateF n st m).2.2) = true := by
  have hent : ∀ r2, r2 ∈ rl → (addrIn r.child.addr (recAddrs r2.child) = false
      ∨ (r2.child.readonly = true
          ∧ (r2.child.key.isSome = true ∨ r2.key.isSome = true))) := by
    intro r2 hm
    by_cases he : r2 = r
    · subst he
      exact Or.inr ⟨hro, Or.inl (by rw [hck]; rfl)⟩
    · exact Or.inl (hother r2 hm he)
  constructor
  · unfold UpdateF
    rw [hidx]
    dsimp only
    rcases hupd : updateF n st m1 with ⟨res, st2, tr⟩
    have hnp := updateF_no_put_for n st m1 r.child.addr rl hrefs haddr hent
    rw [hupd] at hnp
    cases res with
    | error e => exact hnp
    | ok m2 =>
        dsimp only
        rcases hs : saveInMemcacheF n st2 m2 with ⟨res2, st3, tr3⟩
        have hc3 : tr3.all Ev.isCacheEv = true := by
          have h2 := saveInMemcacheF_cacheEv n st2 m2
          rw [hs] at h2
          exact h2
        have hgoal : hasPutFor r.child.addr (tr ++ tr3) = false := by
          rw [hasPutFor_append, hnp, hasPutFor_of_cacheEv hc3]
          rfl
        cases res2 with
        | error e => exact hgoal
        | ok u => exact hgoal
  · exact UpdateF_noTx n st m

/-- C4, witness: the keyed-readonly-child parent sees no put for the
child during `Update`, and the trace opens no transaction. -/
theorem C4_readonly_keyed_not_written_witness :
    hasPutFor 14 ((UpdateF 10 st0 exPROk).2.2) = false
    ∧ noTx ((UpdateF 10 st0 exPROk).2.2) = true :=
  C4_readonly_keyed_not_written 10 st0 exPROk exPROk
    [.mk 0 exROk (some 77) false] (.mk 0 exROk (some 77) false) 77
    rfl rfl (List.mem_cons_self _ _) rfl rfl (by decide)
    (fun r2 hm hne => (hne (List.mem_singleton.mp hm)).elim)

/-! ## Structure preservation of the create path (C3) -/

/-- `withKey` sets the key slot. -/
theorem withKey_key (m : MRec) (k : Option Nat) : (m.withKey k).key = k := by
  cases m; rfl

/-- `withKey` preserves the reference slice. -/
theorem withKey_refs (m : MRec) (k : Option Nat) : (m.withKey k).refs = m.refs := by
  cases m; rfl

/-- `withRefs` replaces the reference slice. -/
theorem withRefs_refs (m : MRec) (rs : Option (List MRef)) : (m.withRefs rs).refs = rs := by
  cases m; rfl

/-- `withRefs` preserves the key. -/
theorem withRefs_key (m : MRec) (rs : Option (List MRef)) : (m.withRefs rs).key = m.key := by
  cases m; rfl

/-- Clearing an absent key is the identity. -/
theorem withKey_self (m : MRec) (h : m.key = none) : m.withKey none = m := by
  obtain ⟨a, k0, rg, ro, sz, se, fs, rs⟩ := m
  have h2 : k0 = none := h
  subst h2
  rfl

/-- `withKey` preserves deep registration. -/
theorem isRegistered_withKey (m : MRec) (k : Option Nat) :
    (m.withKey k).isRegistered = m.isRegistered := by
  obtain ⟨a, k0, rg, ro, sz, se, fs, rs⟩ := m
  cases rs <;> rfl

/-- Registration of a record with a replaced reference slice. -/
theorem isRegistered_withRefs_some (m : MRec) (rl2 : List MRef) :
    (m.withRefs (some rl2)).isRegistered = (m.registeredB && refsRegistered rl2) := by
  cases m; rfl

/-- Reference registration of one entry is its child's. -/
theorem refRegistered_eq (r : MRef) : refRegistered r = r.child.isRegistered := by
  cases r; rfl

/-- `refsRegistered` as an `all`. -/
theorem refsRegistered_eq_all : ∀ l : List MRef,
    refsRegistered l = l.all fun r2 => r2.child.isRegistered := by
  intro l
  induction l with
  | nil => rfl
  | cons r rest ih =>
      show (refRegistered r && refsRegistered rest) = _
      rw [refRegistered_eq, ih]
      rfl

/-- A deeply registered record has its flag set and a registered
reference list. -/
theorem isRegistered_parts {m : MRec} (h : m.isRegistered = true) :
    m.registeredB = true ∧ ∀ rl0, m.refs = some rl0 → refsRegistered rl0 = true := by
  obtain ⟨a, k0, rg, ro, sz, se, fs, rs⟩ := m
  cases rs with
  | none => exact ⟨h, fun rl0 h2 => by cases h2⟩
  | some rl =>
      have h2 : (rg && refsRegistered rl) = true := h
      simp only [Bool.and_eq_true] at h2
      refine ⟨h2.1, fun rl0 h3 => ?_⟩
      have h4 : rl = rl0 := by
        have : some rl = some rl0 := h3
        injection this
      subst h4
      exact h2.2

/-- Alignment of an entry depends only on its field index and its
child's address. -/
theorem alignedEntry_congr (fs : List MField) (r2 rin : MRef)
    (h1 : r2.idx = rin.idx) (h2 : r2.child.addr = rin.child.addr) :
    alignedEntry fs r2 = alignedEntry fs rin := by
  unfold alignedEntry
  rw [h1]
  cases hfc : fieldChildAt fs rin.idx with
  | none => rfl
  | some c => rw [h2]

/-- Lookup in a freshly inserted association entry. -/
theorem aget_aput {β : Type} (l : List (Nat × β)) (k : Nat) (v : β) :
    aget (aput l k v) k = some v := by
  show (if k = k then some v else aget l k) = some v
  rw [if_pos rfl]

/-- The reference loop of `updateReference` preserves registration of
the reference list. -/
theorem updateRefLoop_reg (u : St → MRef → Nat → RefRes) (c : St → MRef → RefRes)
    (hu : ∀ st r k st2 tr r2, u st r k = (.ok r2, st2, tr) →
        r.child.isRegistered = true → r2.child.isRegistered = true)
    (hc : ∀ st r st2 tr r2, c st r = (.ok r2, st2, tr) →
        r.child.isRegistered = true → r2.child.isRegistered = true) :
    ∀ (l : List MRef) (st : St) (rlOut : List MRef) (st2 : St) (tr : List Ev),
    updateRefLoop u c st l = (.ok rlOut, st2, tr) →
    refsRegistered l = true → refsRegistered rlOut = true := by
  intro l
  induction l with
  | nil =>
      intro st rlOut st2 tr h hreg
      have h1 := congrArg (fun p => p.1) h
      have h2 : (Except.ok ([] : List MRef) : Except String (List MRef)) = .ok rlOut := h1
      injection h2 with h3
      rw [← h3]
      rfl
  | cons r rest ih =>
      intro st rlOut st2 tr h hreg
      have hregp : (refRegistered r && refsRegistered rest) = true := hreg
      simp only [Bool.and_eq_true] at hregp
      rw [refRegistered_eq] at hregp
      unfold updateRefLoop at h
      dsimp only at h
      split at h
      · next e st3 tr3 heq => cases congrArg (fun p => p.1) h
      · next r2 st3 tr3 heq =>
          have hr2reg : r2.child.isRegistered = true := by
            cases hk : r.key with
            | some k =>
                rw [hk] at heq
                dsimp only at heq
                exact hu st r k st3 tr3 r2 heq hregp.1
            | none =>
                rw [hk] at heq
                dsimp only at heq
                cases hck : r.child.key with
                | some ck =>
                    rw [hck] at heq
                    dsimp only at heq
                    exact hu st r ck st3 tr3 r2 heq hregp.1
                | none =>
                    rw [hck] at heq
                    dsimp only at heq
                    split at heq
                    · have h1 := congrArg (fun p => p.1) heq
                      have h2 : (Except.ok r : Except String MRef) = .ok r2 := h1
                      injection h2 with h3
                      rw [← h3]
                      exact hregp.1
                    · exact hc st r st3 tr3 r2 heq hregp.1
          split at h
          · next e st4 tr4 heq2 => cases congrArg (fun p => p.1) h
          · next rl4 st4 tr4 heq2 =>
              have h1 := congrArg (fun p => p.1) h
              have h2 : (Except.ok (r2 :: rl4) : Except String (List MRef)) = .ok rlOut := h1
              injection h2 with h3
              rw [← h3]
              show (refRegistered r2 && refsRegistered rl4) = true
              rw [refRegistered_eq, hr2reg, ih st3 rl4 st4 tr4 heq2 hregp.2]
              rfl

/-- `withKey` preserves the registration flag. -/
theorem registeredB_withKey (m : MRec) (k : Option Nat) :
    (m.withKey k).registeredB = m.registeredB := by
  cases m; rfl

/-- Pointwise shape preservation of the reference loop of
`createWithOptions`: positions keep their field index and child
address, registration of children is preserved, and an entry skipped as
empty is kept untouched. -/
theorem createLoop_props (u : St → MRef → Nat → RefRes) (c : St → MRef → RefRes)
    (hu : ∀ st r k st2 tr r2, u st r k = (.ok r2, st2, tr) →
        r2.idx = r.idx ∧ r2.child.addr = r.child.addr
        ∧ (r.child.isRegistered = true → r2.child.isRegistered = true))
    (hc : ∀ st r st2 tr r2, c st r = (.ok r2, st2, tr) →
        r2.idx = r.idx ∧ r2.child.addr = r.child.addr
        ∧ (r.child.isRegistered = true → r2.child.isRegistered = true)) :
    ∀ (l : List MRef) (st : St) (anc : Option Nat) (rlOut : List MRef)
      (ancOut : Option Nat) (st2 : St) (tr : List Ev),
    createLoop u c st anc l = (.ok (rlOut, ancOut), st2, tr) →
    rlOut.length = l.length
    ∧ (∀ j2 r2, rlOut.get? j2 = some r2 → ∃ rin, l.get? j2 = some rin
        ∧ r2.idx = rin.idx ∧ r2.child.addr = rin.child.addr
        ∧ (rin.child.isRegistered = true → r2.child.isRegistered = true))
    ∧ (∀ j2 rin, l.get? j2 = some rin → rin.key = none → rin.child.key = none →
        (rin.child.skipIfZero && isZeroRec rin.child) = true →
        rlOut.get? j2 = some rin) := by
  intro l
  induction l with
  | nil =>
      intro st anc rlOut ancOut st2 tr h
      have h2 := congrArg (fun p => p.1) h
      dsimp only at h2
      injection h2 with h3
      have h4 : ([] : List MRef) = rlOut := congrArg Prod.fst h3
      rw [← h4]
      refine ⟨rfl, ?_, ?_⟩
      · intro j2 r2 hg
        cases j2 <;> cases hg
      · intro j2 rin hg hk hck hsz
        cases j2 <;> cases hg
  | cons r rest ih =>
      intro st anc rlOut ancOut st2 tr h
      unfold createLoop at h
      dsimp only at h
      split at h
      · cases congrArg (fun p => p.1) h
      · split at h
        · -- skip-if-empty branch: the entry is kept as is
          split at h
          · cases congrArg (fun p => p.1) h
          · next rl4 anc4 st4 tr4 heq2 =>
              have h2 := congrArg (fun p => p.1) h
              dsimp only at h2
              injection h2 with h3
              have h4 : r :: rl4 = rlOut := congrArg Prod.fst h3
              obtain ⟨ihl, ihpt, ihsl⟩ := ih st anc rl4 anc4 st4 tr4 heq2
              rw [← h4]
              refine ⟨by simp [ihl], ?_, ?_⟩
              · intro j2 r2 hg
                cases j2 with
                | zero =>
                    have h5 : some r = some r2 := hg
                    injection h5 with h6
                    subst h6
                    exact ⟨r, rfl, rfl, rfl, fun hh => hh⟩
                | succ j3 => exact ihpt j3 r2 hg
              · intro j2 rin hg hk hck hsz
                cases j2 with
                | zero => exact hg
                | succ j3 => exact ihsl j3 rin hg hk hck hsz
        · -- create or adopt branch
          next hcond2 =>
            split at h
            · cases congrArg (fun p => p.1) h
            · next r2s st3 tr3 heq =>
                have hstep : r2s.idx = r.idx ∧ r2s.child.addr = r.child.addr
                    ∧ (r.child.isRegistered = true → r2s.child.isRegistered = true) := by
                  cases hck : r.child.key with
                  | some ck =>
                      rw [hck] at heq
                      try dsimp only at heq
                      exact hu st r ck st3 tr3 r2s heq
                  | none =>
                      rw [hck] at heq
                      try dsimp only at heq
                      exact hc st r st3 tr3 r2s heq
                try dsimp only at h
                split at h
                · cases congrArg (fun p => p.1) h
                · next rl4 anc4 st4 tr4 heq2 =>
                    have h2 := congrArg (fun p => p.1) h
                    dsimp only at h2
                    injection h2 with h3
                    have h4 : r2s :: rl4 = rlOut := congrArg Prod.fst h3
                    obtain ⟨ihl, ihpt, ihsl⟩ := ih st3 _ rl4 anc4 st4 tr4 heq2
                    rw [← h4]
                    refine ⟨by simp [ihl], ?_, ?_⟩
                    · intro j2 r2 hg
                      cases j2 with
                      | zero =>
                          have h5 : some r2s = some r2 := hg
                          injection h5 with h6
                          subst h6
                          exact ⟨r, rfl, hstep.1, hstep.2.1, hstep.2.2⟩
                      | succ j3 => exact ihpt j3 r2 hg
                    · intro j2 rin hg hk hck hsz
                      cases j2 with
                      | zero =>
                          exfalso
                          have h5 : some r = some rin := hg
                          injection h5 with h6
                          subst h6
                          apply hcond2
                          rw [hck, hsz]
                          rfl
                      | succ j3 => exact ihsl j3 rin hg hk hck hsz

/-- Registration transfers along a pointwise-preserving list. -/
theorem refsRegistered_of_pointwise {lin lout : List MRef}
    (hpt : ∀ j2 r2, lout.get? j2 = some r2 → ∃ rin, lin.get? j2 = some rin
        ∧ r2.idx = rin.idx ∧ r2.child.addr = rin.child.addr
        ∧ (rin.child.isRegistered = true → r2.child.isRegistered = true))
    (hin : refsRegistered lin = true) : refsRegistered lout = true := by
  rw [refsRegistered_eq_all] at hin ⊢
  rw [List.all_eq_true] at hin ⊢
  intro r2 hr2
  obtain ⟨j2, hj2⟩ := List.mem_iff_get?.mp hr2
  obtain ⟨rin, hrin, _, _, himp⟩ := hpt j2 r2 hj2
  exact himp (hin rin (List.get?_mem hrin))

/-- Alignment transfers along a pointwise-preserving list. -/
theorem aligned_of_pointwise (fs : List MField) {lin lout : List MRef}
    (hpt : ∀ j2 r2, lout.get? j2 = some r2 → ∃ rin, lin.get? j2 = some rin
        ∧ r2.idx = rin.idx ∧ r2.child.addr = rin.child.addr
        ∧ (rin.child.isRegistered = true → r2.child.isRegistered = true))
    (hin : lin.all (alignedEntry fs) = true) : lout.all (alignedEntry fs) = true := by
  rw [List.all_eq_true] at hin ⊢
  intro r2 hr2
  obtain ⟨j2, hj2⟩ := List.mem_iff_get?.mp hr2
  obtain ⟨rin, hrin, h1, h2, _⟩ := hpt j2 r2 hj2
  rw [alignedEntry_congr fs r2 rin h1 h2]
  exact hin rin (List.get?_mem hrin)

/-- Index map transfers along a pointwise-preserving list. -/
theorem idxMap_of_pointwise {lin lout : List MRef}
    (hlen : lout.length = lin.length)
    (hpt : ∀ j2 r2, lout.get? j2 = some r2 → ∃ rin, lin.get? j2 = some rin
        ∧ r2.idx = rin.idx ∧ r2.child.addr = rin.child.addr
        ∧ (rin.child.isRegistered = true → r2.child.isRegistered = true)) :
    lout.map MRef.idx = lin.map MRef.idx := by
  apply List.ext_get?
  intro j2
  rw [List.get?_map, List.get?_map]
  cases hg : lout.get? j2 with
  | some r2 =>
      obtain ⟨rin, hrin, h1, _, _⟩ := hpt j2 r2 hg
      rw [hrin]
      show some r2.idx = some rin.idx
      rw [h1]
  | none =>
      have hj : lin.length ≤ j2 := by
        rw [← hlen]
        exact List.get?_eq_none.mp hg
      rw [List.get?_eq_none.mpr hj]

/-- `createWithOptions`, `updateReference` and `createReference`
preserve the address, the field index of the reference they return, and
deep registration. -/
theorem opsF_pres : ∀ n : Nat,
    (∀ (o : CreateOptions) (st : St) (m : MRec) (st2 : St) (tr : List Ev) (m2 : MRec),
        (opsF n).1 o st m = (.ok m2, st2, tr) →
        m2.addr = m.addr ∧ (m.isRegistered = true → m2.isRegistered = true))
    ∧ (∀ (st : St) (r : MRef) (k : Nat) (st2 : St) (tr : List Ev) (r2 : MRef),
        (opsF n).2.1 st r k = (.ok r2, st2, tr) →
        r2.idx = r.idx ∧ r2.child.addr = r.child.addr
        ∧ (r.child.isRegistered = true → r2.child.isRegistered = true))
    ∧ (∀ (st : St) (r : MRef) (st2 : St) (tr : List Ev) (r2 : MRef),
        (opsF n).2.2 st r = (.ok r2, st2, tr) →
        r2.idx = r.idx ∧ r2.child.addr = r.child.addr
        ∧ (r.child.isRegistered = true → r2.child.isRegistered = true)) := by
  intro n
  induction n with
  | zero =>
      refine ⟨?_, ?_, ?_⟩
      · intro o st m st2 tr m2 h
        cases congrArg (fun p => p.1) h
      · intro st r k st2 tr r2 h
        cases congrArg (fun p => p.1) h
      · intro st r st2 tr r2 h
        cases congrArg (fun p => p.1) h
  | succ j ih =>
      obtain ⟨ih1, ih2, ih3⟩ := ih
      have hu2 : ∀ st r k st2 tr r2, (opsF j).2.1 st r k = (.ok r2, st2, tr) →
          r2.idx = r.idx ∧ r2.child.addr = r.child.addr
          ∧ (r.child.isRegistered = true → r2.child.isRegistered = true) :=
        fun st r k st2 tr r2 hh => ih2 st r k st2 tr r2 hh
      have hc2 : ∀ st r st2 tr r2, (opsF j).2.2 st r = (.ok r2, st2, tr) →
          r2.idx = r.idx ∧ r2.child.addr = r.child.addr
          ∧ (r.child.isRegistered = true → r2.child.isRegistered = true) :=
        fun st r st2 tr r2 hh => ih3 st r st2 tr r2 hh
      refine ⟨?_, ?_, ?_⟩
      · intro o st m st2 tr m2 h
        have h0 : createWOS (opsF j).2.1 (opsF j).2.2 o st m = (.ok m2, st2, tr) := h
        unfold createWOS at h0
        split at h0
        · cases congrArg (fun p => p.1) h0
        · split at h0
          · cases congrArg (fun p => p.1) h0
          · next rl2 anc st3 tr3 heq =>
              have h2 := congrArg (fun p => p.1) h0
              dsimp only at h2
              injection h2 with h3
              subst h3
              obtain ⟨_, hpt, _⟩ :=
                createLoop_props _ _ hu2 hc2 (m.refs.getD []) st none rl2 anc st3 tr3 heq
              constructor
              · rw [withKey_addr]
                split
                · exact withRefs_addr _ _
                · rfl
              · intro hreg
                rw [isRegistered_withKey]
                obtain ⟨hrb, hrl⟩ := isRegistered_parts hreg
                split
                · next hsome =>
                    rw [isRegistered_withRefs_some]
                    obtain ⟨rl0, hrl0⟩ := Option.isSome_iff_exists.mp hsome
                    have hgd : m.refs.getD [] = rl0 := by rw [hrl0]; rfl
                    rw [hgd] at hpt
                    rw [hrb, refsRegistered_of_pointwise hpt (hrl rl0 hrl0)]
                    rfl
                · exact hreg
      · intro st r k st2 tr r2 h
        have h0 : updateRefS (opsF j).2.1 (opsF j).2.2 st r k = (.ok r2, st2, tr) := h
        unfold updateRefS at h0
        dsimp only at h0
        split at h0
        · next hro =>
            have h2 := congrArg (fun p => p.1) h0
            dsimp only at h2
            injection h2 with h3
            subst h3
            refine ⟨rfl, withKey_addr _ _, ?_⟩
            intro hreg
            show (r.child.withKey (some k)).isRegistered = true
            rw [isRegistered_withKey]
            exact hreg
        · split at h0
          · cases congrArg (fun p => p.1) h0
          · next rl2 st3 tr3 heq =>
              try dsimp only at h0
              have h2 := congrArg (fun p => p.1) h0
              dsimp only at h2
              injection h2 with h3
              subst h3
              refine ⟨rfl, ?_, ?_⟩
              · show (if (r.child.withKey (some k)).refs.isSome
                    then (r.child.withKey (some k)).withRefs (some rl2)
                    else (r.child.withKey (some k))).addr = r.child.addr
                split
                · rw [withRefs_addr, withKey_addr]
                · rw [withKey_addr]
              · intro hreg
                show (if (r.child.withKey (some k)).refs.isSome
                    then (r.child.withKey (some k)).withRefs (some rl2)
                    else (r.child.withKey (some k))).isRegistered = true
                obtain ⟨hrb, hrl⟩ := isRegistered_parts hreg
                split
                · next hsome =>
                    rw [isRegistered_withRefs_some, registeredB_withKey, hrb]
                    obtain ⟨rl0, hrl0⟩ := Option.isSome_iff_exists.mp hsome
                    have hrl0b : r.child.refs = some rl0 := by
                      rw [← withKey_refs r.child (some k)]
                      exact hrl0
                    have hgd : (r.child.withKey (some k)).refs.getD [] = rl0 := by
                      rw [hrl0]
                      rfl
                    rw [hgd] at heq
                    rw [updateRefLoop_reg (opsF j).2.1 (opsF j).2.2
                      (fun st r k st2 tr r2 hh hr => (hu2 st r k st2 tr r2 hh).2.2 hr)
                      (fun st r st2 tr r2 hh hr => (hc2 st r st2 tr r2 hh).2.2 hr)
                      rl0 st rl2 st3 tr3 heq (hrl rl0 hrl0b)]
                    rfl
                · rw [isRegistered_withKey]
                  exact hreg
      · intro st r st2 tr r2 h
        have h0 : createRefS (opsF j).1 st r = (.ok r2, st2, tr) := h
        unfold createRefS at h0
        split at h0
        · cases congrArg (fun p => p.1) h0
        · next c2 st3 tr3 heq =>
            have h2 := congrArg (fun p => p.1) h0
            dsimp only at h2
            injection h2 with h3
            subst h3
            obtain ⟨haddr, hregimp⟩ := ih1 NewCreateOptions st r.child st3 tr3 c2 heq
            exact ⟨rfl, haddr, fun hreg => hregimp hreg⟩

/-- The save loop leaves the datastore untouched. -/
theorem saveRefsLoop_ds (save : St → MRec → URes)
    (hs : ∀ st c, ((save st c).2.1).ds = st.ds) :
    ∀ (l : List MRef) (st : St), ((saveRefsLoop save st l).2.1).ds = st.ds := by
  intro l
  induction l with
  | nil => intro st; rfl
  | cons r rest ih =>
      intro st
      unfold saveRefsLoop
      split
      · exact ih st
      · split
        · exact ih st
        · next ck hck =>
            split
            · have hstep := hs st r.child
              split
              · next e st2 tr heq => rw [heq] at hstep; exact hstep
              · next u st2 tr heq =>
                  rw [heq] at hstep
                  have hstep2 : st2.ds = st.ds := hstep
                  have hrest := ih st2
                  split
                  · next e st3 tr2 heq2 =>
                      rw [heq2] at hrest
                      have hrest2 : st3.ds = st2.ds := hrest
                      exact hrest2.trans hstep2
                  · next km st3 tr2 heq2 =>
                      rw [heq2] at hrest
                      have hrest2 : st3.ds = st2.ds := hrest
                      exact hrest2.trans hstep2
            · rfl

/-- `saveInMemcache` leaves the datastore untouched. -/
theorem saveInMemcacheF_ds : ∀ (n : Nat) (st : St) (m : MRec),
    ((saveInMemcacheF n st m).2.1).ds = st.ds := by
  intro n
  induction n with
  | zero => intro st m; rfl
  | succ j ih =>
      intro st m
      show ((saveInMemcacheS (saveInMemcacheF j) st m).2.1).ds = st.ds
      unfold saveInMemcacheS
      split
      · rfl
      · split
        · rfl
        · next k hk =>
            split
            · rfl
            · have hloop := saveRefsLoop_ds (saveInMemcacheF j)
                (fun st2 c => ih st2 c) (m.refs.getD []) st
              split
              · next e st2 tr heq => rw [heq] at hloop; exact hloop
              · next km st2 tr heq => rw [heq] at hloop; exact hloop

/-- The load loop leaves the state untouched. -/
theorem loadRefsLoop_state (load : St → MRec → RecRes)
    (hl : ∀ st c, (load st c).2.1 = st) (km : List (Nat × Nat)) :
    ∀ (l : List MRef) (st : St), (loadRefsLoop load km st l).2.1 = st := by
  intro l
  induction l with
  | nil => intro st; rfl
  | cons r rest ih =>
      intro st
      unfold loadRefsLoop
      split
      · rfl
      · next ek hek =>
          have hstep := hl st (r.child.withKey (some ek))
          split
          · next e st2 tr heq => rw [heq] at hstep; exact hstep
          · next c2 st2 tr heq =>
              rw [heq] at hstep
              have hstep2 : st2 = st := hstep
              have hrest := ih st2
              split
              · next e st3 tr2 heq2 =>
                  rw [heq2] at hrest
                  have hrest2 : st3 = st2 := hrest
                  exact hrest2.trans hstep2
              · next rl st3 tr2 heq2 =>
                  rw [heq2] at hrest
                  have hrest2 : st3 = st2 := hrest
                  exact hrest2.trans hstep2

/-- `loadFromMemcache` leaves the state untouched. -/
theorem loadFromMemcacheF_state : ∀ (n : Nat) (st : St) (m : MRec),
    (loadFromMemcacheF n st m).2.1 = st := by
  intro n
  induction n with
  | zero => intro st m; rfl
  | succ j ih =>
      intro st m
      show (loadFromMemcacheS (loadFromMemcacheF j) st m).2.1 = st
      unfold loadFromMemcacheS
      split
      · rfl
      · next k hk =>
          split
          · rfl
          · split
            · rfl
            · next box hbox =>
                have hloop := loadRefsLoop_state (loadFromMemcacheF j)
                  (fun st2 c => ih st2 c) box.keyMap (m.refs.getD []) st
                split
                · next e st2 tr heq => rw [heq] at hloop; exact hloop
                · next rl2 st2 tr heq => rw [heq] at hloop; exact hloop

/-- A successful `read` of a keyless record returns it unchanged. -/
theorem readF_keyless {n : Nat} {st : St} {c c2 : MRec} {st2 : St} {tr : List Ev}
    (h : readF n st c = (.ok c2, st2, tr)) (hk : c.key = none) : c2 = c := by
  cases n with
  | zero => cases congrArg (fun p => p.1) h
  | succ j =>
      have h0 : readS (readF j) st c = (.ok c2, st2, tr) := h
      unfold readS at h0
      rw [hk] at h0
      have h2 := congrArg (fun p => p.1) h0
      dsimp only at h2
      injection h2 with h3
      exact h3.symm

/-- Pointwise description of a successful read loop: position `j` holds
the recursively read child with its key copied onto the slot. -/
theorem readRefsLoop_slot (rec : St → MRec → RecRes) :
    ∀ (l : List MRef) (st : St) (rlR : List MRef) (st2 : St) (tr : List Ev),
    readS.readRefsLoop rec st l = (.ok rlR, st2, tr) →
    ∀ j r0, l.get? j = some r0 →
      ∃ c2 st3 st4 tr2, rec st3 r0.child = (.ok c2, st4, tr2)
        ∧ rlR.get? j = some (.mk r0.idx c2 c2.key r0.ancestor) := by
  intro l
  induction l with
  | nil =>
      intro st rlR st2 tr h j r0 hg
      cases j <;> cases hg
  | cons r rest ih =>
      intro st rlR st2 tr h j r0 hg
      unfold readS.readRefsLoop at h
      split at h
      · cases congrArg (fun p => p.1) h
      · next c2 st3 tr3 heq =>
          split at h
          · cases congrArg (fun p => p.1) h
          · next rl4 st4 tr4 heq2 =>
              have h2 := congrArg (fun p => p.1) h
              dsimp only at h2
              injection h2 with h3
              cases j with
              | zero =>
                  have h5 : some r = some r0 := hg
                  injection h5 with h6
                  subst h6
                  refine ⟨c2, st, st3, tr3, heq, ?_⟩
                  rw [← h3]
                  rfl
              | succ j2 =>
                  obtain ⟨c2b, st5, st6, tr6, hrec, hsl⟩ := ih st3 rl4 st4 tr4 heq2 j2 r0 hg
                  refine ⟨c2b, st5, st6, tr6, hrec, ?_⟩
                  rw [← h3]
                  exact hsl

/-- A key map produced by the save loop has no entry for a field index
whose owners were all skipped (readonly or keyless child). -/
theorem saveRefsLoop_km_none (save : St → MRec → URes) (i : Nat) :
    ∀ (l : List MRef) (st : St) (km : List (Nat × Nat)) (st2 : St) (tr : List Ev),
    saveRefsLoop save st l = (.ok km, st2, tr) →
    (∀ r2, r2 ∈ l → r2.idx = i → (r2.child.readonly = true ∨ r2.child.key = none)) →
    aget km i = none := by
  intro l
  induction l with
  | nil =>
      intro st km st2 tr h hcond
      have h2 := congrArg (fun p => p.1) h
      dsimp only at h2
      injection h2 with h3
      rw [← h3]
      rfl
  | cons r rest ih =>
      intro st km st2 tr h hcond
      have hrest : ∀ r2, r2 ∈ rest → r2.idx = i →
          (r2.child.readonly = true ∨ r2.child.key = none) :=
        fun r2 hm hi => hcond r2 (List.mem_cons_of_mem r hm) hi
      unfold saveRefsLoop at h
      split at h
      · exact ih st km st2 tr h hrest
      · next hro =>
          split at h
          · exact ih st km st2 tr h hrest
          · next ck hck =>
              split at h
              · split at h
                · cases congrArg (fun p => p.1) h
                · next u st3 tr3 heq =>
                    split at h
                    · cases congrArg (fun p => p.1) h
                    · next km4 st4 tr4 heq2 =>
                        have h2 := congrArg (fun p => p.1) h
                        dsimp only at h2
                        injection h2 with h3
                        rw [← h3]
                        have hri : r.idx ≠ i := by
                          intro hri
                          rcases hcond r (List.mem_cons_self r rest) hri with h5 | h5
                          · exact hro h5
                          · rw [hck] at h5; cases h5
                        show (if r.idx = i then some (encKey ck) else aget km4 i) = none
                        rw [if_neg hri]
                        exact ih st3 km4 st4 tr4 heq2 hrest
              · cases congrArg (fun p => p.1) h

/-- In a list with distinct field indexes, an entry sharing the index
of the entry at a known position is that entry. -/
theorem nodup_unique_idx {rl : List MRef} (hnd : (rl.map MRef.idx).Nodup)
    {j j2 : Nat} {r r2 : MRef} (hj : rl.get? j = some r) (hj2 : rl.get? j2 = some r2)
    (hidx : r2.idx = r.idx) : j2 = j ∧ r2 = r := by
  have hmj : (rl.map MRef.idx).get? j = some r.idx := by
    rw [List.get?_map, hj]
    rfl
  have hmj2 : (rl.map MRef.idx).get? j2 = some r2.idx := by
    rw [List.get?_map, hj2]
    rfl
  obtain ⟨hlt, _⟩ := List.get?_eq_some.mp hmj2
  have heq : (rl.map MRef.idx).get? j2 = (rl.map MRef.idx).get? j := by
    rw [hmj, hmj2, hidx]
  have hjj : j2 = j := List.get?_inj hlt hnd heq
  subst hjj
  rw [hj] at hj2
  injection hj2 with h6
  exact ⟨rfl, h6.symm⟩

/-- Assigning a stored reference key preserves a slot whose field index
is unique: if the pair carries the slot's own index it must carry no
key, and the slot keeps a keyless child; slots before it never match
the index. -/
theorem setRefChildKey_slot (i0 : Nat) (rk : Option Nat) (anc0 : Bool) :
    ∀ (l : List MRef) (j : Nat) (c2 : MRec) (i : Nat) (k : Option Nat),
    l.get? j = some (.mk i0 c2 rk anc0) → c2.key = none →
    (∀ j2 r2, j2 < j → l.get? j2 = some r2 → r2.idx ≠ i0) →
    (i = i0 → k = none) →
    ∃ c3, (setRefChildKey l i k).get? j = some (.mk i0 c3 rk anc0) ∧ c3.key = none
      ∧ (∀ j2 r2, j2 < j → (setRefChildKey l i k).get? j2 = some r2 → r2.idx ≠ i0) := by
  intro l
  induction l with
  | nil =>
      intro j c2 i k hg
      cases j <;> cases hg
  | cons h rest ih =>
      obtain ⟨hi, hc, hck2, hanc⟩ := h
      intro j c2 i k hg hkey hpre himp
      simp only [setRefChildKey]
      cases j with
      | zero =>
          have h5 : some (MRef.mk hi hc hck2 hanc) = some (.mk i0 c2 rk anc0) := hg
          injection h5 with h6
          injection h6 with e1 e2 e3 e4
          rw [e1, e2, e3, e4]
          by_cases hii : i0 = i
          · rw [if_pos hii]
            have hk : k = none := himp hii.symm
            subst hk
            exact ⟨c2.withKey none, rfl, withKey_key c2 none,
              fun j2 r2 hlt _ => (Nat.not_lt_zero j2 hlt).elim⟩
          · rw [if_neg hii]
            exact ⟨c2, rfl, hkey,
              fun j2 r2 hlt _ => (Nat.not_lt_zero j2 hlt).elim⟩
      | succ j2 =>
          have hh0 : (MRef.mk hi hc hck2 hanc).idx ≠ i0 :=
            hpre 0 (MRef.mk hi hc hck2 hanc) (Nat.succ_pos j2) rfl
          have hgr : rest.get? j2 = some (.mk i0 c2 rk anc0) := hg
          by_cases hii : hi = i
          · rw [if_pos hii]
            refine ⟨c2, hgr, hkey, ?_⟩
            intro j3 r2 hlt hget
            cases j3 with
            | zero =>
                have h5 : some (MRef.mk hi (hc.withKey k) hck2 hanc) = some r2 := hget
                injection h5 with h6
                rw [← h6]
                exact hh0
            | succ j4 =>
                exact hpre (j4 + 1) r2 hlt hget
          · rw [if_neg hii]
            have hprer : ∀ j3 r2, j3 < j2 → rest.get? j3 = some r2 → r2.idx ≠ i0 :=
              fun j3 r2 hlt hget => hpre (j3 + 1) r2 (Nat.succ_lt_succ hlt) hget
            obtain ⟨c3, hg3, hk3, hpre3⟩ := ih j2 c2 i k hgr hkey hprer himp
            refine ⟨c3, hg3, hk3, ?_⟩
            intro j3 r2 hlt hget
            cases j3 with
            | zero =>
                have h5 : some (MRef.mk hi hc hck2 hanc) = some r2 := hget
                injection h5 with h6
                rw [← h6]
                exact hh0
            | succ j4 =>
                exact hpre3 j4 r2 (Nat.lt_of_succ_lt_succ hlt) hget

/-- Folding the stored reference keys over the list preserves a slot
with a unique field index whose pairs all carry no key. -/
theorem foldl_setRef_slot (i0 : Nat) (rk : Option Nat) (anc0 : Bool) :
    ∀ (pairs : List (Nat × Option Nat)) (acc : List MRef) (j : Nat) (c2 : MRec),
    acc.get? j = some (.mk i0 c2 rk anc0) → c2.key = none →
    (∀ j2 r2, j2 < j → acc.get? j2 = some r2 → r2.idx ≠ i0) →
    (∀ p, p ∈ pairs → p.1 = i0 → p.2 = none) →
    ∃ c3, (pairs.foldl (fun acc2 p => setRefChildKey acc2 p.1 p.2) acc).get? j
        = some (.mk i0 c3 rk anc0) ∧ c3.key = none := by
  intro pairs
  induction pairs with
  | nil =>
      intro acc j c2 h1 h2 h3 h4
      exact ⟨c2, h1, h2⟩
  | cons p rest ih =>
      intro acc j c2 h1 h2 h3 h4
      obtain ⟨c3, hg, hk, hpre⟩ := setRefChildKey_slot i0 rk anc0 acc j c2 p.1 p.2 h1 h2 h3
        (fun hp => h4 p (List.mem_cons_self _ _) hp)
      exact ih (setRefChildKey acc p.1 p.2) j c3 hg hk hpre
        (fun q hq hqi => h4 q (List.mem_cons_of_mem _ hq) hqi)

/-- `withRefs` preserves the fields. -/
theorem withRefs_fields (m : MRec) (rs : Option (List MRef)) :
    (m.withRefs rs).fields = m.fields := by
  cases m; rfl

/-- `withKey` preserves the fields. -/
theorem withKey_fields (m : MRec) (k : Option Nat) :
    (m.withKey k).fields = m.fields := by
  cases m; rfl

/-- Constructor surjectivity for references. -/
theorem MRef.eta (r : MRef) : MRef.mk r.idx r.child r.key r.ancestor = r := by
  cases r; rfl

/-- `topAligned` of a record with a present reference slice. -/
theorem topAligned_some {m : MRec} {rl : List MRef} (h : m.refs = some rl) :
    topAligned m = rl.all (alignedEntry m.fields) := by
  obtain ⟨a0, k0, rg, ro, sz0, se, fs, refsOpt⟩ := m
  have h2 : refsOpt = some rl := h
  subst h2
  rfl

/-- A successful fuelled `saveInMemcache` of a keyed record stores the
key map produced by the reference walk and the record itself under the
encoded key, and leaves the datastore untouched. -/
theorem saveInMemcacheF_ok_cache (n2 : Nat) (st : St) (m : MRec) (k : Nat)
    (u : Unit) (st4 : St) (tr : List Ev)
    (hkey : m.key = some k)
    (h : saveInMemcacheF (n2 + 1) st m = (.ok u, st4, tr)) :
    ∃ km st3 tr3, saveRefsLoop (saveInMemcacheF n2) st (m.refs.getD []) = (.ok km, st3, tr3)
      ∧ st4.cache = aput st3.cache (encKey k) ⟨km, m⟩ ∧ st4.ds = st3.ds := by
  have h0 : saveInMemcacheS (saveInMemcacheF n2) st m = (.ok u, st4, tr) := h
  unfold saveInMemcacheS at h0
  split at h0
  · cases congrArg (fun p => p.1) h0
  · split at h0
    · next hknone => rw [hkey] at hknone; cases hknone
    · next k2 hk2 =>
        have hkk : k2 = k := by
          rw [hkey] at hk2
          injection hk2 with h3
          exact h3.symm
        subst hkk
        split at h0
        · cases congrArg (fun p => p.1) h0
        · split at h0
          · cases congrArg (fun p => p.1) h0
          · next km st3 tr3 heq =>
              have h2 := congrArg (fun p => p.2.1) h0
              dsimp only at h2
              refine ⟨km, st3, tr3, heq, ?_, ?_⟩
              · rw [← h2]
              · rw [← h2]

/-- Shape of a successful default `Create` of a keyless, stably indexed
record: the references are resolved by the create loop, the record is
keyed with the allocated id and stored, and the cache mirror ran
successfully on the result. -/
theorem CreateF_ok_shape (n2 : Nat) (st : St) (m m1 : MRec) (rl : List MRef)
    (hidx : indexF (n2 + 1) m = .ok m)
    (hrefs : m.refs = some rl) (hkey : m.key = none)
    (hok : (CreateF (n2 + 1) st m).1 = .ok m1) :
    ∃ rlOut ancOut st2 tr u st4 tr4,
      createLoop (opsF n2).2.1 (opsF n2).2.2 st none rl = (.ok (rlOut, ancOut), st2, tr)
      ∧ m1 = (m.withRefs (some rlOut)).withKey (some st2.nextKey)
      ∧ saveInMemcacheF (n2 + 1)
          ⟨aput st2.ds st2.nextKey (storeEntity (m.withRefs (some rlOut))), st2.cache,
            st2.nextKey + 1⟩ m1 = (.ok u, st4, tr4)
      ∧ (CreateF (n2 + 1) st m).2.1 = st4 := by
  unfold CreateF CreateWithOptionsF at hok ⊢
  rw [hidx] at hok ⊢
  dsimp only at hok ⊢
  rw [if_neg (by decide : ¬ NewCreateOptions.attempts > 0)] at hok ⊢
  have hdef : createWithOptionsF (n2 + 1) NewCreateOptions st m
      = createWOS (opsF n2).2.1 (opsF n2).2.2 NewCreateOptions st m := rfl
  rw [hdef] at hok ⊢
  unfold createWOS at hok ⊢
  rw [hkey, hrefs] at hok ⊢
  simp only [Option.isSome_some, Option.isSome_none, Option.getD_some] at hok ⊢
  rw [if_neg (by simp : ¬ (false = true))] at hok ⊢
  split at hok
  · cases hok
  · next m2 st2 tr heq =>
      split at hok
      · cases hok
      · next u st3 tr2 heq2 =>
          have h3 : (Except.ok m2 : Except String MRec) = .ok m1 := hok
          injection h3 with h4
          subst h4
          split at heq
          · next e st4 tr4 heq3 => cases congrArg (fun p => p.1) heq
          · next rl2 anc st4 tr4 heq3 =>
              have h6 : (if True then m.withRefs (some rl2) else m).withKey
                  (some st4.nextKey) = m2 := by
                have h5 := congrArg (fun p => p.1) heq
                dsimp only at h5
                injection h5 with h5b
              have h7 : (⟨aput st4.ds st4.nextKey
                  (storeEntity (if True then m.withRefs (some rl2) else m)),
                  st4.cache, st4.nextKey + 1⟩ : St) = st2 := by
                have h5 := congrArg (fun p => p.2.1) heq
                dsimp only at h5
                exact h5
              simp only [if_true] at h6 h7 ⊢
              exact ⟨rl2, anc, st4, tr4, u, st3, tr2, heq3, h6.symm,
                by rw [h7]; exact heq2, rfl⟩

/-! ## Claim theorems C3 -/

/-- C3.  A skip-if-empty reference left at its zero value is never
assigned a key by `Create` — the loop keeps the entry untouched
(extension.go:100-103) and omits it from the stored entity's key and
from the cache key map — and after a subsequent `Read` of the parent
the child is still keyless: the cache load misses (the key map lacks
the reference), the datastore entity stores an empty key for the slot,
and the recursive read leaves a keyless child alone (read.go:57-59).
Stated for a stably indexed, aligned, registered parent whose reference
field indexes are distinct, as `index` guarantees. -/
theorem C3_skip_if_empty (n : Nat) (st : St) (m m1 : MRec) (rl : List MRef)
    (j : Nat) (r : MRef)
    (hrefs : m.refs = some rl) (hj : rl.get? j = some r)
    (hkey : m.key = none)
    (hreg : m.isRegistered = true)
    (hal : topAligned m = true)
    (hidx : indexF n m = .ok m)
    (hnd : (rl.map MRef.idx).Nodup)
    (hrk : r.key = none) (hck : r.child.key = none)
    (hsz : (r.child.skipIfZero && isZeroRec r.child) = true)
    (hcreate : (CreateF n st m).1 = .ok m1) :
    (∃ rl1, m1.refs = some rl1 ∧ rl1.get? j = some r)
    ∧ (∀ m2, (ReadF n ((CreateF n st m).2.1) m1).1 = .ok m2 →
        ∃ rl2 r2, m2.refs = some rl2 ∧ rl2.get? j = some r2
          ∧ r2.key = none ∧ r2.child.key = none) := by
  cases n with
  | zero => cases hcreate
  | succ n2 =>
      obtain ⟨rlOut, ancOut, st2, tr, u, st4, tr4, hloop, hm1, hsave, hcst⟩ :=
        CreateF_ok_shape n2 st m m1 rl hidx hrefs hkey hcreate
      obtain ⟨hp1, hp2, hp3⟩ := opsF_pres n2
      obtain ⟨hlen, hpt, hslot⟩ :=
        createLoop_props _ _ hp2 hp3 rl st none rlOut ancOut st2 tr hloop
      have hslotj : rlOut.get? j = some r := hslot j r hj hrk hck hsz
      have hm1refs : m1.refs = some rlOut := by
        rw [hm1, withKey_refs, withRefs_refs]
      have hm1key : m1.key = some st2.nextKey := by
        rw [hm1, withKey_key]
      have hm1fields : m1.fields = m.fields := by
        rw [hm1, withKey_fields, withRefs_fields]
      constructor
      · exact ⟨rlOut, hm1refs, hslotj⟩
      · intro m2 hread
        obtain ⟨hrb, hrlreg⟩ := isRegistered_parts hreg
        have hm1reg : m1.isRegistered = true := by
          rw [hm1, isRegistered_withKey, isRegistered_withRefs_some, hrb,
            refsRegistered_of_pointwise hpt (hrlreg rl hrefs)]
          rfl
        have hm1al : topAligned m1 = true := by
          rw [topAligned_some hm1refs, hm1fields]
          exact aligned_of_pointwise m.fields hpt
            (by rw [← topAligned_some hrefs]; exact hal)
        have hidx1 : indexF (n2 + 1) m1 = .ok m1 := by
          show indexS (indexF n2) m1 = .ok m1
          exact indexS_id _ m1 rlOut hm1refs hm1reg hm1al
        have hmapidx : rlOut.map MRef.idx = rl.map MRef.idx := idxMap_of_pointwise hlen hpt
        have hndOut : (rlOut.map MRef.idx).Nodup := by
          rw [hmapidx]
          exact hnd
        obtain ⟨km, st3s, tr3s, hsloop, hcache4, hds4⟩ :=
          saveInMemcacheF_ok_cache n2 _ m1 st2.nextKey u st4 tr4 hm1key hsave
        have hgd1 : m1.refs.getD [] = rlOut := by
          rw [hm1refs]
          rfl
        rw [hgd1] at hsloop
        have hkmnone : aget km r.idx = none := by
          refine saveRefsLoop_km_none (saveInMemcacheF n2) r.idx rlOut _ km st3s tr3s hsloop ?_
          intro r2 hm2 hi2
          obtain ⟨j2, hj2⟩ := List.mem_iff_get?.mp hm2
          obtain ⟨_, hr2r⟩ := nodup_unique_idx hndOut hslotj hj2 hi2
          subst hr2r
          exact Or.inr hck
        unfold ReadF at hread
        rw [hidx1] at hread
        dsimp only at hread
        rw [hcst] at hread
        have hbox4 : aget st4.cache (encKey st2.nextKey) = some ⟨km, m1⟩ := by
          rw [hcache4]
          exact aget_aput _ _ _
        have hload : ∃ e, (loadFromMemcacheF (n2 + 1) st4 m1).1 = .error e := by
          show ∃ e, (loadFromMemcacheS (loadFromMemcacheF n2) st4 m1).1 = .error e
          unfold loadFromMemcacheS
          rw [hm1key]
          dsimp only
          split
          · exact ⟨_, rfl⟩
          · rw [hbox4]
            dsimp only
            rw [hgd1]
            obtain ⟨e, he⟩ := loadRefsLoop_miss_err (loadFromMemcacheF n2) km rlOut r
              (List.get?_mem hslotj) hkmnone st4
            rcases hloop2 : loadRefsLoop (loadFromMemcacheF n2) km st4 rlOut
              with ⟨res, stx, trx⟩
            rw [hloop2] at he
            have he2 : res = .error e := he
            subst he2
            exact ⟨e, rfl⟩
        obtain ⟨e0, he0⟩ := hload
        rcases hld : loadFromMemcacheF (n2 + 1) st4 m1 with ⟨lres, st5, tr5⟩
        rw [hld] at he0 hread
        have hlres : lres = .error e0 := he0
        subst hlres
        dsimp only at hread
        have hst5 : st5 = st4 := by
          have h2 := loadFromMemcacheF_state (n2 + 1) st4 m1
          rw [hld] at h2
          exact h2
        rw [hst5] at hread
        have hds : aget st4.ds st2.nextKey
            = some (storeEntity (m.withRefs (some rlOut))) := by
          rw [hds4]
          have h2 := saveRefsLoop_ds (saveInMemcacheF n2)
            (fun stx c => saveInMemcacheF_ds n2 stx c) rlOut
            (⟨aput st2.ds st2.nextKey (storeEntity (m.withRefs (some rlOut))), st2.cache,
              st2.nextKey + 1⟩ : St)
          rw [hsloop] at h2
          have h3 : st3s.ds
              = aput st2.ds st2.nextKey (storeEntity (m.withRefs (some rlOut))) := h2
          rw [h3]
          exact aget_aput _ _ _
        rcases hrd : readF (n2 + 1) st4 m1 with ⟨rres, st6, tr6⟩
        rw [hrd] at hread
        have hrd0 : readS (readF n2) st4 m1 = (rres, st6, tr6) := hrd
        unfold readS at hrd0
        rw [hm1key] at hrd0
        dsimp only at hrd0
        rw [hds] at hrd0
        dsimp only at hrd0
        have happ : applyEntity m1 (storeEntity (m.withRefs (some rlOut)))
            = m1.withRefs (some ((storeEntity (m.withRefs (some rlOut))).refKeys.foldl
                (fun acc p => setRefChildKey acc p.1 p.2) rlOut)) := by
          unfold applyEntity
          rw [hm1refs]
          rfl
        have hent : (storeEntity (m.withRefs (some rlOut))).refKeys
            = rlOut.map (fun r2 => (r2.idx, r2.child.key)) := by
          unfold storeEntity
          rw [withRefs_refs]
          rfl
        rw [happ, hent] at hrd0
        have hslotj2 : rlOut.get? j = some (.mk r.idx r.child r.key r.ancestor) := by
          rw [MRef.eta]
          exact hslotj
        have hpre : ∀ j2 r2, j2 < j → rlOut.get? j2 = some r2 → r2.idx ≠ r.idx := by
          intro j2 r2 hlt hg2 heq2
          obtain ⟨hjj, _⟩ := nodup_unique_idx hndOut hslotj hg2 heq2
          rw [hjj] at hlt
          exact Nat.lt_irrefl j hlt
        have hpairs : ∀ p, p ∈ rlOut.map (fun r2 => (r2.idx, r2.child.key)) →
            p.1 = r.idx → p.2 = none := by
          intro p hp hp1
          obtain ⟨r2, hm2, hp2⟩ := List.mem_map.mp hp
          obtain ⟨j2, hj2⟩ := List.mem_iff_get?.mp hm2
          have hi2 : r2.idx = r.idx := by
            rw [← hp2] at hp1
            exact hp1
          obtain ⟨_, hr2r⟩ := nodup_unique_idx hndOut hslotj hj2 hi2
          subst hr2r
          rw [← hp2]
          exact hck
        obtain ⟨c3, hgA, hkc3⟩ := foldl_setRef_slot r.idx r.key r.ancestor
          (rlOut.map (fun r2 => (r2.idx, r2.child.key))) rlOut j r.child
          hslotj2 hck hpre hpairs
        have hgdA : (m1.withRefs (some (List.foldl
            (fun acc p => setRefChildKey acc p.1 p.2) rlOut
            (rlOut.map (fun r2 => (r2.idx, r2.child.key)))))).refs.getD []
            = List.foldl (fun acc p => setRefChildKey acc p.1 p.2) rlOut
              (rlOut.map (fun r2 => (r2.idx, r2.child.key))) := by
          rw [withRefs_refs]
          rfl
        rw [hgdA] at hrd0
        cases rres with
        | error e2 =>
            dsimp only at hread
            cases hread
        | ok mOut =>
            dsimp only at hread
            have hm2 : mOut = m2 := by
              injection hread with h3
            split at hrd0
            · next e st7 tr7 heqL => cases congrArg (fun p => p.1) hrd0
            · next rlR st7 tr7 heqL =>
                obtain ⟨c2r, stA, stB, trB, hrec, hslR⟩ :=
                  readRefsLoop_slot (readF n2) _ st4 rlR st7 tr7 heqL j
                    (.mk r.idx c3 r.key r.ancestor) hgA
                have hc2r : c2r = c3 := readF_keyless hrec hkc3
                subst hc2r
                have hrr := congrArg (fun p => p.1) hrd0
                dsimp only at hrr
                injection hrr with hOut
                rw [withRefs_refs] at hOut
                simp only [Option.isSome_some, eq_self_iff_true, if_true] at hOut
                refine ⟨rlR, .mk r.idx c2r c2r.key r.ancestor, ?_, hslR, hkc3, hkc3⟩
                rw [← hm2, ← hOut, withRefs_refs]

/-- C3, witness: the concrete parent with its zero-valued skip-if-empty
child keeps the child keyless through `Create` and a subsequent `Read`,
and the read in fact succeeds. -/
theorem C3_skip_if_empty_witness :
    ((∃ rl1, exEntC.refs = some rl1 ∧ rl1.get? 1 = some exSkipRef)
      ∧ (∀ m2, (ReadF 10 ((CreateF 10 st0 exEntI).2.1) exEntC).1 = .ok m2 →
          ∃ rl2 r2, m2.refs = some rl2 ∧ rl2.get? 1 = some r2
            ∧ r2.key = none ∧ r2.child.key = none))
    ∧ (match (ReadF 10 ((CreateF 10 st0 exEntI).2.1) exEntC).1 with
        | .ok _ => true
        | .error _ => false) = true :=
  ⟨C3_skip_if_empty 10 st0 exEntI exEntC (exEntI.refs.getD []) 1 exSkipRef
      rfl rfl rfl rfl rfl rfl (by decide) rfl rfl rfl rfl,
    rfl⟩

end GoModel
